import Mathlib

/-!
# Array list, array deque and message priority queue

A shallow embedding of `src/PriorityQueue/array_list.c`,
`src/ArrayDeque/array_deque.c` and `src/PriorityQueue/messagepriorityqueue.c`,
followed by the fixed-capacity list of `src/ArrayList/array_list.c` (namespace
`Fixed`) and the linked list, iterator and crawler of `src/LinkedList`,
`src/LinkedListIterator` and `src/LinkedListCrawler`.

* A `char*` slot is an `Option String`: `none` is the `NULL` pointer, `some s` a
  heap copy holding the text `s`.
* `size_t` values are natural numbers; every operation that can wrap in C is
  reduced modulo `2 ^ 64` explicitly.
* The backing array `vals` is the list of its slots; for a well-formed list its
  length is `capacity`.
* Functions that mutate through a pointer return the new state next to their
  result; an out-parameter that is written only on success becomes an `Option`.
-/

namespace DataStructure

/-! ## size_t arithmetic -/

/-- The largest `size_t` value. -/
def SIZE_MAX : Nat := 2 ^ 64 - 1

/-- The largest `int` value. -/
def INT_MAX : Nat := 2 ^ 31 - 1

/-- Reduction of a natural number to the `size_t` range. -/
def wrapSizeT (n : Nat) : Nat := n % 2 ^ 64

/-- Subtraction `a - b` on `size_t`. -/
def subSizeT (a b : Nat) : Nat := (a + 2 ^ 64 - b % 2 ^ 64) % 2 ^ 64

/-- Multiplication `a * b` on `size_t`. -/
def mulSizeT (a b : Nat) : Nat := (a * b) % 2 ^ 64

/-- Addition `a + b` on `size_t`. -/
def addSizeT (a b : Nat) : Nat := (a + b) % 2 ^ 64

/-! ## ArrayList (`array_list.c`) -/

/-- The `ArrayList` struct: `vals`, `size`, `capacity`, `maxCapacity`. -/
structure ArrayList where
  vals : List (Option String)
  size : Nat
  capacity : Nat
  maxCapacity : Nat
  deriving DecidableEq, Repr

/-- The function `newArrayList`: `calloc` yields `capacity` null slots. -/
def newArrayList (maxCapacity : Nat) : ArrayList :=
  let capacity := if maxCapacity < 2 then maxCapacity else 2
  { vals := List.replicate capacity none
    size := 0
    capacity := capacity
    maxCapacity := maxCapacity }

/-- The loop `for (i = list->capacity; i < newCapacity; i++) newVals[i] = NULL`
applied to the reallocated array: `realloc` keeps the first `capacity` slots and
the loop sets each of the `n` slots after them to `NULL`. The source declares
the counter `int`; this function counts exactly, which is what the loop does
while `newCapacity` fits in `int`. The loop with its `int` counter is
`Strict.initNewVals`, and `strict_ensureArrayCapacity_in_range` relates the
two. -/
def initNewVals (vals : List (Option String)) : Nat → List (Option String)
  | 0 => vals
  | n + 1 => initNewVals (vals ++ [none]) n

/-- The function `ensureArrayCapacity`. The flag `reallocOk` says whether
`realloc` returns a non-null pointer when it is called. -/
def ensureArrayCapacity (reallocOk : Bool) (list : ArrayList) : Bool × ArrayList :=
  if list.size = list.capacity then
    if list.capacity = list.maxCapacity then
      (false, list)
    else
      let newCapacity :=
        if subSizeT list.maxCapacity list.capacity < list.capacity then
          list.maxCapacity
        else
          mulSizeT list.capacity 2
      if reallocOk = false then
        (false, list)
      else
        (true, { list with
                  vals := initNewVals list.vals (newCapacity - list.capacity)
                  capacity := newCapacity })
  else
    (true, list)

/-- The function `setArrayListValAt`: the slot receives `strdup(val)`. -/
def setArrayListValAt (list : ArrayList) (index : Nat) (val : String) : Bool × ArrayList :=
  if index < list.size then
    (true, { list with vals := list.vals.set index (some val) })
  else
    (false, list)

/-- The loop `for (i = list->size; i > index; i--) vals[i] = vals[i-1]` of
`addArrayListValAt`, started at `i`. -/
def shiftUp (index : Nat) : Nat → List (Option String) → List (Option String)
  | 0, vals => vals
  | i + 1, vals =>
    if i + 1 > index then
      shiftUp index i (vals.set (i + 1) (vals.getD i none))
    else
      vals

/-- The function `addArrayListValAt`. -/
def addArrayListValAt (reallocOk : Bool) (list : ArrayList) (index : Nat) (val : String) :
    Bool × ArrayList :=
  if index > list.size then
    (false, list)
  else
    match ensureArrayCapacity reallocOk list with
    | (false, list1) => (false, list1)
    | (true, list1) =>
      let vals1 := shiftUp index list1.size list1.vals
      let vals2 := vals1.set index none
      let list2 := { list1 with vals := vals2, size := addSizeT list1.size 1 }
      (true, (setArrayListValAt list2 index val).2)

/-- The function `addFirstArrayListVal`. -/
def addFirstArrayListVal (reallocOk : Bool) (list : ArrayList) (val : String) :
    Bool × ArrayList :=
  addArrayListValAt reallocOk list 0 val

/-- The function `addLastArrayListVal`. -/
def addLastArrayListVal (reallocOk : Bool) (list : ArrayList) (val : String) :
    Bool × ArrayList :=
  addArrayListValAt reallocOk list list.size val

/-- The function `getArrayListValAt`: `some slot` when it returns true and
stores the slot in `*val`, `none` when it returns false. -/
def getArrayListValAt (list : ArrayList) (index : Nat) : Option (Option String) :=
  if index < list.size then
    some (list.vals.getD index none)
  else
    none

/-- The function `getFirstArrayListVal`. -/
def getFirstArrayListVal (list : ArrayList) : Option (Option String) :=
  getArrayListValAt list 0

/-- The function `getLastArrayListVal`. -/
def getLastArrayListVal (list : ArrayList) : Option (Option String) :=
  if list.size = 0 then
    none
  else
    getArrayListValAt list (subSizeT list.size 1)

/-- The function `setFirstArrayListVal`. -/
def setFirstArrayListVal (list : ArrayList) (val : String) : Bool × ArrayList :=
  setArrayListValAt list 0 val

/-- The function `setLastArrayListVal`. -/
def setLastArrayListVal (list : ArrayList) (val : String) : Bool × ArrayList :=
  if list.size = 0 then
    (false, list)
  else
    setArrayListValAt list (subSizeT list.size 1) val

/-- The function `arrayListSize`. -/
def arrayListSize (list : ArrayList) : Nat := list.size

/-- The function `isArrayListEmpty`. -/
def isArrayListEmpty (list : ArrayList) : Bool := decide (list.size = 0)

/-- The loop `for (i = index; i < list->size; i++) vals[i] = vals[i+1]` of
`deleteArrayListValAt`, with `n` iterations left and the counter at `i`. -/
def shiftDown : Nat → Nat → List (Option String) → List (Option String)
  | 0, _, vals => vals
  | n + 1, i, vals => shiftDown n (i + 1) (vals.set i (vals.getD (i + 1) none))

/-- The function `deleteArrayListValAt`. -/
def deleteArrayListValAt (list : ArrayList) (index : Nat) : Bool × ArrayList :=
  if index ≥ list.size then
    (false, list)
  else
    let size1 := subSizeT list.size 1
    let vals1 := shiftDown (size1 - index) index list.vals
    (true, { list with vals := vals1.set size1 none, size := size1 })

/-- The function `deleteFirstArrayListVal`. -/
def deleteFirstArrayListVal (list : ArrayList) : Bool × ArrayList :=
  deleteArrayListValAt list 0

/-- The function `deleteLastArrayListVal`. -/
def deleteLastArrayListVal (list : ArrayList) : Bool × ArrayList :=
  if list.size > 0 then
    deleteArrayListValAt list (subSizeT list.size 1)
  else
    (false, list)

/-- The loop `while (deleteLastArrayListVal(list)) {}` of
`deleteAllArrayListVals`, run for at most `fuel` iterations. -/
def deleteAllLoop : Nat → ArrayList → ArrayList
  | 0, list => list
  | fuel + 1, list =>
    match deleteLastArrayListVal list with
    | (true, list1) => deleteAllLoop fuel list1
    | (false, list1) => list1

/-- The function `deleteAllArrayListVals`: every successful iteration lowers
`size` by one, so `size + 1` iterations reach the failing call. -/
def deleteAllArrayListVals (list : ArrayList) : ArrayList :=
  deleteAllLoop (list.size + 1) list

/-! ## ArrayDeque (`array_deque.c`) -/

/-- The `ArrayDeque` struct: a single backing `ArrayList`. -/
structure ArrayDeque where
  list : ArrayList
  deriving DecidableEq, Repr

/-- The library function `strdup` applied to a stored slot: the copy holds the
same text. Stored slots below `size` hold strings; for the `NULL` pointer, where
C leaves `strdup` undefined, this function passes the `NULL` through, and the
behaviour of the C library is `Strict.strdup`. -/
def strdup (s : Option String) : Option String := s

/-- The function `newArrayDeque`. -/
def newArrayDeque (maxCapacity : Nat) : ArrayDeque :=
  { list := newArrayList maxCapacity }

/-- The function `addFirstArrayDequeVal`. -/
def addFirstArrayDequeVal (reallocOk : Bool) (deque : ArrayDeque) (val : String) :
    Bool × ArrayDeque :=
  let r := addFirstArrayListVal reallocOk deque.list val
  (r.1, { list := r.2 })

/-- The function `addLastArrayDequeVal`. -/
def addLastArrayDequeVal (reallocOk : Bool) (deque : ArrayDeque) (val : String) :
    Bool × ArrayDeque :=
  let r := addLastArrayListVal reallocOk deque.list val
  (r.1, { list := r.2 })

/-- The function `enqueueArrayDequeVal`. -/
def enqueueArrayDequeVal (reallocOk : Bool) (deque : ArrayDeque) (val : String) :
    Bool × ArrayDeque :=
  addLastArrayDequeVal reallocOk deque val

/-- The function `pushArrayDequeVal`. -/
def pushArrayDequeVal (reallocOk : Bool) (deque : ArrayDeque) (val : String) :
    Bool × ArrayDeque :=
  addLastArrayDequeVal reallocOk deque val

/-- The function `peekFirstArrayDequeVal`. -/
def peekFirstArrayDequeVal (deque : ArrayDeque) : Option (Option String) :=
  getFirstArrayListVal deque.list

/-- The function `peekLastArrayDequeVal`. -/
def peekLastArrayDequeVal (deque : ArrayDeque) : Option (Option String) :=
  getLastArrayListVal deque.list

/-- The function `peekHeadArrayDequeVal`. -/
def peekHeadArrayDequeVal (deque : ArrayDeque) : Option (Option String) :=
  peekFirstArrayDequeVal deque

/-- The function `peekTopArrayDequeVal`. -/
def peekTopArrayDequeVal (deque : ArrayDeque) : Option (Option String) :=
  peekLastArrayDequeVal deque

/-- The function `pokeFirstArrayDequeVal`. -/
def pokeFirstArrayDequeVal (deque : ArrayDeque) (val : String) : Bool × ArrayDeque :=
  let r := setFirstArrayListVal deque.list val
  (r.1, { list := r.2 })

/-- The function `pokeLastArrayDequeVal`. -/
def pokeLastArrayDequeVal (deque : ArrayDeque) (val : String) : Bool × ArrayDeque :=
  let r := setLastArrayListVal deque.list val
  (r.1, { list := r.2 })

/-- The function `pokeHeadArrayDequeVal`. -/
def pokeHeadArrayDequeVal (deque : ArrayDeque) (val : String) : Bool × ArrayDeque :=
  pokeFirstArrayDequeVal deque val

/-- The function `pokeTopArrayDequeVal`. -/
def pokeTopArrayDequeVal (deque : ArrayDeque) (val : String) : Bool × ArrayDeque :=
  pokeLastArrayDequeVal deque val

/-- The function `dropFirstArrayDequeVal`. -/
def dropFirstArrayDequeVal (deque : ArrayDeque) : Bool × ArrayDeque :=
  let r := deleteFirstArrayListVal deque.list
  (r.1, { list := r.2 })

/-- The function `dropLastArrayDequeVal`. -/
def dropLastArrayDequeVal (deque : ArrayDeque) : Bool × ArrayDeque :=
  let r := deleteLastArrayListVal deque.list
  (r.1, { list := r.2 })

/-- The function `dropHeadArrayDequeVal`. -/
def dropHeadArrayDequeVal (deque : ArrayDeque) : Bool × ArrayDeque :=
  dropFirstArrayDequeVal deque

/-- The function `dropTopArrayDequeVal`. -/
def dropTopArrayDequeVal (deque : ArrayDeque) : Bool × ArrayDeque :=
  dropLastArrayDequeVal deque

/-- The function `deleteFirstArrayDequeVal`: `some v` when it returns true with
`*val = v`, `none` when it returns false. -/
def deleteFirstArrayDequeVal (deque : ArrayDeque) : Option (Option String) × ArrayDeque :=
  match peekFirstArrayDequeVal deque with
  | some localVal => (some (strdup localVal), (dropFirstArrayDequeVal deque).2)
  | none => (none, deque)

/-- The function `deleteLastArrayDequeVal`. -/
def deleteLastArrayDequeVal (deque : ArrayDeque) : Option (Option String) × ArrayDeque :=
  match peekLastArrayDequeVal deque with
  | some localVal => (some (strdup localVal), (dropLastArrayDequeVal deque).2)
  | none => (none, deque)

/-- The function `dequeueArrayDequeVal`. -/
def dequeueArrayDequeVal (deque : ArrayDeque) : Option (Option String) × ArrayDeque :=
  match peekHeadArrayDequeVal deque with
  | some localVal => (some (strdup localVal), (dropHeadArrayDequeVal deque).2)
  | none => (none, deque)

/-- The function `popArrayDequeVal`. -/
def popArrayDequeVal (deque : ArrayDeque) : Option (Option String) × ArrayDeque :=
  match peekTopArrayDequeVal deque with
  | some localVal => (some (strdup localVal), (dropTopArrayDequeVal deque).2)
  | none => (none, deque)

/-- The function `dropAllArrayDequeVals`. -/
def dropAllArrayDequeVals (deque : ArrayDeque) : ArrayDeque :=
  { list := deleteAllArrayListVals deque.list }

/-- The function `arrayDequeSize`. -/
def arrayDequeSize (deque : ArrayDeque) : Nat := arrayListSize deque.list

/-- The function `isArrayDequeEmpty`. -/
def isArrayDequeEmpty (deque : ArrayDeque) : Bool := isArrayListEmpty deque.list

/-! ## MessagePriorityQueue (`messagepriorityqueue.c`) -/

/-- The enum `Priority`. -/
inductive Priority where
  | highest
  | high
  | low
  | lowest
  deriving DecidableEq, Repr

/-- The numeric value of a `Priority` enumerator. -/
def Priority.toNat : Priority → Nat
  | .highest => 0
  | .high => 1
  | .low => 2
  | .lowest => 3

/-- The `MessagePriorityQueue` struct: `msgQueues` is the array of four deque
pointers indexed by `Priority`. -/
structure MessagePriorityQueue where
  msgQueues : Priority → ArrayDeque
  maxCapacity : Nat

/-- The assignment of a new state to the deque `msgQueues[p]`. -/
def MessagePriorityQueue.setQueue (queue : MessagePriorityQueue) (p : Priority)
    (deque : ArrayDeque) : MessagePriorityQueue :=
  { queue with msgQueues := fun p1 => if p1 = p then deque else queue.msgQueues p1 }

/-- The function `newMPQ`. -/
def newMPQ (maxCapacity : Nat) : MessagePriorityQueue :=
  { msgQueues := fun _ => newArrayDeque maxCapacity
    maxCapacity := maxCapacity }

/-- The function `enqueueMessageMPQ`. -/
def enqueueMessageMPQ (reallocOk : Bool) (queue : MessagePriorityQueue) (message : String)
    (priority : Priority) : Bool × MessagePriorityQueue :=
  let r := enqueueArrayDequeVal reallocOk (queue.msgQueues priority) message
  (r.1, queue.setQueue priority r.2)

/-- The values `p` takes in `for (Priority p = highest; p <= lowest; p++)`. -/
def priorityScan : List Priority := [.highest, .high, .low, .lowest]

/-- The loop of `dequeueMessageMPQ` over the remaining priorities. -/
def dequeueLoop : List Priority → MessagePriorityQueue →
    Option (Option String) × MessagePriorityQueue
  | [], queue => (none, queue)
  | p :: ps, queue =>
    match dequeueArrayDequeVal (queue.msgQueues p) with
    | (some val, deque) => (some val, queue.setQueue p deque)
    | (none, deque) => dequeueLoop ps (queue.setQueue p deque)

/-- The function `dequeueMessageMPQ`: `some v` when it returns true with
`*val = v`, `none` when it returns false. -/
def dequeueMessageMPQ (queue : MessagePriorityQueue) :
    Option (Option String) × MessagePriorityQueue :=
  dequeueLoop priorityScan queue

/-- The loop of `peekMessageMPQ` over the remaining priorities. -/
def peekLoop : List Priority → MessagePriorityQueue → Option (Option String)
  | [], _ => none
  | p :: ps, queue =>
    match peekFirstArrayDequeVal (queue.msgQueues p) with
    | some val => some val
    | none => peekLoop ps queue

/-- The function `peekMessageMPQ`; it writes nothing to the queue. -/
def peekMessageMPQ (queue : MessagePriorityQueue) : Option (Option String) :=
  peekLoop priorityScan queue

/-- The function `messageSizeMPQ`. -/
def messageSizeMPQ (queue : MessagePriorityQueue) : Nat :=
  addSizeT (addSizeT (addSizeT (arrayDequeSize (queue.msgQueues .highest))
    (arrayDequeSize (queue.msgQueues .high)))
    (arrayDequeSize (queue.msgQueues .low)))
    (arrayDequeSize (queue.msgQueues .lowest))

/-- The function `messageSizeForPriorityMPQ`. -/
def messageSizeForPriorityMPQ (queue : MessagePriorityQueue) (priority : Priority) : Nat :=
  arrayDequeSize (queue.msgQueues priority)

/-- The C conversion of a `bool` operand to `int`. -/
def boolToInt (b : Bool) : Nat := if b then 1 else 0

/-- The function `isEmptyMPQ`: the four `bool` results are added as `int` and
the sum is converted to `bool` on return, which is true iff the sum is not 0. -/
def isEmptyMPQ (queue : MessagePriorityQueue) : Bool :=
  decide (boolToInt (isArrayDequeEmpty (queue.msgQueues .highest))
    + boolToInt (isArrayDequeEmpty (queue.msgQueues .high))
    + boolToInt (isArrayDequeEmpty (queue.msgQueues .low))
    + boolToInt (isArrayDequeEmpty (queue.msgQueues .lowest)) ≠ 0)

/-- The function `isEmptyForPriorityMPQ`. -/
def isEmptyForPriorityMPQ (queue : MessagePriorityQueue) (priority : Priority) : Bool :=
  isArrayDequeEmpty (queue.msgQueues priority)

/-! ## Specification vocabulary -/

/-- The contents of a list: its first `size` slots. -/
def ArrayList.contents (list : ArrayList) : List (Option String) :=
  list.vals.take list.size

/-- A well-formed list: the array has `capacity` slots,
`size ≤ capacity ≤ maxCapacity ≤ SIZE_MAX`, and the capacity is 0 only when the
maximum capacity is 0 (as `newArrayList` sets it up and growth keeps it). -/
def ArrayList.WF (list : ArrayList) : Prop :=
  list.vals.length = list.capacity ∧ list.size ≤ list.capacity ∧
    list.capacity ≤ list.maxCapacity ∧ list.maxCapacity ≤ SIZE_MAX ∧
    (list.capacity = 0 → list.maxCapacity = 0)

instance (list : ArrayList) : Decidable list.WF := by
  unfold ArrayList.WF; infer_instance

/-- The value of `newCapacity` in `ensureArrayCapacity`. -/
def grownCapacity (list : ArrayList) : Nat :=
  if subSizeT list.maxCapacity list.capacity < list.capacity then list.maxCapacity
  else mulSizeT list.capacity 2

/-! ## Example states -/

/-- A list holding `"a"`, `"b"` in four slots, with maximum capacity 8. -/
def exampleList : ArrayList :=
  { vals := [some "a", some "b", none, none], size := 2, capacity := 4, maxCapacity := 8 }

/-- The public operations of the array list, with their arguments. An insertion
carries the flag saying whether `realloc` succeeds if it is called. -/
inductive ListOp where
  | addAt (reallocOk : Bool) (index : Nat) (val : String)
  | addFirst (reallocOk : Bool) (val : String)
  | addLast (reallocOk : Bool) (val : String)
  | getAt (index : Nat)
  | getFirst
  | getLast
  | setAt (index : Nat) (val : String)
  | setFirst (val : String)
  | setLast (val : String)
  | deleteAt (index : Nat)
  | deleteFirst
  | deleteLast
  | deleteAll
  deriving DecidableEq, Repr

/-- The call of one public operation: its success flag (true for the `void`
function `deleteAllArrayListVals`) and the list after the call. -/
def applyListOp (op : ListOp) (list : ArrayList) : Bool × ArrayList :=
  match op with
  | .addAt r index val => addArrayListValAt r list index val
  | .addFirst r val => addFirstArrayListVal r list val
  | .addLast r val => addLastArrayListVal r list val
  | .getAt index => ((getArrayListValAt list index).isSome, list)
  | .getFirst => ((getFirstArrayListVal list).isSome, list)
  | .getLast => ((getLastArrayListVal list).isSome, list)
  | .setAt index val => setArrayListValAt list index val
  | .setFirst val => setFirstArrayListVal list val
  | .setLast val => setLastArrayListVal list val
  | .deleteAt index => deleteArrayListValAt list index
  | .deleteFirst => deleteFirstArrayListVal list
  | .deleteLast => deleteLastArrayListVal list
  | .deleteAll => (true, deleteAllArrayListVals list)

/-- The list after a sequence of public operations. -/
def runListOps (ops : List ListOp) (list : ArrayList) : ArrayList :=
  ops.foldl (fun l op => (applyListOp op l).2) list

/-- A list reachable from `newArrayList maxCapacity` by public operations. -/
def ArrayList.Reachable (maxCapacity : Nat) (list : ArrayList) : Prop :=
  ∃ ops : List ListOp, runListOps ops (newArrayList maxCapacity) = list

/-- A full list: two elements in two slots, with maximum capacity `SIZE_MAX`. -/
def exampleFullList : ArrayList :=
  { vals := [some "a", some "b"], size := 2, capacity := 2, maxCapacity := SIZE_MAX }

/-- The list reached from `newArrayList 2` by appending `"a"` and `"b"`. -/
def exampleReachedList : ArrayList :=
  runListOps [.addLast true "a", .addLast true "b"] (newArrayList 2)

/-- The messages held at one priority level, oldest first. -/
def MessagePriorityQueue.level (queue : MessagePriorityQueue) (p : Priority) :
    List (Option String) :=
  (queue.msgQueues p).list.contents

/-- A well-formed queue: the backing list of each of the four deques is
well-formed. -/
def MessagePriorityQueue.WF (queue : MessagePriorityQueue) : Prop :=
  (queue.msgQueues .highest).list.WF ∧ (queue.msgQueues .high).list.WF ∧
    (queue.msgQueues .low).list.WF ∧ (queue.msgQueues .lowest).list.WF

instance (queue : MessagePriorityQueue) : Decidable queue.WF := by
  unfold MessagePriorityQueue.WF; infer_instance

/-- A queue holding `"H0"`, `"H1"` at `high` and `"L0"` at `low`, built from
`newMPQ 4`. -/
def exampleQueue : MessagePriorityQueue :=
  (enqueueMessageMPQ true
    (enqueueMessageMPQ true
      (enqueueMessageMPQ true (newMPQ 4) "H0" .high).2 "H1" .high).2 "L0" .low).2

/-- The queue of `testMessagePriorityQueue_single` after its enqueue: one
message `"0.0"` at `high` in a queue created by `newMPQ(SIZE_MAX)`. -/
def exampleSingleQueue : MessagePriorityQueue :=
  (enqueueMessageMPQ true (newMPQ SIZE_MAX) "0.0" .high).2

/-- The state-changing and reading calls on a message priority queue. An
enqueue carries the flag saying whether `realloc` succeeds if it is called. -/
inductive MPQOp where
  | enqueue (reallocOk : Bool) (message : String) (priority : Priority)
  | dequeue
  | peek
  deriving DecidableEq, Repr

/-- The call of one queue operation: its success flag and the queue after it. -/
def applyMPQOp (op : MPQOp) (queue : MessagePriorityQueue) : Bool × MessagePriorityQueue :=
  match op with
  | .enqueue r message priority => enqueueMessageMPQ r queue message priority
  | .dequeue => ((dequeueMessageMPQ queue).1.isSome, (dequeueMessageMPQ queue).2)
  | .peek => ((peekMessageMPQ queue).isSome, queue)

/-- The queue after a sequence of operations. -/
def runMPQOps (ops : List MPQOp) (queue : MessagePriorityQueue) : MessagePriorityQueue :=
  ops.foldl (fun q op => (applyMPQOp op q).2) queue

/-- A queue reachable from `newMPQ maxCapacity`. -/
def MessagePriorityQueue.Reachable (maxCapacity : Nat) (queue : MessagePriorityQueue) :
    Prop :=
  ∃ ops : List MPQOp, runMPQOps ops (newMPQ maxCapacity) = queue

/-- The number of successful `enqueueMessageMPQ` calls when `ops` is run from
`queue`. -/
def countEnqueued : List MPQOp → MessagePriorityQueue → Nat
  | [], _ => 0
  | op :: ops, queue =>
    (match op with
      | .enqueue _ _ _ => if (applyMPQOp op queue).1 then 1 else 0
      | _ => 0) + countEnqueued ops (applyMPQOp op queue).2

/-- The number of successful `dequeueMessageMPQ` calls when `ops` is run from
`queue`. -/
def countDequeued : List MPQOp → MessagePriorityQueue → Nat
  | [], _ => 0
  | op :: ops, queue =>
    (match op with
      | .dequeue => if (applyMPQOp op queue).1 then 1 else 0
      | _ => 0) + countDequeued ops (applyMPQOp op queue).2

/-- The sum of `messageSizeForPriorityMPQ` over the four levels, as a natural
number. -/
def levelSizeSum (queue : MessagePriorityQueue) : Nat :=
  messageSizeForPriorityMPQ queue .highest + messageSizeForPriorityMPQ queue .high +
    messageSizeForPriorityMPQ queue .low + messageSizeForPriorityMPQ queue .lowest

/-- The queue reached from `newMPQ 1` by one enqueue at `high`: that level is
full, the other three are empty. -/
def exampleFullLevelQueue : MessagePriorityQueue :=
  runMPQOps [.enqueue true "m" .high] (newMPQ 1)

/-- The calls `enqueueMessageMPQ(queue, message, priority)` for each entry of
the list in order, each with its `realloc` flag: `some` of the final queue when
every call returns true, `none` as soon as one returns false. -/
def enqueueAllMPQ : List (Bool × String × Priority) → MessagePriorityQueue →
    Option MessagePriorityQueue
  | [], queue => some queue
  | (r, message, p) :: es, queue =>
    match enqueueMessageMPQ r queue message p with
    | (true, queue1) => enqueueAllMPQ es queue1
    | (false, _) => none

/-- The calls of `dequeueMessageMPQ` repeated until one fails, at most `fuel`
times: the values returned, in order, and the queue left. -/
def dequeueAllMPQ : Nat → MessagePriorityQueue →
    List (Option String) × MessagePriorityQueue
  | 0, queue => ([], queue)
  | fuel + 1, queue =>
    match dequeueMessageMPQ queue with
    | (some val, queue1) => (val :: (dequeueAllMPQ fuel queue1).1, (dequeueAllMPQ fuel queue1).2)
    | (none, queue1) => ([], queue1)

/-- The messages of one priority among `(message, priority)` pairs, in the
order of the list. -/
def messagesOf (es : List (String × Priority)) (p : Priority) : List String :=
  (es.filter (fun e => decide (e.2 = p))).map (fun e => e.1)

/-- The order the specification gives for the dequeued messages: all
`highest`, then all `high`, then all `low`, then all `lowest`, each group in
the order of the input. -/
def priorityOrder (es : List (String × Priority)) : List String :=
  messagesOf es .highest ++ messagesOf es .high ++ messagesOf es .low ++
    messagesOf es .lowest

/-- The comparison of two `(message, priority)` pairs by priority value. -/
def priorityLE (a b : String × Priority) : Prop := a.2.toNat ≤ b.2.toNat

instance : DecidableRel priorityLE := fun a b => Nat.decLe a.2.toNat b.2.toNat

/-- The stable sort of `(message, priority)` pairs by priority: insertion sort,
which puts an element before the first later one that is not smaller. -/
def stableSortByPriority (es : List (String × Priority)) : List (String × Priority) :=
  es.insertionSort priorityLE

/-- The input of `testMessagePriorityQueue_multi` in a different order: the
priorities interleaved. -/
def exampleEnqueues : List (Bool × String × Priority) :=
  [(true, "L0", .low), (true, "H0", .high), (true, "T0", .highest), (true, "H1", .high),
   (true, "B0", .lowest), (true, "L1", .low), (true, "T1", .highest)]

/-- The pairs of one priority, in the order of the list. -/
def pairsOf (es : List (String × Priority)) (p : Priority) : List (String × Priority) :=
  es.filter (fun e => decide (e.2 = p))

/-- The queue after the enqueues of `exampleEnqueues` on `newMPQ 8`. -/
def exampleEnqueuedQueue : MessagePriorityQueue :=
  runMPQOps (exampleEnqueues.map (fun e => MPQOp.enqueue e.1 e.2.1 e.2.2)) (newMPQ 8)

/-- An empty list with two slots, as `newArrayList(2)` makes it. -/
def exampleEmptyList : ArrayList := newArrayList 2

/-- The slot invariant of the data model: every slot below `size` holds a
value and every slot from `size` up to `capacity` is `NULL`. -/
def ArrayList.SlotsOk (list : ArrayList) : Prop :=
  (∀ x ∈ list.contents, x.isSome = true) ∧
    list.vals.drop list.size = List.replicate (list.capacity - list.size) none

instance (list : ArrayList) : Decidable list.SlotsOk := by
  unfold ArrayList.SlotsOk; infer_instance

/-- The slot invariant stated slot by slot: each slot with index below `size`
holds some string, each slot with index in `[size, capacity)` is `NULL`. -/
def ArrayList.SlotsPointwise (list : ArrayList) : Prop :=
  (∀ k : Nat, k < list.size → ∃ s : String, list.vals[k]? = some (some s)) ∧
    (∀ k : Nat, list.size ≤ k → k < list.capacity → list.vals[k]? = some none)

/-! ## Calls with a value pointer that may be `NULL`

These variants take the value as a slot, as the deque does when it pushes back
what a pop returned. They pass a `NULL` through `strdup`; what the C library
does with `strdup(NULL)` is modelled in the namespace `Strict`. -/

/-- The function `setArrayListValAt` with its `val` argument as a pointer, so
that `none` is a call with `NULL`; the source does not test `val`, and the slot
receives `strdup(val)`. -/
def setArrayListValAtPtr (list : ArrayList) (index : Nat) (val : Option String) :
    Bool × ArrayList :=
  if index < list.size then
    (true, { list with vals := list.vals.set index (strdup val) })
  else
    (false, list)

/-- The function `addArrayListValAt` with its `val` argument as a pointer, so
that `none` is a call with `NULL`; the source does not test `val`. -/
def addArrayListValAtPtr (reallocOk : Bool) (list : ArrayList) (index : Nat)
    (val : Option String) : Bool × ArrayList :=
  if index > list.size then
    (false, list)
  else
    match ensureArrayCapacity reallocOk list with
    | (false, list1) => (false, list1)
    | (true, list1) =>
      let vals1 := shiftUp index list1.size list1.vals
      let vals2 := vals1.set index none
      let list2 := { list1 with vals := vals2, size := addSizeT list1.size 1 }
      (true, (setArrayListValAtPtr list2 index val).2)

/-- The function `addLastArrayListVal` with a pointer argument. -/
def addLastArrayListValPtr (reallocOk : Bool) (list : ArrayList) (val : Option String) :
    Bool × ArrayList :=
  addArrayListValAtPtr reallocOk list list.size val

/-- The function `addLastArrayDequeVal` with a pointer argument. -/
def addLastArrayDequeValPtr (reallocOk : Bool) (deque : ArrayDeque) (val : Option String) :
    Bool × ArrayDeque :=
  let r := addLastArrayListValPtr reallocOk deque.list val
  (r.1, { list := r.2 })

/-- The function `pushArrayDequeVal` with a pointer argument. -/
def pushArrayDequeValPtr (reallocOk : Bool) (deque : ArrayDeque) (val : Option String) :
    Bool × ArrayDeque :=
  addLastArrayDequeValPtr reallocOk deque val

/-- The function `swapTopArrayDequeVal`. The flags say whether `realloc`
succeeds in the first and in the second push if it is called. A pop that
returns false would leave its variable unset; with `size ≥ 2` both pops return
true. -/
def swapTopArrayDequeVal (reallocOk1 reallocOk2 : Bool) (deque : ArrayDeque) :
    Bool × ArrayDeque :=
  let size := arrayDequeSize deque
  if size ≥ 2 then
    let pop1 := popArrayDequeVal deque
    let pop2 := popArrayDequeVal pop1.2
    let push1 := pushArrayDequeValPtr reallocOk1 pop2.2 (pop1.1.getD none)
    let push2 := pushArrayDequeValPtr reallocOk2 push1.2 (pop2.1.getD none)
    (true, push2.2)
  else
    (false, deque)

/-- The function `dupTopArrayDequeVal`. -/
def dupTopArrayDequeVal (reallocOk : Bool) (deque : ArrayDeque) : Bool × ArrayDeque :=
  match peekTopArrayDequeVal deque with
  | some val => pushArrayDequeValPtr reallocOk deque val
  | none => (false, deque)

/-- The fallible operations of the array deque, with their arguments. -/
inductive DequeOp where
  | addFirst (reallocOk : Bool) (val : String)
  | addLast (reallocOk : Bool) (val : String)
  | enqueue (reallocOk : Bool) (val : String)
  | push (reallocOk : Bool) (val : String)
  | peekFirst
  | peekLast
  | peekHead
  | peekTop
  | pokeFirst (val : String)
  | pokeLast (val : String)
  | pokeHead (val : String)
  | pokeTop (val : String)
  | deleteFirst
  | deleteLast
  | dequeue
  | pop
  | dropFirst
  | dropLast
  | dropHead
  | dropTop
  | swapTop (reallocOk1 reallocOk2 : Bool)
  | dupTop (reallocOk : Bool)
  deriving DecidableEq, Repr

/-- The call of one deque operation: its success flag and the deque after it. -/
def applyDequeOp (op : DequeOp) (deque : ArrayDeque) : Bool × ArrayDeque :=
  match op with
  | .addFirst r val => addFirstArrayDequeVal r deque val
  | .addLast r val => addLastArrayDequeVal r deque val
  | .enqueue r val => enqueueArrayDequeVal r deque val
  | .push r val => pushArrayDequeVal r deque val
  | .peekFirst => ((peekFirstArrayDequeVal deque).isSome, deque)
  | .peekLast => ((peekLastArrayDequeVal deque).isSome, deque)
  | .peekHead => ((peekHeadArrayDequeVal deque).isSome, deque)
  | .peekTop => ((peekTopArrayDequeVal deque).isSome, deque)
  | .pokeFirst val => pokeFirstArrayDequeVal deque val
  | .pokeLast val => pokeLastArrayDequeVal deque val
  | .pokeHead val => pokeHeadArrayDequeVal deque val
  | .pokeTop val => pokeTopArrayDequeVal deque val
  | .deleteFirst =>
    ((deleteFirstArrayDequeVal deque).1.isSome, (deleteFirstArrayDequeVal deque).2)
  | .deleteLast =>
    ((deleteLastArrayDequeVal deque).1.isSome, (deleteLastArrayDequeVal deque).2)
  | .dequeue => ((dequeueArrayDequeVal deque).1.isSome, (dequeueArrayDequeVal deque).2)
  | .pop => ((popArrayDequeVal deque).1.isSome, (popArrayDequeVal deque).2)
  | .dropFirst => dropFirstArrayDequeVal deque
  | .dropLast => dropLastArrayDequeVal deque
  | .dropHead => dropHeadArrayDequeVal deque
  | .dropTop => dropTopArrayDequeVal deque
  | .swapTop r1 r2 => swapTopArrayDequeVal r1 r2 deque
  | .dupTop r => dupTopArrayDequeVal r deque

/-- The contents of a deque: the contents of its backing list, first to last. -/
def ArrayDeque.contents (deque : ArrayDeque) : List (Option String) :=
  deque.list.contents

/-- The deque of the round-trip scenario: `newArrayDeque(5)`, then
`addFirst "A"`, `addLast "B"`, `addFirst "C"`. -/
def exampleRoundTripDeque : ArrayDeque :=
  (addFirstArrayDequeVal true
    (addLastArrayDequeVal true
      (addFirstArrayDequeVal true (newArrayDeque 5) "A").2 "B").2 "C").2

/-- A deque at its maximum: `"a"`, `"b"` with size = capacity = maxCapacity = 2. -/
def exampleMaxedDeque : ArrayDeque := { list := exampleReachedList }

/-- A deque reachable from `newArrayDeque maxCapacity`: by the fallible
operations and by `dropAllArrayDequeVals`. -/
inductive ArrayDeque.Reachable (maxCapacity : Nat) : ArrayDeque → Prop where
  | new : ArrayDeque.Reachable maxCapacity (newArrayDeque maxCapacity)
  | step (op : DequeOp) (deque : ArrayDeque) :
      ArrayDeque.Reachable maxCapacity deque →
      ArrayDeque.Reachable maxCapacity (applyDequeOp op deque).2
  | dropAll (deque : ArrayDeque) :
      ArrayDeque.Reachable maxCapacity deque →
      ArrayDeque.Reachable maxCapacity (dropAllArrayDequeVals deque)

/-- The queue reached from `newMPQ 1` by one enqueue at `high` and one at
`low`. -/
def exampleTwoLevelQueue : MessagePriorityQueue :=
  runMPQOps [.enqueue true "a" .high, .enqueue true "b" .low] (newMPQ 1)

/-! ## Destruction of the priority queue -/

/-- The priority whose enumerator has the given value, the index into
`msgQueues`. -/
def priorityOfIndex : Nat → Option Priority
  | 0 => some .highest
  | 1 => some .high
  | 2 => some .low
  | 3 => some .lowest
  | _ => none

/-- What a call of `deleteMPQ` releases: the deques passed to
`deleteArrayDeque` (each with its backing list and stored strings), whether the
array `msgQueues` is passed to `free`, and whether the queue struct is. -/
structure Released where
  deques : List Priority
  msgQueuesArray : Bool
  queueStruct : Bool
  deriving DecidableEq, Repr

/-- The function `deleteMPQ`: `deleteArrayDeque(*(queue->msgQueues))` is the
call on `queue->msgQueues[0]`; `queue->msgQueues = NULL` drops the array
pointer without `free`; `free(queue)` releases the struct. -/
def deleteMPQ (_queue : MessagePriorityQueue) : Released :=
  { deques := (priorityOfIndex 0).toList
    msgQueuesArray := false
    queueStruct := true }

/-- The calls `addLastArrayListVal(list, val)` for each entry in order, each
with its `realloc` flag: `some` of the final list when every call returns true,
`none` as soon as one returns false. -/
def addLastAll : List (Bool × String) → ArrayList → Option ArrayList
  | [], list => some list
  | (r, val) :: es, list =>
    match addLastArrayListVal r list val with
    | (true, list1) => addLastAll es list1
    | (false, _) => none

/-- The number `P` is the smallest power of two that is at least `n`. -/
def IsSmallestPow2GE (n P : Nat) : Prop :=
  (∃ k : Nat, P = 2 ^ k) ∧ n ≤ P ∧ ∀ Q : Nat, (∃ k : Nat, Q = 2 ^ k) → n ≤ Q → P ≤ Q

/-- Five appends with `realloc` succeeding. -/
def exampleFiveAppends : List (Bool × String) :=
  [(true, "a"), (true, "b"), (true, "c"), (true, "d"), (true, "e")]

/-- The list after `exampleFiveAppends` on `newArrayList 6`. -/
def exampleFiveList : ArrayList :=
  runListOps (exampleFiveAppends.map (fun e => ListOp.addLast e.1 e.2)) (newArrayList 6)

/-! ## Pointer-level model of storing a value

For the ownership of stored strings the slots are modelled as addresses into a
heap, so that the caller's buffer and the container's copy are distinct
objects. -/

/-- The heap: the text held by each block handed out so far, by address;
`none` marks a freed block. An allocation returns the next unused address. -/
structure Heap where
  cells : List (Option String)
  deriving DecidableEq, Repr

/-- The text at address `p`, if `p` is a live block. -/
def Heap.read (heap : Heap) (p : Nat) : Option String :=
  heap.cells.getD p none

/-- The caller overwriting the text of its buffer at address `p`. -/
def Heap.write (heap : Heap) (p : Nat) (text : String) : Heap :=
  { cells := heap.cells.set p (some text) }

/-- The library function `free`; `free(NULL)` does nothing. -/
def Heap.free (heap : Heap) (p : Option Nat) : Heap :=
  match p with
  | none => heap
  | some a => { cells := heap.cells.set a none }

/-- The library function `strdup`: a new block holding a copy of the text at
`val`, and its address. -/
def Heap.strdup (heap : Heap) (val : Nat) : Nat × Heap :=
  (heap.cells.length, { cells := heap.cells ++ [heap.read val] })

/-- The `ArrayList` struct with its slots as pointers: `none` is `NULL`,
`some p` the address of a stored string. -/
structure HeapList where
  vals : List (Option Nat)
  size : Nat
  capacity : Nat
  maxCapacity : Nat
  deriving DecidableEq, Repr

/-- The well-formedness of `ArrayList.WF`, for the pointer-level list. -/
def HeapList.WF (list : HeapList) : Prop :=
  list.vals.length = list.capacity ∧ list.size ≤ list.capacity ∧
    list.capacity ≤ list.maxCapacity ∧ list.maxCapacity ≤ SIZE_MAX ∧
    (list.capacity = 0 → list.maxCapacity = 0)

instance (list : HeapList) : Decidable list.WF := by
  unfold HeapList.WF; infer_instance

/-- The text a slot points to: what `getArrayListValAt` lets the caller read. -/
def HeapList.storedText (heap : Heap) (list : HeapList) (index : Nat) : Option String :=
  match list.vals.getD index none with
  | some p => heap.read p
  | none => none

/-- The function `setArrayListValAt` at pointer level: `free(list->vals[index])`
and `list->vals[index] = strdup(val)`. -/
def setArrayListValAtHeap (heap : Heap) (list : HeapList) (index : Nat) (val : Nat) :
    Bool × Heap × HeapList :=
  if index < list.size then
    let heap1 := heap.free (list.vals.getD index none)
    let dup := heap1.strdup val
    (true, dup.2, { list with vals := list.vals.set index (some dup.1) })
  else
    (false, heap, list)

/-- The loop that sets the new slots to `NULL` after `realloc`, at pointer
level (see `initNewVals`). -/
def initNewValsHeap (vals : List (Option Nat)) : Nat → List (Option Nat)
  | 0 => vals
  | n + 1 => initNewValsHeap (vals ++ [none]) n

/-- The function `ensureArrayCapacity` at pointer level. -/
def ensureArrayCapacityHeap (reallocOk : Bool) (list : HeapList) : Bool × HeapList :=
  if list.size = list.capacity then
    if list.capacity = list.maxCapacity then
      (false, list)
    else
      let newCapacity :=
        if subSizeT list.maxCapacity list.capacity < list.capacity then
          list.maxCapacity
        else
          mulSizeT list.capacity 2
      if reallocOk = false then
        (false, list)
      else
        (true, { list with
                  vals := initNewValsHeap list.vals (newCapacity - list.capacity)
                  capacity := newCapacity })
  else
    (true, list)

/-- The shifting loop of `addArrayListValAt` at pointer level (see `shiftUp`). -/
def shiftUpHeap (index : Nat) : Nat → List (Option Nat) → List (Option Nat)
  | 0, vals => vals
  | i + 1, vals =>
    if i + 1 > index then
      shiftUpHeap index i (vals.set (i + 1) (vals.getD i none))
    else
      vals

/-- The function `addArrayListValAt` at pointer level. -/
def addArrayListValAtHeap (reallocOk : Bool) (heap : Heap) (list : HeapList) (index : Nat)
    (val : Nat) : Bool × Heap × HeapList :=
  if index > list.size then
    (false, heap, list)
  else
    match ensureArrayCapacityHeap reallocOk list with
    | (false, list1) => (false, heap, list1)
    | (true, list1) =>
      let vals1 := shiftUpHeap index list1.size list1.vals
      let vals2 := vals1.set index none
      let list2 := { list1 with vals := vals2, size := addSizeT list1.size 1 }
      (true, (setArrayListValAtHeap heap list2 index val).2)

/-- The function `addLastArrayListVal` at pointer level; `enqueueArrayDequeVal`
and `enqueueMessageMPQ` hand their `val` pointer on to it unchanged. -/
def addLastArrayListValHeap (reallocOk : Bool) (heap : Heap) (list : HeapList) (val : Nat) :
    Bool × Heap × HeapList :=
  addArrayListValAtHeap reallocOk heap list list.size val

/-- A heap with the caller's buffer `"new"` at address 0 and two stored strings
at addresses 1 and 2. -/
def exampleHeap : Heap := { cells := [some "new", some "a", some "b"] }

/-- A pointer-level list holding the blocks 1 and 2 in four slots. -/
def exampleHeapList : HeapList :=
  { vals := [some 1, some 2, none, none], size := 2, capacity := 4, maxCapacity := 8 }

/-! ## Runs of pushes and pops -/

/-- What a caller sees of one step: the returned flag, the value stored in
`*val` by a read, and the contents and size after the call. -/
structure ListStep where
  ok : Bool
  got : Option (Option String)
  contents : List (Option String)
  size : Nat
  deriving DecidableEq, Repr

namespace Fixed

/-- The `ArrayList` struct of the fixed-capacity list: `vals` (`none` when the
pointer is `NULL`), `size`, `capacity`. -/
structure ArrayList where
  vals : Option (List (Option String))
  size : Nat
  capacity : Nat
  deriving DecidableEq, Repr

/-- The function `newArrayList`: `calloc(capacity, sizeof(char*))` yields
`capacity` null slots, or `NULL` when the byte count `capacity * 8` does not
fit in `size_t` or when the memory is not to be had (`callocOk = false`). -/
def newArrayList (callocOk : Bool) (capacity : Nat) : ArrayList :=
  { vals := if callocOk = true ∧ capacity * 8 ≤ SIZE_MAX then
              some (List.replicate capacity none)
            else none
    size := 0
    capacity := capacity }

/-- The function `addArrayListValAt`; `val = none` is the `NULL` pointer. -/
def addArrayListValAt (list : ArrayList) (index : Nat) (val : Option String) :
    Option (Bool × ArrayList) :=
  match val with
  | none => some (false, list)
  | some v =>
    if index > list.size then
      some (false, list)
    else if list.size = list.capacity then
      some (false, list)
    else
      match list.vals with
      | none => none
      | some vals =>
        let vals1 := shiftUp index list.size vals
        some (true, { list with vals := some (vals1.set index (some v))
                                size := addSizeT list.size 1 })

/-- The function `addFirstArrayListVal`. -/
def addFirstArrayListVal (list : ArrayList) (val : Option String) :
    Option (Bool × ArrayList) :=
  addArrayListValAt list 0 val

/-- The function `addLastArrayListVal`. -/
def addLastArrayListVal (list : ArrayList) (val : Option String) :
    Option (Bool × ArrayList) :=
  addArrayListValAt list list.size val

/-- The function `getArrayListValAt`: `some (some slot)` when it returns true
and stores the slot in `*val`, `some none` when it returns false. -/
def getArrayListValAt (list : ArrayList) (index : Nat) : Option (Option (Option String)) :=
  if index < list.size then
    match list.vals with
    | none => none
    | some vals => some (some (vals.getD index none))
  else
    some none

/-- The function `getFirstArrayListVal`. -/
def getFirstArrayListVal (list : ArrayList) : Option (Option (Option String)) :=
  getArrayListValAt list 0

/-- The function `getLastArrayListVal`. -/
def getLastArrayListVal (list : ArrayList) : Option (Option (Option String)) :=
  if list.size = 0 then
    some none
  else
    getArrayListValAt list (subSizeT list.size 1)

/-- The function `setArrayListValAt`; `val = none` is the `NULL` pointer. -/
def setArrayListValAt (list : ArrayList) (index : Nat) (val : Option String) :
    Option (Bool × ArrayList) :=
  match val with
  | none => some (false, list)
  | some v =>
    if index < list.size then
      match list.vals with
      | none => none
      | some vals => some (true, { list with vals := some (vals.set index (some v)) })
    else
      some (false, list)

/-- The function `setFirstArrayListVal`. -/
def setFirstArrayListVal (list : ArrayList) (val : Option String) :
    Option (Bool × ArrayList) :=
  setArrayListValAt list 0 val

/-- The function `setLastArrayListVal`. -/
def setLastArrayListVal (list : ArrayList) (val : Option String) :
    Option (Bool × ArrayList) :=
  if list.size = 0 then
    some (false, list)
  else
    setArrayListValAt list (subSizeT list.size 1) val

/-- The function `arrayListSize`. -/
def arrayListSize (list : ArrayList) : Nat := list.size

/-- The loop `for (...; i < list->size; i++) vals[i] = vals[i+1]` of
`deleteArrayListValAt` with its `int` counter at the non-negative value `i` and
`room = INT_MAX - i` increments left before the counter overflows; `size` is
the size after the decrement. The increment at `INT_MAX` is undefined. -/
def intShiftLoop (size : Nat) : Nat → Nat → List (Option String) →
    Option (List (Option String))
  | 0, i, vals => if i < size then none else some vals
  | room + 1, i, vals =>
    if i < size then
      intShiftLoop size room (i + 1) (vals.set i (vals.getD (i + 1) none))
    else
      some vals

/-- The loop `for (int i = index; i < list->size; i++) vals[i] = vals[i+1]`.
The conversion `int i = index` keeps the low 32 bits as a two's complement
number (implementation-defined, and what gcc and clang do). For the comparison
the counter is converted to `size_t`, so a negative counter compares as
`2 ^ 64 - 2 ^ 32 + low`; when even that is below `size` the access falls before
the array, which is undefined. -/
def shiftDownInt (vals : List (Option String)) (index size : Nat) :
    Option (List (Option String)) :=
  let low := index % 2 ^ 32
  if low < 2 ^ 31 then
    intShiftLoop size (INT_MAX - low) low vals
  else if 2 ^ 64 - 2 ^ 32 + low < size then
    none
  else
    some vals

/-- The function `deleteArrayListValAt`. -/
def deleteArrayListValAt (list : ArrayList) (index : Nat) : Option (Bool × ArrayList) :=
  if index ≥ list.size then
    some (false, list)
  else
    match list.vals with
    | none => none
    | some vals =>
      let size1 := subSizeT list.size 1
      match shiftDownInt vals index size1 with
      | none => none
      | some vals1 => some (true, { list with vals := some (vals1.set size1 none)
                                              size := size1 })

/-- The function `deleteFirstArrayListVal`. -/
def deleteFirstArrayListVal (list : ArrayList) : Option (Bool × ArrayList) :=
  deleteArrayListValAt list 0

/-- The function `deleteLastArrayListVal`. -/
def deleteLastArrayListVal (list : ArrayList) : Option (Bool × ArrayList) :=
  if list.size > 0 then
    deleteArrayListValAt list (subSizeT list.size 1)
  else
    some (false, list)

/-- The loop `while (deleteLastArrayListVal(list)) {}` of
`deleteAllArrayListVals`, run for at most `fuel` iterations. -/
def deleteAllLoop : Nat → ArrayList → Option ArrayList
  | 0, list => some list
  | fuel + 1, list =>
    match deleteLastArrayListVal list with
    | none => none
    | some (true, list1) => deleteAllLoop fuel list1
    | some (false, list1) => some list1

/-- The function `deleteAllArrayListVals`: every successful iteration lowers
`size` by one, so `size + 1` iterations reach the failing call. -/
def deleteAllArrayListVals (list : ArrayList) : Option ArrayList :=
  deleteAllLoop (list.size + 1) list

/-- The contents of a fixed-capacity list: its first `size` slots. -/
def ArrayList.contents (list : ArrayList) : List (Option String) :=
  (list.vals.getD []).take list.size

/-- The call of one public operation with present values on the fixed-capacity
list (the `realloc` flag of an insertion plays no part). -/
def applyListOp (op : ListOp) (list : ArrayList) : Option (Bool × ArrayList) :=
  match op with
  | .addAt _ index val => addArrayListValAt list index (some val)
  | .addFirst _ val => addFirstArrayListVal list (some val)
  | .addLast _ val => addLastArrayListVal list (some val)
  | .getAt index => (getArrayListValAt list index).map (fun r => (r.isSome, list))
  | .getFirst => (getFirstArrayListVal list).map (fun r => (r.isSome, list))
  | .getLast => (getLastArrayListVal list).map (fun r => (r.isSome, list))
  | .setAt index val => setArrayListValAt list index (some val)
  | .setFirst val => setFirstArrayListVal list (some val)
  | .setLast val => setLastArrayListVal list (some val)
  | .deleteAt index => deleteArrayListValAt list index
  | .deleteFirst => deleteFirstArrayListVal list
  | .deleteLast => deleteLastArrayListVal list
  | .deleteAll => (deleteAllArrayListVals list).map (fun l => (true, l))

/-- The value a read operation stores in `*val` on the fixed-capacity list:
`some none` for a failed read and for every other operation. -/
def observeListOp (op : ListOp) (list : ArrayList) : Option (Option (Option String)) :=
  match op with
  | .getAt index => getArrayListValAt list index
  | .getFirst => getFirstArrayListVal list
  | .getLast => getLastArrayListVal list
  | _ => some none

/-- The steps seen by a caller running the operations on the fixed-capacity
list, as long as every call returns. -/
def traceListOps : List ListOp → ArrayList → Option (List ListStep)
  | [], _ => some []
  | op :: ops, list =>
    match applyListOp op list, observeListOp op list with
    | some res, some got =>
      match traceListOps ops res.2 with
      | some rest =>
        some ({ ok := res.1, got := got, contents := res.2.contents
                size := arrayListSize res.2 } :: rest)
      | none => none
    | _, _ => none

end Fixed

/-- The value a read operation stores in `*val` on the growable list: `none`
for a failed read and for every other operation. -/
def observeListOp (op : ListOp) (list : ArrayList) : Option (Option String) :=
  match op with
  | .getAt index => getArrayListValAt list index
  | .getFirst => getFirstArrayListVal list
  | .getLast => getLastArrayListVal list
  | _ => none

/-- The flag of an insertion saying that `realloc` succeeds; true for every
operation that never calls `realloc`. -/
def ListOp.reallocSucceeds : ListOp → Bool
  | .addAt r _ _ => r
  | .addFirst r _ => r
  | .addLast r _ => r
  | _ => true

/-- The steps seen by a caller running the operations on the growable list. -/
def traceListOps : List ListOp → ArrayList → List ListStep
  | [], _ => []
  | op :: ops, list =>
    let res := applyListOp op list
    { ok := res.1, got := observeListOp op list, contents := res.2.contents
      size := arrayListSize res.2 } :: traceListOps ops res.2

/-- The fixed-capacity list seen as a growable list that has reached its
maximum capacity. -/
def fixedToGrowable (list : Fixed.ArrayList) : ArrayList :=
  { vals := list.vals.getD [], size := list.size, capacity := list.capacity
    maxCapacity := list.capacity }

/-- The result `res` of a call on the fixed-capacity list is a return, with the
flag and the list of the result `g` of the same call on the growable list. -/
def FixedEmbeds (res : Option (Bool × Fixed.ArrayList)) (g : Bool × ArrayList) : Prop :=
  ∃ f1 : Fixed.ArrayList, res = some (g.1, f1) ∧ fixedToGrowable f1 = g.2 ∧
    f1.vals.isSome = true

/-- A run of operations exercising every kind of call on a list of capacity 3. -/
def exampleListOps : List ListOp :=
  [.addLast true "a", .addLast true "b", .addFirst true "c", .addAt true 1 "d", .getLast,
    .setAt 1 "e", .getAt 1, .deleteFirst, .getFirst, .deleteAll, .getFirst, .deleteLast]

/-! ## Linked nodes, linked list, iterator and crawler

A chain of `LinkedNode`s is the list of the `data` fields of its nodes, first
node first. A pointer to a node of the chain is the position of the node in it,
and `none` is the `NULL` pointer. The chain of a `LinkedList` starts at its
dummy head node, which is position 0. -/

/-- The function `newLinkedNode`: the `data` field of the new node, a copy of
the string or `NULL`; its `next` field is `NULL`. -/
def newLinkedNode (data : Option String) : Option String :=
  match data with
  | none => none
  | some s => strdup (some s)

/-- The field `next` of the node at position `n` of a chain. -/
def nextLinkedNode (chain : List (Option String)) (n : Nat) : Option Nat :=
  if n + 1 < chain.length then some (n + 1) else none

/-- The function `getLinkedNodeAt`: the loop
`for ( ; n != NULL && k > 0; n = n->next, k--) {}` followed by `return n`. -/
def getLinkedNodeAt (chain : List (Option String)) : Option Nat → Nat → Option Nat
  | none, _ => none
  | some n, 0 => some n
  | some n, k + 1 => getLinkedNodeAt chain (nextLinkedNode chain n) k

/-- The function `addAfterLinkedNode` for a non-null `node`: the new node takes
over the successor of `node` and becomes its `next`. -/
def addAfterLinkedNode (chain : List (Option String)) (node : Nat)
    (newNode : Option String) : List (Option String) :=
  chain.take (node + 1) ++ newNode :: chain.drop (node + 1)

/-- The `LinkedList` struct: the chain starting at the dummy node `head`,
`size`, `maxCapacity`. -/
structure LinkedList where
  head : List (Option String)
  size : Nat
  maxCapacity : Nat
  deriving DecidableEq, Repr

/-- The function `newLinkedList`: the dummy node is `newLinkedNode(NULL)`. -/
def newLinkedList (maxCapacity : Nat) : LinkedList :=
  { head := [newLinkedNode none], size := 0, maxCapacity := maxCapacity }

/-- The function `addLinkedListValAt`; `val = none` is the `NULL` pointer. -/
def addLinkedListValAt (list : LinkedList) (index : Nat) (val : Option String) :
    Bool × LinkedList :=
  if list.size = list.maxCapacity then
    (false, list)
  else
    match getLinkedNodeAt list.head (some 0) index with
    | none => (false, list)
    | some node =>
      (true, { list with head := addAfterLinkedNode list.head node (newLinkedNode val)
                         size := addSizeT list.size 1 })

/-- The function `addLastLinkedListVal`. -/
def addLastLinkedListVal (list : LinkedList) (val : Option String) : Bool × LinkedList :=
  addLinkedListValAt list list.size val

/-- The function `linkedListSize`. -/
def linkedListSize (list : LinkedList) : Nat := list.size

/-- The `LinkedListIterator` struct: `theList`, `curNode` (a node of the chain
of the list, never `NULL` while the iterator lives), `count`. -/
structure LinkedListIterator where
  theList : LinkedList
  curNode : Nat
  count : Nat
  deriving DecidableEq, Repr

/-- The function `newLinkedListIterator`: `curNode` is the dummy head node. -/
def newLinkedListIterator (list : LinkedList) : LinkedListIterator :=
  { theList := list, curNode := 0, count := 0 }

/-- The function `hasNextLinkedListIteratorVal`: `curNode->next != NULL`. -/
def hasNextLinkedListIteratorVal (itr : LinkedListIterator) : Bool :=
  (nextLinkedNode itr.theList.head itr.curNode).isSome

/-- The function `getNextLinkedListIteratorVal`: `some data` when it returns
true with `*val = data`, `none` when it returns false. The first branch is the
one taken when `hasNextLinkedListIteratorVal` is true. -/
def getNextLinkedListIteratorVal (itr : LinkedListIterator) :
    Option (Option String) × LinkedListIterator :=
  match nextLinkedNode itr.theList.head itr.curNode with
  | some next =>
    (some (itr.theList.head.getD next none),
      { itr with curNode := next, count := addSizeT itr.count 1 })
  | none => (none, itr)

/-- The function `getPrevLinkedListIteratorVal`. -/
def getPrevLinkedListIteratorVal (itr : LinkedListIterator) :
    Option (Option String) × LinkedListIterator :=
  if itr.count > 1 then
    match getLinkedNodeAt itr.theList.head (some 0) (subSizeT itr.count 1) with
    | some node =>
      (some (itr.theList.head.getD itr.curNode none),
        { itr with count := subSizeT itr.count 1, curNode := node })
    | none => (none, itr)
  else
    (none, itr)

/-- The function `hasPrevLinkedListIteratorVal`: `theList->head != curNode`. -/
def hasPrevLinkedListIteratorVal (itr : LinkedListIterator) : Bool :=
  decide (0 ≠ itr.curNode)

/-- The function `resetLinkedListIterator`. -/
def resetLinkedListIterator (itr : LinkedListIterator) : Bool × LinkedListIterator :=
  (true, { itr with curNode := 0, count := 0 })

/-- The function `getLinkedListIteratorCount`. -/
def getLinkedListIteratorCount (itr : LinkedListIterator) : Nat := itr.count

/-- The function `getLinkedListIteratorAvailable`. -/
def getLinkedListIteratorAvailable (itr : LinkedListIterator) : Nat :=
  subSizeT itr.theList.size itr.count

/-- A well-formed linked list: the chain has the dummy node and `size` nodes
after it, and `size ≤ maxCapacity ≤ SIZE_MAX`. -/
def LinkedList.WF (list : LinkedList) : Prop :=
  list.head.length = list.size + 1 ∧ list.size ≤ list.maxCapacity ∧
    list.maxCapacity ≤ SIZE_MAX

instance (list : LinkedList) : Decidable list.WF := by
  unfold LinkedList.WF; infer_instance

/-- The calls that move an iterator. -/
inductive IteratorOp where
  | getNext
  | getPrev
  | reset
  deriving DecidableEq, Repr

/-- The iterator after one call. -/
def applyIteratorOp (op : IteratorOp) (itr : LinkedListIterator) : LinkedListIterator :=
  match op with
  | .getNext => (getNextLinkedListIteratorVal itr).2
  | .getPrev => (getPrevLinkedListIteratorVal itr).2
  | .reset => (resetLinkedListIterator itr).2

/-- The iterator after a sequence of calls. -/
def runIteratorOps (ops : List IteratorOp) (itr : LinkedListIterator) : LinkedListIterator :=
  ops.foldl (fun i op => applyIteratorOp op i) itr

/-- The invariant of a live iterator over a well-formed list: `curNode` is the
node `count` steps after the dummy node, and `count ≤ size`. -/
def LinkedListIterator.Inv (itr : LinkedListIterator) : Prop :=
  itr.theList.WF ∧ itr.curNode = itr.count ∧ itr.count ≤ itr.theList.size

instance (itr : LinkedListIterator) : Decidable itr.Inv := by
  unfold LinkedListIterator.Inv; infer_instance

/-- The list of the iterator test: `newLinkedList(5)` followed by
`addLastLinkedListVal` of `"A"` to `"E"`. -/
def exampleLinkedList : LinkedList :=
  (addLastLinkedListVal (addLastLinkedListVal (addLastLinkedListVal (addLastLinkedListVal
    (addLastLinkedListVal (newLinkedList 5) (some "A")).2 (some "B")).2 (some "C")).2
    (some "D")).2 (some "E")).2

/-- The list `newLinkedList(5)` after `addLastLinkedListVal(list, "A")`. -/
def exampleOneNodeList : LinkedList :=
  (addLastLinkedListVal (newLinkedList 5) (some "A")).2

/-- The `LinkedListCrawler` struct: `itr` and `callbackData` (a `void*`, `none`
when `NULL`). The `callback` field never changes while the crawler lives and is
passed to `startLinkedListCrawler` next to the crawler. -/
structure LinkedListCrawler (δ : Type) where
  itr : LinkedListIterator
  callbackData : Option δ

/-- The function `newLinkedListCrawler`. -/
def newLinkedListCrawler {δ : Type} (theList : LinkedList) : LinkedListCrawler δ :=
  { itr := newLinkedListIterator theList, callbackData := none }

/-- The function `getLinkedListCrawlerCount`. -/
def getLinkedListCrawlerCount {δ : Type} (crawler : LinkedListCrawler δ) : Nat :=
  getLinkedListIteratorCount crawler.itr

/-- The function `resetLinkedListCrawler`. -/
def resetLinkedListCrawler {δ : Type} (crawler : LinkedListCrawler δ) :
    Bool × LinkedListCrawler δ :=
  let r := resetLinkedListIterator crawler.itr
  (r.1, { crawler with itr := r.2 })

/-- The function `getLinkedListCrawlerCallbackData`. -/
def getLinkedListCrawlerCallbackData {δ : Type} (crawler : LinkedListCrawler δ) : Option δ :=
  crawler.callbackData

/-- The function `setLinkedListCrawlerCallbackData`. -/
def setLinkedListCrawlerCallbackData {δ : Type} (crawler : LinkedListCrawler δ)
    (data : Option δ) : LinkedListCrawler δ :=
  { crawler with callbackData := data }

/-- The loop `while (getNextLinkedListIteratorVal(crawler->itr, &val))` of
`startLinkedListCrawler`, run for at most `fuel` iterations; a callback returns
its flag and the crawler as it leaves it. The result is the returned flag, the
crawler after the loop, and the record of the callback invocations in order:
the crawler count seen by each one and the flag it returned. -/
def crawlLoop {δ : Type} (callback : LinkedListCrawler δ → Bool × LinkedListCrawler δ) :
    Nat → LinkedListCrawler δ → Option (Bool × LinkedListCrawler δ × List (Nat × Bool))
  | 0, _ => none
  | fuel + 1, crawler =>
    match getNextLinkedListIteratorVal crawler.itr with
    | (some _, itr1) =>
      let res := callback { crawler with itr := itr1 }
      if res.1 = false then
        some (false, res.2, [(getLinkedListIteratorCount itr1, false)])
      else
        match crawlLoop callback fuel res.2 with
        | some (b, last, calls) =>
          some (b, last, (getLinkedListIteratorCount itr1, true) :: calls)
        | none => none
    | (none, itr1) => some (true, { crawler with itr := itr1 }, [])

/-- The function `startLinkedListCrawler`. -/
def startLinkedListCrawler {δ : Type}
    (callback : LinkedListCrawler δ → Bool × LinkedListCrawler δ) (fuel : Nat)
    (crawler : LinkedListCrawler δ) (data : Option δ) :
    Option (Bool × LinkedListCrawler δ × List (Nat × Bool)) :=
  crawlLoop callback fuel { crawler with callbackData := data }

/-- A callback that restarts the crawler with `resetLinkedListCrawler` the first
time it is called (callback data 0), marks that in the callback data, and
always asks to continue. -/
def exampleResetOnceCallback (crawler : LinkedListCrawler Nat) :
    Bool × LinkedListCrawler Nat :=
  match getLinkedListCrawlerCallbackData crawler with
  | some 0 => (true, setLinkedListCrawlerCallbackData (resetLinkedListCrawler crawler).2 (some 1))
  | _ => (true, crawler)

/-- A callback that stops at the element with count 2 and touches nothing. -/
def exampleStopAtSecondCallback (crawler : LinkedListCrawler Nat) :
    Bool × LinkedListCrawler Nat :=
  (decide (getLinkedListCrawlerCount crawler ≠ 2), crawler)

/-- The list `newLinkedList(5)` after appending `"A"` and `"B"`. -/
def exampleTwoNodeList : LinkedList :=
  (addLastLinkedListVal (addLastLinkedListVal (newLinkedList 5) (some "A")).2 (some "B")).2

/-! ## The calls with undefined behaviour made explicit

The definitions above count the nulling loop of `ensureArrayCapacity` exactly
and let `strdup` pass a `NULL` through. The namespace `Strict` embeds the same
functions of `src/PriorityQueue/array_list.c` with the `int` counter of that
loop and with `strdup` as the C library defines it. A result `none` is a call
whose behaviour the C standard leaves undefined; such a call does not return. -/

namespace Strict

/-- The library function `strdup`: a copy of the string. For the `NULL` pointer
the behaviour is undefined (`none`); glibc reads through the pointer and the
process is killed. -/
def strdup (s : Option String) : Option (Option String) :=
  match s with
  | none => none
  | some text => some (some text)

/-- The function `setArrayListValAt`; `val = none` is the `NULL` pointer. -/
def setArrayListValAt (list : ArrayList) (index : Nat) (val : Option String) :
    Option (Bool × ArrayList) :=
  if index < list.size then
    match strdup val with
    | some copy => some (true, { list with vals := list.vals.set index copy })
    | none => none
  else
    some (false, list)

/-- The loop `for (...; i < newCapacity; i++) newVals[i] = NULL` with its `int`
counter at the non-negative value `i` and `room = INT_MAX - i` increments left
before the counter overflows. The increment at `INT_MAX` is undefined. -/
def intCounterLoop (newCapacity : Nat) : Nat → Nat → List (Option String) →
    Option (List (Option String))
  | 0, i, vals => if i < newCapacity then none else some vals
  | room + 1, i, vals =>
    if i < newCapacity then
      intCounterLoop newCapacity room (i + 1) (vals.set i none)
    else
      some vals

/-- The loop `for (int i = list->capacity; i < newCapacity; i++) newVals[i] = NULL`.
The conversion `int i = list->capacity` keeps the low 32 bits as a two's
complement number (implementation-defined, and what gcc and clang do). For the
comparison the counter is converted to `size_t`, so a negative counter compares
as `2 ^ 64 - 2 ^ 32 + low`; when even that is below `newCapacity` the write
falls before the array, which is undefined. -/
def initNewVals (vals : List (Option String)) (capacity newCapacity : Nat) :
    Option (List (Option String)) :=
  let low := capacity % 2 ^ 32
  if low < 2 ^ 31 then
    intCounterLoop newCapacity (INT_MAX - low) low vals
  else if 2 ^ 64 - 2 ^ 32 + low < newCapacity then
    none
  else
    some vals

/-- The function `ensureArrayCapacity`. The flag `reallocOk` says whether
`realloc` returns a non-null pointer when it is called; `junk k` is what the
memory of slot `k` holds when `realloc` hands it out. -/
def ensureArrayCapacity (reallocOk : Bool) (junk : Nat → Option String) (list : ArrayList) :
    Option (Bool × ArrayList) :=
  if list.size = list.capacity then
    if list.capacity = list.maxCapacity then
      some (false, list)
    else
      let newCapacity :=
        if subSizeT list.maxCapacity list.capacity < list.capacity then
          list.maxCapacity
        else
          mulSizeT list.capacity 2
      if reallocOk = false then
        some (false, list)
      else
        let newVals := list.vals ++
          (List.range (newCapacity - list.capacity)).map (fun k => junk (list.capacity + k))
        match initNewVals newVals list.capacity newCapacity with
        | some vals1 => some (true, { list with vals := vals1, capacity := newCapacity })
        | none => none
  else
    some (true, list)

/-- The function `addArrayListValAt`; `val = none` is the `NULL` pointer. -/
def addArrayListValAt (reallocOk : Bool) (junk : Nat → Option String) (list : ArrayList)
    (index : Nat) (val : Option String) : Option (Bool × ArrayList) :=
  if index > list.size then
    some (false, list)
  else
    match ensureArrayCapacity reallocOk junk list with
    | none => none
    | some (false, list1) => some (false, list1)
    | some (true, list1) =>
      let vals1 := shiftUp index list1.size list1.vals
      let vals2 := vals1.set index none
      let list2 := { list1 with vals := vals2, size := addSizeT list1.size 1 }
      match setArrayListValAt list2 index val with
      | some res => some (true, res.2)
      | none => none

/-- The function `addLastArrayListVal`. -/
def addLastArrayListVal (reallocOk : Bool) (junk : Nat → Option String) (list : ArrayList)
    (val : Option String) : Option (Bool × ArrayList) :=
  addArrayListValAt reallocOk junk list list.size val

end Strict

/-- Memory that holds the same non-null pointer in every slot handed out. -/
def exampleJunk : Nat → Option String := fun _ => some "junk"

/-- A full list of `n` values `"a"`, with maximum capacity `SIZE_MAX`. -/
def exampleFullListOf (n : Nat) : ArrayList :=
  { vals := List.replicate n (some "a"), size := n, capacity := n, maxCapacity := SIZE_MAX }

/-- A full list of `2 ^ 31` values. -/
def exampleHugeList : ArrayList := exampleFullListOf (2 ^ 31)

/-! ## Theorems: the shifting loops -/

theorem initNewVals_eq (n : Nat) (vals : List (Option String)) :
    initNewVals vals n = vals ++ List.replicate n none := by
  induction n generalizing vals with
  | zero => simp [initNewVals]
  | succ n ih =>
    rw [initNewVals, ih, List.replicate_succ]
    simp

theorem shiftUp_length (index i : Nat) (vals : List (Option String)) :
    (shiftUp index i vals).length = vals.length := by
  induction i generalizing vals with
  | zero => simp [shiftUp]
  | succ i ih =>
    rw [shiftUp]
    split
    · rw [ih]; simp
    · rfl

theorem shiftUp_getElem? (index i : Nat) (vals : List (Option String))
    (hi : i < vals.length) (k : Nat) :
    (shiftUp index i vals)[k]? =
      if index < k ∧ k ≤ i then vals[k - 1]? else vals[k]? := by
  induction i generalizing vals with
  | zero =>
    have : ¬ (index < k ∧ k ≤ 0) := by omega
    rw [shiftUp, if_neg this]
  | succ i ih =>
    rw [shiftUp]
    split
    · rename_i hgt
      have hlen : (vals.set (i + 1) (vals.getD i none)).length = vals.length := by simp
      rw [ih _ (by rw [hlen]; omega)]
      have hget : vals[i]? = some (vals.getD i none) := by
        rw [List.getD_eq_getElem?_getD, List.getElem?_eq_getElem (by omega)]
        simp
      by_cases h1 : index < k ∧ k ≤ i
      · have h2 : index < k ∧ k ≤ i + 1 := by omega
        rw [if_pos h1, if_pos h2, List.getElem?_set]
        have : ¬ (i + 1 = k - 1) := by omega
        simp [this]
      · rw [if_neg h1, List.getElem?_set]
        by_cases h3 : i + 1 = k
        · subst h3
          have h2 : index < i + 1 ∧ i + 1 ≤ i + 1 := by omega
          rw [if_pos h2, if_pos rfl, if_pos hi, Nat.add_sub_cancel, hget]
        · have h2 : ¬ (index < k ∧ k ≤ i + 1) := by omega
          simp [h3, h2]
    · rename_i hgt
      have : ¬ (index < k ∧ k ≤ i + 1) := by omega
      simp [this]

theorem shiftDown_length (n i : Nat) (vals : List (Option String)) :
    (shiftDown n i vals).length = vals.length := by
  induction n generalizing i vals with
  | zero => simp [shiftDown]
  | succ n ih => rw [shiftDown, ih]; simp

theorem shiftDown_getElem? (n i : Nat) (vals : List (Option String))
    (hi : i + n < vals.length) (k : Nat) :
    (shiftDown n i vals)[k]? =
      if i ≤ k ∧ k < i + n then vals[k + 1]? else vals[k]? := by
  induction n generalizing i vals with
  | zero =>
    have : ¬ (i ≤ k ∧ k < i + 0) := by omega
    rw [shiftDown, if_neg this]
  | succ n ih =>
    rw [shiftDown]
    have hlen : (vals.set i (vals.getD (i + 1) none)).length = vals.length := by simp
    rw [ih _ _ (by rw [hlen]; omega)]
    have hget : vals[i + 1]? = some (vals.getD (i + 1) none) := by
      rw [List.getD_eq_getElem?_getD, List.getElem?_eq_getElem (by omega)]
      simp
    by_cases h1 : i + 1 ≤ k ∧ k < i + 1 + n
    · have h2 : i ≤ k ∧ k < i + (n + 1) := by omega
      rw [if_pos h1, if_pos h2, List.getElem?_set]
      have : ¬ (i = k + 1) := by omega
      simp [this]
    · rw [if_neg h1, List.getElem?_set]
      by_cases h3 : i = k
      · subst h3
        have h2 : i ≤ i ∧ i < i + (n + 1) := by omega
        have h4 : i < vals.length := by omega
        rw [if_pos h2, if_pos rfl, if_pos h4, hget]
      · have h2 : ¬ (i ≤ k ∧ k < i + (n + 1)) := by omega
        simp [h3, h2]

theorem shiftUp_insert (vals : List (Option String)) (size index : Nat) (v : String)
    (hidx : index ≤ size) (hsz : size < vals.length) :
    ((((shiftUp index size vals).set index none).set index (some v)).take (size + 1)) =
      (vals.take size).take index ++ some v :: (vals.take size).drop index := by
  apply List.ext_getElem?
  intro k
  have hlen : (shiftUp index size vals).length = vals.length := shiftUp_length _ _ _
  have hlen2 : ((vals.take size).take index).length = index := by
    simp [List.length_take]; omega
  rw [List.getElem?_take, List.getElem?_set, List.getElem?_set,
    shiftUp_getElem? _ _ _ hsz, List.getElem?_append, hlen2, List.getElem?_cons,
    List.getElem?_drop, List.getElem?_take, List.getElem?_take, List.getElem?_take,
    List.length_set, hlen]
  by_cases h1 : k < index
  · have h2 : ¬ (index = k) := by omega
    have h3 : ¬ (index < k ∧ k ≤ size) := by omega
    have h4 : k < size + 1 := by omega
    have h5 : k < size := by omega
    simp only [h1, h2, h3, h4, h5, if_true, if_false]
  · by_cases h2 : index = k
    · subst h2
      have h4 : index < size + 1 := by omega
      have h6 : index < vals.length := by omega
      simp [h4, h6]
    · have h3 : index < k := by omega
      have h7 : ¬ (k - index = 0) := by omega
      have h8 : index + (k - index - 1) = k - 1 := by omega
      by_cases h4 : k < size + 1
      · have h5 : index < k ∧ k ≤ size := by omega
        have h6 : k - 1 < size := by omega
        simp only [h1, h2, h4, h5, h6, h7, h8, if_true, if_false, and_self]
      · have h6 : ¬ (k - 1 < size) := by omega
        simp only [h1, h4, h6, h7, h8, if_true, if_false]

theorem shiftDown_remove (vals : List (Option String)) (size index : Nat)
    (hidx : index < size) (hsz : size ≤ vals.length) :
    (((shiftDown (size - 1 - index) index vals).set (size - 1) none).take (size - 1)) =
      (vals.take size).take index ++ (vals.take size).drop (index + 1) := by
  apply List.ext_getElem?
  intro k
  have hlen2 : ((vals.take size).take index).length = index := by
    simp [List.length_take]; omega
  rw [List.getElem?_take, List.getElem?_set,
    shiftDown_getElem? _ _ _ (by omega), List.getElem?_append, hlen2,
    List.getElem?_drop, List.getElem?_take, List.getElem?_take, List.getElem?_take]
  by_cases h1 : k < index
  · have h2 : ¬ (size - 1 = k) := by omega
    have h3 : ¬ (index ≤ k ∧ k < index + (size - 1 - index)) := by omega
    have h4 : k < size - 1 := by omega
    have h5 : k < size := by omega
    simp only [h1, h2, h3, h4, h5, if_true, if_false]
  · have h8 : index + 1 + (k - index) = k + 1 := by omega
    by_cases h4 : k < size - 1
    · have h2 : ¬ (size - 1 = k) := by omega
      have h3 : index ≤ k ∧ k < index + (size - 1 - index) := by omega
      have h5 : k + 1 < size := by omega
      simp only [h1, h2, h3, h4, h5, h8, if_true, if_false, and_self]
    · have h5 : ¬ (k + 1 < size) := by omega
      simp only [h1, h4, h5, h8, if_true, if_false]

/-! ## Theorems: growth and insertion -/

theorem subSizeT_eq (a b : Nat) (hb : b ≤ a) (ha : a ≤ SIZE_MAX) : subSizeT a b = a - b := by
  unfold subSizeT
  unfold SIZE_MAX at ha
  have h1 : b % 2 ^ 64 = b := Nat.mod_eq_of_lt (by omega)
  rw [h1]
  omega

theorem addSizeT_one (a : Nat) (ha : a < SIZE_MAX) : addSizeT a 1 = a + 1 := by
  unfold addSizeT
  unfold SIZE_MAX at ha
  exact Nat.mod_eq_of_lt (by omega)

theorem grow_capacity (c m : Nat) (h1 : c ≤ m) (h2 : m ≤ SIZE_MAX) :
    (if subSizeT m c < c then m else mulSizeT c 2) = min (2 * c) m := by
  rw [subSizeT_eq m c h1 h2]
  unfold SIZE_MAX at h2
  split
  · omega
  · unfold mulSizeT
    rw [Nat.mod_eq_of_lt (by omega)]
    omega

theorem ensureArrayCapacity_room (r : Bool) (list : ArrayList)
    (h1 : list.size ≠ list.capacity) : ensureArrayCapacity r list = (true, list) := by
  simp [ensureArrayCapacity, h1]

theorem ensureArrayCapacity_full (r : Bool) (list : ArrayList)
    (h1 : list.size = list.capacity) (h2 : list.capacity = list.maxCapacity) :
    ensureArrayCapacity r list = (false, list) := by
  simp [ensureArrayCapacity, h1, h2]

theorem ensureArrayCapacity_nomem (list : ArrayList)
    (h1 : list.size = list.capacity) (h2 : list.capacity ≠ list.maxCapacity) :
    ensureArrayCapacity false list = (false, list) := by
  simp [ensureArrayCapacity, h1, h2]

theorem ensureArrayCapacity_grow (list : ArrayList)
    (h1 : list.size = list.capacity) (h2 : list.capacity ≠ list.maxCapacity) :
    ensureArrayCapacity true list =
      (true, { list with
                vals := initNewVals list.vals (grownCapacity list - list.capacity)
                capacity := grownCapacity list }) := by
  simp [ensureArrayCapacity, h1, h2, grownCapacity]

theorem ensureArrayCapacity_cases (r : Bool) (list : ArrayList) :
    (list.size ≠ list.capacity ∧ ensureArrayCapacity r list = (true, list)) ∨
    (list.size = list.capacity ∧ list.capacity = list.maxCapacity ∧
      ensureArrayCapacity r list = (false, list)) ∨
    (list.size = list.capacity ∧ list.capacity ≠ list.maxCapacity ∧ r = false ∧
      ensureArrayCapacity r list = (false, list)) ∨
    (list.size = list.capacity ∧ list.capacity ≠ list.maxCapacity ∧ r = true ∧
      ensureArrayCapacity r list =
        (true, { list with
                  vals := initNewVals list.vals (grownCapacity list - list.capacity)
                  capacity := grownCapacity list })) := by
  by_cases h1 : list.size = list.capacity
  · by_cases h2 : list.capacity = list.maxCapacity
    · exact Or.inr (Or.inl ⟨h1, h2, ensureArrayCapacity_full r list h1 h2⟩)
    · cases r
      · exact Or.inr (Or.inr (Or.inl ⟨h1, h2, rfl, ensureArrayCapacity_nomem list h1 h2⟩))
      · exact Or.inr (Or.inr (Or.inr ⟨h1, h2, rfl, ensureArrayCapacity_grow list h1 h2⟩))
  · exact Or.inl ⟨h1, ensureArrayCapacity_room r list h1⟩

theorem ensureArrayCapacity_fail (r : Bool) (list : ArrayList)
    (h : (ensureArrayCapacity r list).1 = false) : (ensureArrayCapacity r list).2 = list := by
  rcases ensureArrayCapacity_cases r list with ⟨_, e⟩ | ⟨_, _, e⟩ | ⟨_, _, _, e⟩ | ⟨_, _, _, e⟩
  all_goals rw [e] at h ⊢
  all_goals first | rfl | simp at h

theorem ensureArrayCapacity_ok_iff (r : Bool) (list : ArrayList) :
    (ensureArrayCapacity r list).1 = true ↔
      (list.size ≠ list.capacity ∨ (list.capacity ≠ list.maxCapacity ∧ r = true)) := by
  rcases ensureArrayCapacity_cases r list with
    ⟨h1, e⟩ | ⟨h1, h2, e⟩ | ⟨h1, h2, h3, e⟩ | ⟨h1, h2, h3, e⟩
  · rw [e]; simp [h1]
  · rw [e]; simp [h1, h2]
  · rw [e]; simp [h1, h3]
  · rw [e]; simp [h2, h3]

theorem ensureArrayCapacity_capacity (r : Bool) (list : ArrayList) (hwf : list.WF)
    (h : (ensureArrayCapacity r list).1 = true) :
    (ensureArrayCapacity r list).2.capacity =
      if list.size = list.capacity then min (2 * list.capacity) list.maxCapacity
      else list.capacity := by
  obtain ⟨_, _, w3, w4, _⟩ := hwf
  have hg := grow_capacity list.capacity list.maxCapacity w3 w4
  rcases ensureArrayCapacity_cases r list with
    ⟨h1, e⟩ | ⟨h1, h2, e⟩ | ⟨h1, h2, h3, e⟩ | ⟨h1, h2, h3, e⟩
  all_goals rw [e] at h ⊢
  · simp [h1]
  · simp at h
  · simp at h
  · simp only [h1, if_true]
    exact hg

theorem ensureArrayCapacity_spec (r : Bool) (list : ArrayList) (hwf : list.WF)
    (h : (ensureArrayCapacity r list).1 = true) :
    (ensureArrayCapacity r list).2.size = list.size ∧
    (ensureArrayCapacity r list).2.maxCapacity = list.maxCapacity ∧
    list.size < (ensureArrayCapacity r list).2.capacity ∧
    (ensureArrayCapacity r list).2.capacity ≤ list.maxCapacity ∧
    (ensureArrayCapacity r list).2.vals.length = (ensureArrayCapacity r list).2.capacity ∧
    (ensureArrayCapacity r list).2.vals.take list.size = list.vals.take list.size := by
  obtain ⟨w1, w2, w3, w4, w5⟩ := hwf
  have hg : grownCapacity list = min (2 * list.capacity) list.maxCapacity :=
    grow_capacity list.capacity list.maxCapacity w3 w4
  rcases ensureArrayCapacity_cases r list with
    ⟨h1, e⟩ | ⟨h1, h2, e⟩ | ⟨h1, h2, h3, e⟩ | ⟨h1, h2, h3, e⟩
  all_goals rw [e] at h ⊢
  · refine ⟨rfl, rfl, ?_, ?_, w1, rfl⟩
    · show list.size < list.capacity
      omega
    · show list.capacity ≤ list.maxCapacity
      omega
  · simp at h
  · simp at h
  · have h5 : 0 < list.capacity := by
      rcases Nat.eq_zero_or_pos list.capacity with h0 | h0
      · exact absurd (h0.trans (w5 h0).symm) h2
      · exact h0
    refine ⟨rfl, rfl, ?_, ?_, ?_, ?_⟩
    · show list.size < grownCapacity list
      omega
    · show grownCapacity list ≤ list.maxCapacity
      omega
    · show (initNewVals list.vals (grownCapacity list - list.capacity)).length
        = grownCapacity list
      rw [initNewVals_eq, List.length_append, List.length_replicate, w1]
      omega
    · show (initNewVals list.vals (grownCapacity list - list.capacity)).take list.size
        = list.vals.take list.size
      rw [initNewVals_eq, List.take_append_of_le_length (by omega)]

theorem addArrayListValAt_out_of_bounds (r : Bool) (list : ArrayList) (index : Nat)
    (val : String) (h : index > list.size) :
    addArrayListValAt r list index val = (false, list) := by
  simp [addArrayListValAt, h]

theorem addArrayListValAt_no_room (r : Bool) (list : ArrayList) (index : Nat)
    (val : String) (h : (ensureArrayCapacity r list).1 = false) :
    addArrayListValAt r list index val = (false, list) := by
  have h2 := ensureArrayCapacity_fail r list h
  unfold addArrayListValAt
  split
  · rfl
  · have e : ensureArrayCapacity r list = (false, list) := Prod.ext h h2
    rw [e]

theorem addArrayListValAt_room (r : Bool) (list list1 : ArrayList) (index : Nat)
    (val : String) (hidx : index ≤ list.size) (hmax : list.size < SIZE_MAX)
    (h : ensureArrayCapacity r list = (true, list1)) :
    addArrayListValAt r list index val =
      (true, { list1 with
                vals := ((shiftUp index list1.size list1.vals).set index none).set index
                  (some val)
                size := list.size + 1 }) := by
  have hlt : ¬ (index > list.size) := by omega
  have h1 := congrArg Prod.fst h
  have h2 := congrArg Prod.snd h
  simp only at h1 h2
  have hs : list1.size = list.size := by
    rcases ensureArrayCapacity_cases r list with
      ⟨_, e⟩ | ⟨_, _, e⟩ | ⟨_, _, _, e⟩ | ⟨_, _, _, e⟩
    all_goals rw [e] at h2
    all_goals rw [← h2]
  unfold addArrayListValAt
  rw [if_neg hlt, h]
  simp only [setArrayListValAt]
  rw [hs, addSizeT_one _ hmax]
  have h3 : index < list.size + 1 := by omega
  simp [h3]

theorem addArrayListValAt_spec (r : Bool) (list : ArrayList) (index : Nat) (val : String)
    (hwf : list.WF) (hidx : index ≤ list.size)
    (hens : (ensureArrayCapacity r list).1 = true) :
    (addArrayListValAt r list index val).1 = true ∧
    (addArrayListValAt r list index val).2.size = list.size + 1 ∧
    (addArrayListValAt r list index val).2.capacity =
      (ensureArrayCapacity r list).2.capacity ∧
    (addArrayListValAt r list index val).2.maxCapacity = list.maxCapacity ∧
    (addArrayListValAt r list index val).2.contents =
      list.contents.take index ++ some val :: list.contents.drop index ∧
    (addArrayListValAt r list index val).2.WF := by
  obtain ⟨s1, s2, s3, s4, s5, s6⟩ := ensureArrayCapacity_spec r list hwf hens
  have hw := hwf
  obtain ⟨w1, w2, w3, w4, w5⟩ := hw
  have hmax : list.size < SIZE_MAX := by omega
  have e : ensureArrayCapacity r list = (true, (ensureArrayCapacity r list).2) :=
    Prod.ext hens rfl
  rw [addArrayListValAt_room r list _ index val hidx hmax e]
  generalize (ensureArrayCapacity r list).2 = list1 at s1 s2 s3 s4 s5 s6
  have hins := shiftUp_insert list1.vals list.size index val hidx (by omega)
  rw [s6] at hins
  refine ⟨rfl, rfl, rfl, s2, ?_, ?_⟩
  · show List.take (list.size + 1) _ = _
    rw [s1]
    exact hins
  · refine ⟨?_, ?_, ?_, ?_, ?_⟩
    · show (((shiftUp index list1.size list1.vals).set index none).set index
        (some val)).length = list1.capacity
      rw [List.length_set, List.length_set, shiftUp_length, s5]
    · show list.size + 1 ≤ list1.capacity
      omega
    · show list1.capacity ≤ list1.maxCapacity
      omega
    · show list1.maxCapacity ≤ SIZE_MAX
      omega
    · show list1.capacity = 0 → list1.maxCapacity = 0
      omega

theorem eraseIdx_take_cons_drop {α : Type} (xs : List α) (i : Nat) (v : α)
    (h : i ≤ xs.length) : (xs.take i ++ v :: xs.drop i).eraseIdx i = xs := by
  induction xs generalizing i with
  | nil =>
    have : i = 0 := by simpa using h
    subst this
    rfl
  | cons x xs ih =>
    cases i with
    | zero => rfl
    | succ i =>
      have h2 : i ≤ xs.length := by simpa using h
      simp only [List.take_succ_cons, List.drop_succ_cons, List.cons_append,
        List.eraseIdx_cons_succ]
      rw [ih i h2]

/-! ## Insertion into the array list -/

/-- C8: on a well-formed list with contents `xs`, a successful
`addArrayListValAt` at `index ≤ size` yields the contents
`take index xs ++ [val] ++ drop index xs`, the size grows by exactly one, and
erasing position `index` from the new contents gives back `xs`, so the earlier
elements keep their relative order. -/
theorem addArrayListValAt_contents (r : Bool) (list : ArrayList) (index : Nat)
    (val : String) (hwf : list.WF) (hidx : index ≤ list.size)
    (hok : (addArrayListValAt r list index val).1 = true) :
    (addArrayListValAt r list index val).2.contents =
      list.contents.take index ++ [some val] ++ list.contents.drop index ∧
    (addArrayListValAt r list index val).2.size = list.size + 1 ∧
    (addArrayListValAt r list index val).2.contents.eraseIdx index = list.contents := by
  have hens : (ensureArrayCapacity r list).1 = true := by
    cases h : (ensureArrayCapacity r list).1
    · rw [addArrayListValAt_no_room r list index val h] at hok
      exact absurd hok (by simp)
    · rfl
  obtain ⟨_, h2, _, _, h5, _⟩ := addArrayListValAt_spec r list index val hwf hidx hens
  have hlen : index ≤ list.contents.length := by
    unfold ArrayList.contents
    rw [List.length_take]
    have := hwf.1
    have := hwf.2.1
    omega
  refine ⟨by simpa using h5, h2, ?_⟩
  rw [h5]
  exact eraseIdx_take_cons_drop _ _ _ hlen

/-- Witness for C8 on `exampleList`: inserting `"x"` at index 1. -/
theorem addArrayListValAt_contents_witness :
    exampleList.WF ∧ 1 ≤ exampleList.size ∧
    (addArrayListValAt true exampleList 1 "x").1 = true ∧
    ((addArrayListValAt true exampleList 1 "x").2.contents =
      exampleList.contents.take 1 ++ [some "x"] ++ exampleList.contents.drop 1 ∧
    (addArrayListValAt true exampleList 1 "x").2.size = exampleList.size + 1 ∧
    (addArrayListValAt true exampleList 1 "x").2.contents.eraseIdx 1 =
      exampleList.contents) :=
  ⟨by decide, by decide, by decide,
    addArrayListValAt_contents true exampleList 1 "x" (by decide) (by decide) (by decide)⟩

theorem newArrayList_WF (m : Nat) (hm : m ≤ SIZE_MAX) : (newArrayList m).WF := by
  unfold newArrayList ArrayList.WF
  simp only [List.length_replicate]
  refine ⟨trivial, Nat.zero_le _, ?_, hm, ?_⟩
  · split <;> omega
  · split <;> omega

theorem addArrayListValAt_WF (r : Bool) (list : ArrayList) (index : Nat) (val : String)
    (hwf : list.WF) :
    (addArrayListValAt r list index val).2.WF ∧
    (addArrayListValAt r list index val).2.maxCapacity = list.maxCapacity := by
  by_cases hidx : index ≤ list.size
  · cases hens : (ensureArrayCapacity r list).1
    · rw [addArrayListValAt_no_room r list index val hens]
      exact ⟨hwf, rfl⟩
    · obtain ⟨_, _, _, a4, _, a6⟩ := addArrayListValAt_spec r list index val hwf hidx hens
      exact ⟨a6, a4⟩
  · rw [addArrayListValAt_out_of_bounds r list index val (by omega)]
    exact ⟨hwf, rfl⟩

theorem setArrayListValAt_WF (list : ArrayList) (index : Nat) (val : String)
    (hwf : list.WF) :
    (setArrayListValAt list index val).2.WF ∧
    (setArrayListValAt list index val).2.maxCapacity = list.maxCapacity := by
  unfold setArrayListValAt
  split
  · obtain ⟨w1, w2, w3, w4, w5⟩ := hwf
    refine ⟨⟨?_, w2, w3, w4, w5⟩, rfl⟩
    show (list.vals.set index (some val)).length = list.capacity
    rw [List.length_set, w1]
  · exact ⟨hwf, rfl⟩

theorem deleteArrayListValAt_fail (list : ArrayList) (index : Nat)
    (h : index ≥ list.size) : deleteArrayListValAt list index = (false, list) := by
  simp [deleteArrayListValAt, h]

theorem deleteArrayListValAt_spec (list : ArrayList) (index : Nat) (hwf : list.WF)
    (h : index < list.size) :
    (deleteArrayListValAt list index).1 = true ∧
    (deleteArrayListValAt list index).2.size = list.size - 1 ∧
    (deleteArrayListValAt list index).2.capacity = list.capacity ∧
    (deleteArrayListValAt list index).2.maxCapacity = list.maxCapacity ∧
    (deleteArrayListValAt list index).2.contents =
      list.contents.take index ++ list.contents.drop (index + 1) ∧
    (deleteArrayListValAt list index).2.WF := by
  obtain ⟨w1, w2, w3, w4, w5⟩ := hwf
  have hsub : subSizeT list.size 1 = list.size - 1 :=
    subSizeT_eq list.size 1 (by omega) (by omega)
  have hnot : ¬ (index ≥ list.size) := by omega
  unfold deleteArrayListValAt
  rw [if_neg hnot]
  simp only [hsub]
  refine ⟨trivial, trivial, trivial, trivial, ?_, ?_⟩
  · exact shiftDown_remove list.vals list.size index h (by omega)
  · refine ⟨?_, ?_, w3, w4, w5⟩
    · show ((shiftDown (list.size - 1 - index) index list.vals).set (list.size - 1)
        none).length = list.capacity
      rw [List.length_set, shiftDown_length, w1]
    · show list.size - 1 ≤ list.capacity
      omega

theorem deleteArrayListValAt_WF (list : ArrayList) (index : Nat) (hwf : list.WF) :
    (deleteArrayListValAt list index).2.WF ∧
    (deleteArrayListValAt list index).2.maxCapacity = list.maxCapacity := by
  by_cases h : index < list.size
  · obtain ⟨_, _, _, d4, _, d6⟩ := deleteArrayListValAt_spec list index hwf h
    exact ⟨d6, d4⟩
  · rw [deleteArrayListValAt_fail list index (by omega)]
    exact ⟨hwf, rfl⟩

theorem deleteLastArrayListVal_WF (list : ArrayList) (hwf : list.WF) :
    (deleteLastArrayListVal list).2.WF ∧
    (deleteLastArrayListVal list).2.maxCapacity = list.maxCapacity := by
  unfold deleteLastArrayListVal
  split
  · exact deleteArrayListValAt_WF list _ hwf
  · exact ⟨hwf, rfl⟩

theorem deleteAllLoop_WF (fuel : Nat) (list : ArrayList) (hwf : list.WF) :
    (deleteAllLoop fuel list).WF ∧
    (deleteAllLoop fuel list).maxCapacity = list.maxCapacity := by
  induction fuel generalizing list with
  | zero => exact ⟨hwf, rfl⟩
  | succ fuel ih =>
    have hd := deleteLastArrayListVal_WF list hwf
    unfold deleteAllLoop
    split
    · rename_i l1 heq
      rw [heq] at hd
      obtain ⟨i1, i2⟩ := ih l1 hd.1
      exact ⟨i1, i2.trans hd.2⟩
    · rename_i l1 heq
      rw [heq] at hd
      exact hd

theorem applyListOp_WF (op : ListOp) (list : ArrayList) (hwf : list.WF) :
    (applyListOp op list).2.WF ∧
    (applyListOp op list).2.maxCapacity = list.maxCapacity := by
  cases op with
  | addAt r index val => exact addArrayListValAt_WF r list index val hwf
  | addFirst r val => exact addArrayListValAt_WF r list 0 val hwf
  | addLast r val => exact addArrayListValAt_WF r list list.size val hwf
  | getAt index => exact ⟨hwf, rfl⟩
  | getFirst => exact ⟨hwf, rfl⟩
  | getLast => exact ⟨hwf, rfl⟩
  | setAt index val => exact setArrayListValAt_WF list index val hwf
  | setFirst val => exact setArrayListValAt_WF list 0 val hwf
  | setLast val =>
    show (setLastArrayListVal list val).2.WF ∧
      (setLastArrayListVal list val).2.maxCapacity = list.maxCapacity
    unfold setLastArrayListVal
    split
    · exact ⟨hwf, rfl⟩
    · exact setArrayListValAt_WF list _ val hwf
  | deleteAt index => exact deleteArrayListValAt_WF list index hwf
  | deleteFirst => exact deleteArrayListValAt_WF list 0 hwf
  | deleteLast => exact deleteLastArrayListVal_WF list hwf
  | deleteAll => exact deleteAllLoop_WF _ list hwf

theorem runListOps_WF (ops : List ListOp) (list : ArrayList) (hwf : list.WF) :
    (runListOps ops list).WF ∧ (runListOps ops list).maxCapacity = list.maxCapacity := by
  induction ops generalizing list with
  | nil => exact ⟨hwf, rfl⟩
  | cons op ops ih =>
    obtain ⟨h1, h2⟩ := applyListOp_WF op list hwf
    obtain ⟨i1, i2⟩ := ih (applyListOp op list).2 h1
    exact ⟨i1, i2.trans h2⟩

theorem ArrayList.Reachable.wf {m : Nat} {list : ArrayList} (h : list.Reachable m)
    (hm : m ≤ SIZE_MAX) : list.WF ∧ list.maxCapacity = m := by
  obtain ⟨ops, rfl⟩ := h
  exact runListOps_WF ops _ (newArrayList_WF m hm)

/-! ## Failure of insertion -/

theorem addArrayListValAt_full (r : Bool) (list : ArrayList) (index : Nat) (val : String)
    (hwf : list.WF) (hs : list.size = list.maxCapacity) :
    addArrayListValAt r list index val = (false, list) := by
  obtain ⟨_, w2, w3, _, _⟩ := hwf
  have e := ensureArrayCapacity_full r list (by omega) (by omega)
  exact addArrayListValAt_no_room r list index val (by rw [e])

theorem addArrayListValAt_fail_iff_wf (list : ArrayList) (index : Nat) (val : String)
    (hwf : list.WF) :
    (addArrayListValAt true list index val).1 = false ↔
      (index > list.size ∨ list.size = list.maxCapacity) := by
  constructor
  · intro hfail
    by_contra hcon
    have hidx : index ≤ list.size := by omega
    have hne : list.size ≠ list.maxCapacity := by omega
    have hens : (ensureArrayCapacity true list).1 = true := by
      rw [ensureArrayCapacity_ok_iff]
      by_cases hc : list.size = list.capacity
      · exact Or.inr ⟨by omega, rfl⟩
      · exact Or.inl hc
    have hok := (addArrayListValAt_spec true list index val hwf hidx hens).1
    rw [hok] at hfail
    exact absurd hfail (by decide)
  · rintro (h | h)
    · rw [addArrayListValAt_out_of_bounds true list index val h]
    · rw [addArrayListValAt_full true list index val hwf h]

/-- C9: on a list reachable from `newArrayList m` (with `m` a `size_t` value)
and with reallocation succeeding, `addArrayListValAt` fails iff
`index > size` or `size = m`; and on a list with `size = capacity = m` the
insertion fails, whatever `realloc` would do, and returns the list unchanged
(size, capacity and contents). -/
theorem addArrayListValAt_fails_iff (m : Nat) (list : ArrayList) (index : Nat)
    (val : String) (hm : m ≤ SIZE_MAX) (hr : list.Reachable m) :
    ((addArrayListValAt true list index val).1 = false ↔
      (index > list.size ∨ list.size = m)) ∧
    (list.size = list.capacity → list.capacity = m →
      ∀ r : Bool, addArrayListValAt r list index val = (false, list)) := by
  obtain ⟨hwf, hmax⟩ := hr.wf hm
  constructor
  · rw [addArrayListValAt_fail_iff_wf list index val hwf, hmax]
  · intro h1 h2 r
    exact addArrayListValAt_full r list index val hwf (by omega)

/-- Witness for C9 on the full list reached from `newArrayList 2` by two
appends. -/
theorem addArrayListValAt_fails_iff_witness :
    2 ≤ SIZE_MAX ∧ exampleReachedList.Reachable 2 ∧
    (addArrayListValAt true exampleReachedList 1 "c").1 = false ∧
    (((addArrayListValAt true exampleReachedList 1 "c").1 = false ↔
      (1 > exampleReachedList.size ∨ exampleReachedList.size = 2)) ∧
    (exampleReachedList.size = exampleReachedList.capacity →
      exampleReachedList.capacity = 2 →
      ∀ r : Bool, addArrayListValAt r exampleReachedList 1 "c" =
        (false, exampleReachedList))) :=
  ⟨by decide, ⟨_, rfl⟩, by decide,
    addArrayListValAt_fails_iff 2 exampleReachedList 1 "c" (by decide) ⟨_, rfl⟩⟩

/-! ## The deque at the head end -/

theorem peekFirstArrayDequeVal_empty (deque : ArrayDeque) (h : deque.list.size = 0) :
    peekFirstArrayDequeVal deque = none := by
  simp [peekFirstArrayDequeVal, getFirstArrayListVal, getArrayListValAt, h]

theorem peekFirstArrayDequeVal_nonempty (deque : ArrayDeque) (h : 0 < deque.list.size) :
    peekFirstArrayDequeVal deque = some (deque.list.vals.getD 0 none) := by
  simp [peekFirstArrayDequeVal, getFirstArrayListVal, getArrayListValAt, h]

theorem dequeueArrayDequeVal_empty (deque : ArrayDeque) (h : deque.list.size = 0) :
    dequeueArrayDequeVal deque = (none, deque) := by
  simp [dequeueArrayDequeVal, peekHeadArrayDequeVal, peekFirstArrayDequeVal_empty deque h]

theorem dequeueArrayDequeVal_nonempty (deque : ArrayDeque) (h : 0 < deque.list.size) :
    dequeueArrayDequeVal deque =
      (some (deque.list.vals.getD 0 none),
        { list := (deleteArrayListValAt deque.list 0).2 }) := by
  simp [dequeueArrayDequeVal, peekHeadArrayDequeVal, peekFirstArrayDequeVal_nonempty deque h,
    dropHeadArrayDequeVal, dropFirstArrayDequeVal, deleteFirstArrayListVal, strdup]

theorem dequeueArrayDequeVal_fst (deque : ArrayDeque) :
    (dequeueArrayDequeVal deque).1 = peekFirstArrayDequeVal deque := by
  rcases Nat.eq_zero_or_pos deque.list.size with h | h
  · rw [dequeueArrayDequeVal_empty deque h, peekFirstArrayDequeVal_empty deque h]
  · rw [dequeueArrayDequeVal_nonempty deque h, peekFirstArrayDequeVal_nonempty deque h]

theorem contents_head? (list : ArrayList) (hwf : list.WF) (h : 0 < list.size) :
    list.contents.head? = some (list.vals.getD 0 none) := by
  obtain ⟨w1, w2, _, _, _⟩ := hwf
  unfold ArrayList.contents
  rw [List.head?_eq_getElem?, List.getElem?_take, if_pos h, List.getD_eq_getElem?_getD,
    List.getElem?_eq_getElem (by omega)]
  rfl

theorem contents_length (list : ArrayList) (hwf : list.WF) :
    list.contents.length = list.size := by
  obtain ⟨w1, w2, _, _, _⟩ := hwf
  unfold ArrayList.contents
  rw [List.length_take]
  omega

/-! ## The queue array -/

theorem setQueue_same (queue : MessagePriorityQueue) (p : Priority) (deque : ArrayDeque) :
    (queue.setQueue p deque).msgQueues p = deque := by
  simp [MessagePriorityQueue.setQueue]

theorem setQueue_other (queue : MessagePriorityQueue) (p p1 : Priority) (deque : ArrayDeque)
    (h : p1 ≠ p) : (queue.setQueue p deque).msgQueues p1 = queue.msgQueues p1 := by
  simp [MessagePriorityQueue.setQueue, h]

theorem setQueue_self (queue : MessagePriorityQueue) (p : Priority) :
    queue.setQueue p (queue.msgQueues p) = queue := by
  cases queue with
  | mk qs m =>
    simp only [MessagePriorityQueue.setQueue]
    congr
    funext p1
    by_cases h : p1 = p
    · simp [h]
    · simp [h]

theorem setQueue_maxCapacity (queue : MessagePriorityQueue) (p : Priority)
    (deque : ArrayDeque) : (queue.setQueue p deque).maxCapacity = queue.maxCapacity := rfl

theorem dequeueLoop_skip (queue : MessagePriorityQueue) (p : Priority) (ps : List Priority)
    (h : (queue.msgQueues p).list.size = 0) :
    dequeueLoop (p :: ps) queue = dequeueLoop ps queue := by
  rw [dequeueLoop, dequeueArrayDequeVal_empty _ h]
  simp only [setQueue_self]

theorem dequeueLoop_hit (queue : MessagePriorityQueue) (p : Priority) (ps : List Priority)
    (h : 0 < (queue.msgQueues p).list.size) :
    dequeueLoop (p :: ps) queue =
      (some ((queue.msgQueues p).list.vals.getD 0 none),
        queue.setQueue p { list := (deleteArrayListValAt (queue.msgQueues p).list 0).2 }) := by
  rw [dequeueLoop, dequeueArrayDequeVal_nonempty _ h]

theorem peekLoop_skip (queue : MessagePriorityQueue) (p : Priority) (ps : List Priority)
    (h : (queue.msgQueues p).list.size = 0) :
    peekLoop (p :: ps) queue = peekLoop ps queue := by
  rw [peekLoop, peekFirstArrayDequeVal_empty _ h]

theorem peekLoop_hit (queue : MessagePriorityQueue) (p : Priority) (ps : List Priority)
    (h : 0 < (queue.msgQueues p).list.size) :
    peekLoop (p :: ps) queue = some ((queue.msgQueues p).list.vals.getD 0 none) := by
  rw [peekLoop, peekFirstArrayDequeVal_nonempty _ h]

theorem dequeueLoop_fst (ps : List Priority) (queue : MessagePriorityQueue) :
    (dequeueLoop ps queue).1 = peekLoop ps queue := by
  induction ps with
  | nil => rfl
  | cons p ps ih =>
    rcases Nat.eq_zero_or_pos (queue.msgQueues p).list.size with h | h
    · rw [dequeueLoop_skip queue p ps h, peekLoop_skip queue p ps h, ih]
    · rw [dequeueLoop_hit queue p ps h, peekLoop_hit queue p ps h]

/-! ## Dequeue and peek on the priority queue -/

theorem dequeueMessageMPQ_at (queue : MessagePriorityQueue) (p : Priority)
    (hne : 0 < (queue.msgQueues p).list.size)
    (hfirst : ∀ p1 : Priority, p1.toNat < p.toNat → (queue.msgQueues p1).list.size = 0) :
    dequeueMessageMPQ queue =
      (some ((queue.msgQueues p).list.vals.getD 0 none),
        queue.setQueue p { list := (deleteArrayListValAt (queue.msgQueues p).list 0).2 }) := by
  unfold dequeueMessageMPQ priorityScan
  cases p with
  | highest => rw [dequeueLoop_hit _ _ _ hne]
  | high =>
    rw [dequeueLoop_skip _ _ _ (hfirst .highest (by decide)), dequeueLoop_hit _ _ _ hne]
  | low =>
    rw [dequeueLoop_skip _ _ _ (hfirst .highest (by decide)),
      dequeueLoop_skip _ _ _ (hfirst .high (by decide)), dequeueLoop_hit _ _ _ hne]
  | lowest =>
    rw [dequeueLoop_skip _ _ _ (hfirst .highest (by decide)),
      dequeueLoop_skip _ _ _ (hfirst .high (by decide)),
      dequeueLoop_skip _ _ _ (hfirst .low (by decide)), dequeueLoop_hit _ _ _ hne]

theorem dequeueMessageMPQ_all_empty (queue : MessagePriorityQueue)
    (h : ∀ p : Priority, (queue.msgQueues p).list.size = 0) :
    dequeueMessageMPQ queue = (none, queue) := by
  unfold dequeueMessageMPQ priorityScan
  rw [dequeueLoop_skip _ _ _ (h .highest), dequeueLoop_skip _ _ _ (h .high),
    dequeueLoop_skip _ _ _ (h .low), dequeueLoop_skip _ _ _ (h .lowest)]
  rfl

theorem exists_first_nonempty (queue : MessagePriorityQueue)
    (h : ¬ ∀ p : Priority, (queue.msgQueues p).list.size = 0) :
    ∃ p : Priority, 0 < (queue.msgQueues p).list.size ∧
      ∀ p1 : Priority, p1.toNat < p.toNat → (queue.msgQueues p1).list.size = 0 := by
  by_cases h0 : (queue.msgQueues .highest).list.size = 0
  · by_cases h1 : (queue.msgQueues .high).list.size = 0
    · by_cases h2 : (queue.msgQueues .low).list.size = 0
      · by_cases h3 : (queue.msgQueues .lowest).list.size = 0
        · exact absurd (fun p => by cases p <;> assumption) h
        · refine ⟨.lowest, by omega, fun p1 hp => ?_⟩
          cases p1 <;> first | assumption | exact absurd hp (by decide)
      · refine ⟨.low, by omega, fun p1 hp => ?_⟩
        cases p1 <;> first | assumption | exact absurd hp (by decide)
    · refine ⟨.high, by omega, fun p1 hp => ?_⟩
      cases p1 <;> first | assumption | exact absurd hp (by decide)
  · refine ⟨.highest, by omega, fun p1 hp => ?_⟩
    cases p1 <;> exact absurd hp (by decide)

theorem MessagePriorityQueue.WF.at {queue : MessagePriorityQueue} (hwf : queue.WF)
    (p : Priority) : (queue.msgQueues p).list.WF := by
  obtain ⟨h0, h1, h2, h3⟩ := hwf
  cases p <;> assumption

theorem level_eq_nil_iff (queue : MessagePriorityQueue) (hwf : queue.WF) (p : Priority) :
    queue.level p = [] ↔ (queue.msgQueues p).list.size = 0 := by
  rw [← List.length_eq_zero]
  unfold MessagePriorityQueue.level
  rw [contents_length _ (hwf.at p)]

/-- C3: in every queue state `peekMessageMPQ` returns exactly what
`dequeueMessageMPQ` returns on that state, so it succeeds exactly when the
dequeue would and yields the same message. The peek only reads the queue (the
source performs no write, and the model gives it no output state), so the four
levels are as before. -/
theorem peekMessageMPQ_eq_dequeue (queue : MessagePriorityQueue) :
    peekMessageMPQ queue = (dequeueMessageMPQ queue).1 ∧
    ((peekMessageMPQ queue).isSome = true ↔ (dequeueMessageMPQ queue).1.isSome = true) := by
  have h : peekMessageMPQ queue = (dequeueMessageMPQ queue).1 :=
    (dequeueLoop_fst priorityScan queue).symm
  exact ⟨h, by rw [h]⟩

/-- C2: on a well-formed queue `dequeueMessageMPQ` fails iff all four levels
are empty, and a failing call returns the queue unchanged; when `p` is the
first non-empty level in the order highest, high, low, lowest, the call
succeeds with the oldest message of level `p`, level `p` loses exactly that
message (its size drops by one) and the deques of the other three levels are
unchanged. On a fresh queue the call fails and returns the fresh queue. -/
theorem dequeueMessageMPQ_spec (queue : MessagePriorityQueue) (hwf : queue.WF) :
    ((dequeueMessageMPQ queue).1 = none ↔ ∀ p : Priority, queue.level p = []) ∧
    ((dequeueMessageMPQ queue).1 = none → (dequeueMessageMPQ queue).2 = queue) ∧
    ((¬ ∀ p : Priority, queue.level p = []) → (dequeueMessageMPQ queue).1.isSome = true) ∧
    (∀ p : Priority, queue.level p ≠ [] →
      (∀ p1 : Priority, p1.toNat < p.toNat → queue.level p1 = []) →
      ∃ v rest, queue.level p = v :: rest ∧
        (dequeueMessageMPQ queue).1 = some v ∧
        (dequeueMessageMPQ queue).2.level p = rest ∧
        messageSizeForPriorityMPQ (dequeueMessageMPQ queue).2 p + 1 =
          messageSizeForPriorityMPQ queue p ∧
        ∀ p1 : Priority, p1 ≠ p →
          (dequeueMessageMPQ queue).2.msgQueues p1 = queue.msgQueues p1) ∧
    (∀ m : Nat, dequeueMessageMPQ (newMPQ m) = (none, newMPQ m)) := by
  have hnil := level_eq_nil_iff queue hwf
  have hsome : (¬ ∀ p : Priority, queue.level p = []) →
      (dequeueMessageMPQ queue).1.isSome = true := by
    intro hne
    have hne2 : ¬ ∀ p : Priority, (queue.msgQueues p).list.size = 0 :=
      fun h => hne (fun p => (hnil p).2 (h p))
    obtain ⟨p, hp, hfirst⟩ := exists_first_nonempty queue hne2
    rw [dequeueMessageMPQ_at queue p hp hfirst]
    rfl
  have hnone : (∀ p : Priority, queue.level p = []) →
      dequeueMessageMPQ queue = (none, queue) :=
    fun h => dequeueMessageMPQ_all_empty queue (fun p => (hnil p).1 (h p))
  refine ⟨⟨?_, fun h => by rw [hnone h]⟩, ?_, hsome, ?_,
    fun m => dequeueMessageMPQ_all_empty _ (fun _ => rfl)⟩
  · intro h
    by_contra hcon
    have := hsome hcon
    rw [h] at this
    exact absurd this (by decide)
  · intro h
    by_cases hall : ∀ p : Priority, queue.level p = []
    · rw [hnone hall]
    · have := hsome hall
      rw [h] at this
      exact absurd this (by decide)
  · intro p hne hfirst
    have hp : 0 < (queue.msgQueues p).list.size := by
      have : (queue.msgQueues p).list.size ≠ 0 := fun h => hne ((hnil p).2 h)
      omega
    have hfirst2 : ∀ p1 : Priority, p1.toNat < p.toNat →
        (queue.msgQueues p1).list.size = 0 := fun p1 h1 => (hnil p1).1 (hfirst p1 h1)
    rw [dequeueMessageMPQ_at queue p hp hfirst2]
    obtain ⟨_, d2, _, _, d5, _⟩ := deleteArrayListValAt_spec _ 0 (hwf.at p) hp
    have hhead := contents_head? _ (hwf.at p) hp
    cases hl : queue.level p with
    | nil => exact absurd hl hne
    | cons v rest =>
      have hl2 : (queue.msgQueues p).list.contents = v :: rest := hl
      refine ⟨v, rest, rfl, ?_, ?_, ?_, ?_⟩
      · rw [hl2] at hhead
        simp only [List.head?_cons, Option.some.injEq] at hhead
        simp only [hhead]
      · show ((queue.setQueue p _).msgQueues p).list.contents = rest
        rw [setQueue_same]
        show (deleteArrayListValAt (queue.msgQueues p).list 0).2.contents = rest
        rw [d5, hl2]
        rfl
      · show ((queue.setQueue p _).msgQueues p).list.size + 1 = (queue.msgQueues p).list.size
        rw [setQueue_same]
        show (deleteArrayListValAt (queue.msgQueues p).list 0).2.size + 1 = _
        rw [d2]
        omega
      · intro p1 hp1
        exact setQueue_other queue p p1 _ hp1

/-- Witness for C2 on `exampleQueue`, whose first non-empty level is `high`. -/
theorem dequeueMessageMPQ_spec_witness :
    exampleQueue.WF ∧ (dequeueMessageMPQ exampleQueue).1 = some (some "H0") ∧
    (((dequeueMessageMPQ exampleQueue).1 = none ↔
      ∀ p : Priority, exampleQueue.level p = []) ∧
    ((dequeueMessageMPQ exampleQueue).1 = none →
      (dequeueMessageMPQ exampleQueue).2 = exampleQueue) ∧
    ((¬ ∀ p : Priority, exampleQueue.level p = []) →
      (dequeueMessageMPQ exampleQueue).1.isSome = true) ∧
    (∀ p : Priority, exampleQueue.level p ≠ [] →
      (∀ p1 : Priority, p1.toNat < p.toNat → exampleQueue.level p1 = []) →
      ∃ v rest, exampleQueue.level p = v :: rest ∧
        (dequeueMessageMPQ exampleQueue).1 = some v ∧
        (dequeueMessageMPQ exampleQueue).2.level p = rest ∧
        messageSizeForPriorityMPQ (dequeueMessageMPQ exampleQueue).2 p + 1 =
          messageSizeForPriorityMPQ exampleQueue p ∧
        ∀ p1 : Priority, p1 ≠ p →
          (dequeueMessageMPQ exampleQueue).2.msgQueues p1 = exampleQueue.msgQueues p1) ∧
    (∀ m : Nat, dequeueMessageMPQ (newMPQ m) = (none, newMPQ m))) :=
  ⟨by decide, by decide, dequeueMessageMPQ_spec exampleQueue (by decide)⟩

/-! ## Appending at the tail -/

theorem addArrayListValAt_ok_ensure (r : Bool) (list : ArrayList) (index : Nat)
    (val : String) (hok : (addArrayListValAt r list index val).1 = true) :
    (ensureArrayCapacity r list).1 = true := by
  cases h : (ensureArrayCapacity r list).1
  · rw [addArrayListValAt_no_room r list index val h] at hok
    exact absurd hok (by simp)
  · rfl

theorem addLast_contents (r : Bool) (list : ArrayList) (val : String) (hwf : list.WF)
    (hok : (addArrayListValAt r list list.size val).1 = true) :
    (addArrayListValAt r list list.size val).2.contents = list.contents ++ [some val] ∧
    (addArrayListValAt r list list.size val).2.size = list.size + 1 := by
  have hens := addArrayListValAt_ok_ensure r list list.size val hok
  obtain ⟨_, a2, _, _, a5, _⟩ :=
    addArrayListValAt_spec r list list.size val hwf (Nat.le_refl _) hens
  have hlen := contents_length list hwf
  refine ⟨?_, a2⟩
  rw [a5, List.take_of_length_le (by omega), List.drop_of_length_le (by omega)]

/-! ## Enqueue on the priority queue -/

theorem enqueueMessageMPQ_eq (r : Bool) (queue : MessagePriorityQueue) (message : String)
    (p : Priority) :
    enqueueMessageMPQ r queue message p =
      ((addArrayListValAt r (queue.msgQueues p).list (queue.msgQueues p).list.size message).1,
        queue.setQueue p
          { list := (addArrayListValAt r (queue.msgQueues p).list
              (queue.msgQueues p).list.size message).2 }) := rfl

/-- C5: when the deque of level `p` is well-formed and
`enqueueMessageMPQ message p` succeeds, level `p` becomes its old contents
followed by `message`, `messageSizeForPriorityMPQ p` grows by exactly one, and
the deques of the other three levels (contents and sizes) are unchanged. -/
theorem enqueueMessageMPQ_appends (r : Bool) (queue : MessagePriorityQueue)
    (message : String) (p : Priority) (hwf : (queue.msgQueues p).list.WF)
    (hok : (enqueueMessageMPQ r queue message p).1 = true) :
    (enqueueMessageMPQ r queue message p).2.level p = queue.level p ++ [some message] ∧
    messageSizeForPriorityMPQ (enqueueMessageMPQ r queue message p).2 p =
      messageSizeForPriorityMPQ queue p + 1 ∧
    (∀ p1 : Priority, p1 ≠ p →
      (enqueueMessageMPQ r queue message p).2.msgQueues p1 = queue.msgQueues p1 ∧
      (enqueueMessageMPQ r queue message p).2.level p1 = queue.level p1 ∧
      messageSizeForPriorityMPQ (enqueueMessageMPQ r queue message p).2 p1 =
        messageSizeForPriorityMPQ queue p1) := by
  rw [enqueueMessageMPQ_eq] at hok ⊢
  simp only at hok
  obtain ⟨c1, c2⟩ := addLast_contents r (queue.msgQueues p).list message hwf hok
  refine ⟨?_, ?_, ?_⟩
  · show ((queue.setQueue p _).msgQueues p).list.contents = _
    rw [setQueue_same]
    show (addArrayListValAt r (queue.msgQueues p).list (queue.msgQueues p).list.size
      message).2.contents = (queue.msgQueues p).list.contents ++ [some message]
    exact c1
  · show ((queue.setQueue p _).msgQueues p).list.size = (queue.msgQueues p).list.size + 1
    rw [setQueue_same]
    exact c2
  · intro p1 hp1
    have h := setQueue_other queue p p1
      { list := (addArrayListValAt r (queue.msgQueues p).list
          (queue.msgQueues p).list.size message).2 } hp1
    refine ⟨h, ?_, ?_⟩
    · show ((queue.setQueue p _).msgQueues p1).list.contents = _
      rw [h]
      rfl
    · show ((queue.setQueue p _).msgQueues p1).list.size = _
      rw [h]
      rfl

/-- Witness for C5 on `exampleQueue`: enqueueing `"X"` at `lowest`. -/
theorem enqueueMessageMPQ_appends_witness :
    (exampleQueue.msgQueues .lowest).list.WF ∧
    (enqueueMessageMPQ true exampleQueue "X" .lowest).1 = true ∧
    ((enqueueMessageMPQ true exampleQueue "X" .lowest).2.level .lowest =
      exampleQueue.level .lowest ++ [some "X"] ∧
    messageSizeForPriorityMPQ (enqueueMessageMPQ true exampleQueue "X" .lowest).2 .lowest =
      messageSizeForPriorityMPQ exampleQueue .lowest + 1 ∧
    (∀ p1 : Priority, p1 ≠ .lowest →
      (enqueueMessageMPQ true exampleQueue "X" .lowest).2.msgQueues p1 =
        exampleQueue.msgQueues p1 ∧
      (enqueueMessageMPQ true exampleQueue "X" .lowest).2.level p1 = exampleQueue.level p1 ∧
      messageSizeForPriorityMPQ (enqueueMessageMPQ true exampleQueue "X" .lowest).2 p1 =
        messageSizeForPriorityMPQ exampleQueue p1)) :=
  ⟨by decide, by decide,
    enqueueMessageMPQ_appends true exampleQueue "X" .lowest (by decide) (by decide)⟩

/-! ## Emptiness of the priority queue -/

/-- C4, the code at the failing input: with one message at `high` and the
other three levels empty, `messageSizeMPQ` is 1 and not all levels are empty,
yet `isEmptyMPQ` returns true, because the sum of the four emptiness flags is
3 and converts to `true`. -/
theorem isEmptyMPQ_single_message :
    isEmptyMPQ exampleSingleQueue = true ∧ messageSizeMPQ exampleSingleQueue = 1 ∧
    exampleSingleQueue.level .high = [some "0.0"] ∧
    isEmptyForPriorityMPQ exampleSingleQueue .high = false := by
  decide

/-! ## Reachable queues -/

theorem newMPQ_WF (m : Nat) (hm : m ≤ SIZE_MAX) : (newMPQ m).WF :=
  ⟨newArrayList_WF m hm, newArrayList_WF m hm, newArrayList_WF m hm, newArrayList_WF m hm⟩

theorem MessagePriorityQueue.WF.of_forall {queue : MessagePriorityQueue}
    (h : ∀ p : Priority, (queue.msgQueues p).list.WF) : queue.WF :=
  ⟨h .highest, h .high, h .low, h .lowest⟩

theorem setQueue_inv (m : Nat) (queue : MessagePriorityQueue) (p : Priority)
    (deque : ArrayDeque)
    (h : ∀ p1 : Priority, (queue.msgQueues p1).list.WF ∧
      (queue.msgQueues p1).list.maxCapacity = m)
    (hd : deque.list.WF ∧ deque.list.maxCapacity = m) :
    ∀ p1 : Priority, ((queue.setQueue p deque).msgQueues p1).list.WF ∧
      ((queue.setQueue p deque).msgQueues p1).list.maxCapacity = m := by
  intro p1
  by_cases hp : p1 = p
  · subst hp
    rw [setQueue_same]
    exact hd
  · rw [setQueue_other _ _ _ _ hp]
    exact h p1

theorem dequeueLoop_inv (m : Nat) (ps : List Priority) (queue : MessagePriorityQueue)
    (h : ∀ p1 : Priority, (queue.msgQueues p1).list.WF ∧
      (queue.msgQueues p1).list.maxCapacity = m) :
    ∀ p1 : Priority, ((dequeueLoop ps queue).2.msgQueues p1).list.WF ∧
      ((dequeueLoop ps queue).2.msgQueues p1).list.maxCapacity = m := by
  induction ps with
  | nil => exact h
  | cons p ps ih =>
    rcases Nat.eq_zero_or_pos (queue.msgQueues p).list.size with h0 | h0
    · rw [dequeueLoop_skip queue p ps h0]
      exact ih
    · rw [dequeueLoop_hit queue p ps h0]
      have hd := deleteArrayListValAt_WF (queue.msgQueues p).list 0 (h p).1
      exact setQueue_inv m queue p _ h ⟨hd.1, hd.2.trans (h p).2⟩

theorem applyMPQOp_inv (m : Nat) (op : MPQOp) (queue : MessagePriorityQueue)
    (h : ∀ p1 : Priority, (queue.msgQueues p1).list.WF ∧
      (queue.msgQueues p1).list.maxCapacity = m) :
    ∀ p1 : Priority, ((applyMPQOp op queue).2.msgQueues p1).list.WF ∧
      ((applyMPQOp op queue).2.msgQueues p1).list.maxCapacity = m := by
  cases op with
  | enqueue r message p =>
    show ∀ p1 : Priority, ((enqueueMessageMPQ r queue message p).2.msgQueues p1).list.WF ∧ _
    rw [enqueueMessageMPQ_eq]
    have ha := addArrayListValAt_WF r (queue.msgQueues p).list
      (queue.msgQueues p).list.size message (h p).1
    exact setQueue_inv m queue p _ h ⟨ha.1, ha.2.trans (h p).2⟩
  | dequeue => exact dequeueLoop_inv m priorityScan queue h
  | peek => exact h

theorem runMPQOps_inv (m : Nat) (ops : List MPQOp) (queue : MessagePriorityQueue)
    (h : ∀ p1 : Priority, (queue.msgQueues p1).list.WF ∧
      (queue.msgQueues p1).list.maxCapacity = m) :
    ∀ p1 : Priority, ((runMPQOps ops queue).msgQueues p1).list.WF ∧
      ((runMPQOps ops queue).msgQueues p1).list.maxCapacity = m := by
  induction ops generalizing queue with
  | nil => exact h
  | cons op ops ih => exact ih _ (applyMPQOp_inv m op queue h)

theorem MessagePriorityQueue.Reachable.inv {m : Nat} {queue : MessagePriorityQueue}
    (hr : queue.Reachable m) (hm : m ≤ SIZE_MAX) :
    ∀ p1 : Priority, (queue.msgQueues p1).list.WF ∧
      (queue.msgQueues p1).list.maxCapacity = m := by
  obtain ⟨ops, rfl⟩ := hr
  exact runMPQOps_inv m ops _ (fun _ => ⟨newArrayList_WF m hm, rfl⟩)

/-- C6: on a queue reachable from `newMPQ m` (with `m` a `size_t` value) and
with reallocation succeeding, `enqueueMessageMPQ message p` fails iff level `p`
holds `m` messages; the sizes of the other three levels do not enter. -/
theorem enqueueMessageMPQ_fails_iff (m : Nat) (queue : MessagePriorityQueue)
    (message : String) (p : Priority) (hm : m ≤ SIZE_MAX) (hr : queue.Reachable m) :
    (enqueueMessageMPQ true queue message p).1 = false ↔
      messageSizeForPriorityMPQ queue p = m := by
  obtain ⟨hwf, hmax⟩ := hr.inv hm p
  rw [enqueueMessageMPQ_eq]
  show (addArrayListValAt true (queue.msgQueues p).list (queue.msgQueues p).list.size
    message).1 = false ↔ (queue.msgQueues p).list.size = m
  rw [addArrayListValAt_fail_iff_wf _ _ _ hwf, hmax]
  constructor
  · rintro (h | h)
    · omega
    · exact h
  · exact fun h => Or.inr h

/-- Witness for C6 on `exampleFullLevelQueue` (maximum capacity 1, one message
at `high`): an enqueue at `high` fails, one at `low` succeeds. -/
theorem enqueueMessageMPQ_fails_iff_witness :
    1 ≤ SIZE_MAX ∧ exampleFullLevelQueue.Reachable 1 ∧
    (enqueueMessageMPQ true exampleFullLevelQueue "n" .high).1 = false ∧
    (enqueueMessageMPQ true exampleFullLevelQueue "n" .low).1 = true ∧
    ((enqueueMessageMPQ true exampleFullLevelQueue "n" .high).1 = false ↔
      messageSizeForPriorityMPQ exampleFullLevelQueue .high = 1) :=
  ⟨by decide, ⟨_, rfl⟩, by decide, by decide,
    enqueueMessageMPQ_fails_iff 1 exampleFullLevelQueue "n" .high (by decide) ⟨_, rfl⟩⟩

/-! ## Counting messages -/

theorem levelSizeSum_setQueue (queue : MessagePriorityQueue) (p : Priority)
    (deque : ArrayDeque) :
    levelSizeSum (queue.setQueue p deque) + (queue.msgQueues p).list.size =
      levelSizeSum queue + deque.list.size := by
  unfold levelSizeSum messageSizeForPriorityMPQ arrayDequeSize arrayListSize
  cases p
  · rw [setQueue_same, setQueue_other _ _ _ _ (by decide : Priority.high ≠ .highest),
      setQueue_other _ _ _ _ (by decide : Priority.low ≠ .highest),
      setQueue_other _ _ _ _ (by decide : Priority.lowest ≠ .highest)]
    omega
  · rw [setQueue_same, setQueue_other _ _ _ _ (by decide : Priority.highest ≠ .high),
      setQueue_other _ _ _ _ (by decide : Priority.low ≠ .high),
      setQueue_other _ _ _ _ (by decide : Priority.lowest ≠ .high)]
    omega
  · rw [setQueue_same, setQueue_other _ _ _ _ (by decide : Priority.highest ≠ .low),
      setQueue_other _ _ _ _ (by decide : Priority.high ≠ .low),
      setQueue_other _ _ _ _ (by decide : Priority.lowest ≠ .low)]
    omega
  · rw [setQueue_same, setQueue_other _ _ _ _ (by decide : Priority.highest ≠ .lowest),
      setQueue_other _ _ _ _ (by decide : Priority.high ≠ .lowest),
      setQueue_other _ _ _ _ (by decide : Priority.low ≠ .lowest)]
    omega

theorem addLast_size (r : Bool) (list : ArrayList) (val : String) (hwf : list.WF) :
    (addArrayListValAt r list list.size val).2.size =
      list.size + (if (addArrayListValAt r list list.size val).1 = true then 1 else 0) := by
  cases hens : (ensureArrayCapacity r list).1
  · rw [addArrayListValAt_no_room r list _ val hens]
    simp
  · obtain ⟨a1, a2, _⟩ := addArrayListValAt_spec r list list.size val hwf (Nat.le_refl _) hens
    rw [a1, a2]
    simp

theorem enqueueMessageMPQ_sum (r : Bool) (queue : MessagePriorityQueue) (message : String)
    (p : Priority) (hwf : (queue.msgQueues p).list.WF) :
    levelSizeSum (enqueueMessageMPQ r queue message p).2 =
      levelSizeSum queue + (if (enqueueMessageMPQ r queue message p).1 = true then 1 else 0) := by
  rw [enqueueMessageMPQ_eq]
  have h1 := levelSizeSum_setQueue queue p
    { list := (addArrayListValAt r (queue.msgQueues p).list
        (queue.msgQueues p).list.size message).2 }
  have h2 := addLast_size r (queue.msgQueues p).list message hwf
  simp only at h1 ⊢
  omega

theorem enqueueMessageMPQ_fail_unchanged (r : Bool) (queue : MessagePriorityQueue)
    (message : String) (p : Priority)
    (h : (enqueueMessageMPQ r queue message p).1 = false) :
    (enqueueMessageMPQ r queue message p).2 = queue := by
  rw [enqueueMessageMPQ_eq] at h ⊢
  simp only at h ⊢
  have hens : (ensureArrayCapacity r (queue.msgQueues p).list).1 = false := by
    cases hc : (ensureArrayCapacity r (queue.msgQueues p).list).1
    · rfl
    · have e : ensureArrayCapacity r (queue.msgQueues p).list =
          (true, (ensureArrayCapacity r (queue.msgQueues p).list).2) := Prod.ext hc rfl
      unfold addArrayListValAt at h
      rw [if_neg (by omega), e] at h
      simp at h
  rw [addArrayListValAt_no_room r _ _ message hens]
  exact setQueue_self queue p

theorem dequeueMessageMPQ_sum (queue : MessagePriorityQueue) (hwf : queue.WF) :
    levelSizeSum (dequeueMessageMPQ queue).2 +
      (if (dequeueMessageMPQ queue).1.isSome = true then 1 else 0) = levelSizeSum queue := by
  by_cases hall : ∀ p : Priority, (queue.msgQueues p).list.size = 0
  · rw [dequeueMessageMPQ_all_empty queue hall]
    simp
  · obtain ⟨p, hp, hfirst⟩ := exists_first_nonempty queue hall
    rw [dequeueMessageMPQ_at queue p hp hfirst]
    have h1 := levelSizeSum_setQueue queue p
      { list := (deleteArrayListValAt (queue.msgQueues p).list 0).2 }
    obtain ⟨_, d2, _⟩ := deleteArrayListValAt_spec _ 0 (hwf.at p) hp
    simp only [Option.isSome_some, if_true] at h1 ⊢
    omega

theorem applyMPQOp_sum (m : Nat) (op : MPQOp) (ops : List MPQOp)
    (queue : MessagePriorityQueue)
    (h : ∀ p1 : Priority, (queue.msgQueues p1).list.WF ∧
      (queue.msgQueues p1).list.maxCapacity = m) :
    levelSizeSum (applyMPQOp op queue).2 + countDequeued (op :: ops) queue +
        countEnqueued ops (applyMPQOp op queue).2 =
      levelSizeSum queue + countEnqueued (op :: ops) queue +
        countDequeued ops (applyMPQOp op queue).2 := by
  cases op with
  | enqueue r message p =>
    have h1 := enqueueMessageMPQ_sum r queue message p (h p).1
    simp only [countDequeued, countEnqueued, applyMPQOp] at h1 ⊢
    omega
  | dequeue =>
    have h1 := dequeueMessageMPQ_sum queue (MessagePriorityQueue.WF.of_forall (fun p => (h p).1))
    simp only [countDequeued, countEnqueued, applyMPQOp] at h1 ⊢
    omega
  | peek =>
    simp only [countDequeued, countEnqueued, applyMPQOp]
    omega

theorem runMPQOps_sum (m : Nat) (ops : List MPQOp) (queue : MessagePriorityQueue)
    (h : ∀ p1 : Priority, (queue.msgQueues p1).list.WF ∧
      (queue.msgQueues p1).list.maxCapacity = m) :
    levelSizeSum (runMPQOps ops queue) + countDequeued ops queue =
      levelSizeSum queue + countEnqueued ops queue := by
  induction ops generalizing queue with
  | nil => rfl
  | cons op ops ih =>
    have h1 := applyMPQOp_sum m op ops queue h
    have h2 := ih (applyMPQOp op queue).2 (applyMPQOp_inv m op queue h)
    have h3 : runMPQOps (op :: ops) queue = runMPQOps ops (applyMPQOp op queue).2 := rfl
    rw [h3]
    omega

/-- C7: for the queue reached from `newMPQ m` by any sequence `ops` of
enqueue, dequeue and peek calls, the four level sizes add up to the number of
successful enqueues minus the number of successful dequeues; `messageSizeMPQ`
is that sum reduced to `size_t`, hence equal to it whenever the message count
fits in `size_t`; and a failed enqueue, a failed dequeue and a peek return the
queue unchanged. -/
theorem messageSizeMPQ_counts (m : Nat) (ops : List MPQOp) (hm : m ≤ SIZE_MAX) :
    levelSizeSum (runMPQOps ops (newMPQ m)) =
      countEnqueued ops (newMPQ m) - countDequeued ops (newMPQ m) ∧
    countDequeued ops (newMPQ m) ≤ countEnqueued ops (newMPQ m) ∧
    messageSizeMPQ (runMPQOps ops (newMPQ m)) =
      levelSizeSum (runMPQOps ops (newMPQ m)) % 2 ^ 64 ∧
    (levelSizeSum (runMPQOps ops (newMPQ m)) ≤ SIZE_MAX →
      messageSizeMPQ (runMPQOps ops (newMPQ m)) =
        messageSizeForPriorityMPQ (runMPQOps ops (newMPQ m)) .highest +
        messageSizeForPriorityMPQ (runMPQOps ops (newMPQ m)) .high +
        messageSizeForPriorityMPQ (runMPQOps ops (newMPQ m)) .low +
        messageSizeForPriorityMPQ (runMPQOps ops (newMPQ m)) .lowest ∧
      messageSizeMPQ (runMPQOps ops (newMPQ m)) =
        countEnqueued ops (newMPQ m) - countDequeued ops (newMPQ m)) ∧
    (∀ op : MPQOp, (applyMPQOp op (runMPQOps ops (newMPQ m))).1 = false ∨ op = .peek →
      (applyMPQOp op (runMPQOps ops (newMPQ m))).2 = runMPQOps ops (newMPQ m)) := by
  have hinv : ∀ p1 : Priority, ((newMPQ m).msgQueues p1).list.WF ∧
      ((newMPQ m).msgQueues p1).list.maxCapacity = m :=
    fun _ => ⟨newArrayList_WF m hm, rfl⟩
  have hsum := runMPQOps_sum m ops (newMPQ m) hinv
  have h0 : levelSizeSum (newMPQ m) = 0 := rfl
  have hinv2 := runMPQOps_inv m ops (newMPQ m) hinv
  generalize runMPQOps ops (newMPQ m) = q at hsum hinv2 ⊢
  have hmod : messageSizeMPQ q = levelSizeSum q % 2 ^ 64 := by
    unfold messageSizeMPQ levelSizeSum messageSizeForPriorityMPQ addSizeT
    simp only [Nat.add_mod, Nat.mod_mod]
  refine ⟨by omega, by omega, hmod, ?_, ?_⟩
  · intro hfit
    have hlt : levelSizeSum q < 2 ^ 64 := by
      unfold SIZE_MAX at hfit
      omega
    have e : messageSizeMPQ q = levelSizeSum q := by
      rw [hmod]
      exact Nat.mod_eq_of_lt hlt
    exact ⟨e, by rw [e]; omega⟩
  · intro op hop
    cases op with
    | enqueue r message p =>
      rcases hop with hf | hf
      · exact enqueueMessageMPQ_fail_unchanged r q message p hf
      · exact absurd hf (by simp)
    | dequeue =>
      rcases hop with hf | hf
      · have hwf : q.WF := MessagePriorityQueue.WF.of_forall (fun p => (hinv2 p).1)
        have hnil := level_eq_nil_iff q hwf
        show (dequeueMessageMPQ q).2 = q
        by_cases hall : ∀ p : Priority, (q.msgQueues p).list.size = 0
        · rw [dequeueMessageMPQ_all_empty q hall]
        · obtain ⟨p, hp, hfirst⟩ := exists_first_nonempty q hall
          have hf2 : (dequeueMessageMPQ q).1.isSome = false := hf
          rw [dequeueMessageMPQ_at q p hp hfirst] at hf2
          exact absurd hf2 (by simp)
      · exact absurd hf (by simp)
    | peek => rfl

/-- Witness for C7 on the run of `testMessagePriorityQueue_single`: enqueue at
`high`, peek, dequeue, and a second dequeue that fails. -/
theorem messageSizeMPQ_counts_witness :
    SIZE_MAX ≤ SIZE_MAX ∧
    countEnqueued [.enqueue true "0.0" .high, .peek, .dequeue, .dequeue] (newMPQ SIZE_MAX)
      = 1 ∧
    countDequeued [.enqueue true "0.0" .high, .peek, .dequeue, .dequeue] (newMPQ SIZE_MAX)
      = 1 ∧
    messageSizeMPQ
      (runMPQOps [.enqueue true "0.0" .high, .peek, .dequeue, .dequeue] (newMPQ SIZE_MAX))
      = 0 ∧
    levelSizeSum
      (runMPQOps [.enqueue true "0.0" .high, .peek, .dequeue, .dequeue] (newMPQ SIZE_MAX))
      = 1 - 1 :=
  ⟨by decide, by decide, by decide, by decide,
    (messageSizeMPQ_counts SIZE_MAX [.enqueue true "0.0" .high, .peek, .dequeue, .dequeue]
      (Nat.le_refl _)).1⟩

/-! ## Priority order is the stable sort -/

theorem orderedInsert_append_lt (a : String × Priority) (xs ys : List (String × Priority))
    (h : ∀ x ∈ xs, ¬ priorityLE a x) :
    List.orderedInsert priorityLE a (xs ++ ys) = xs ++ List.orderedInsert priorityLE a ys := by
  induction xs with
  | nil => rfl
  | cons x xs ih =>
    have hx : ¬ priorityLE a x := h x (List.mem_cons_self _ _)
    rw [List.cons_append, List.orderedInsert, if_neg hx,
      ih (fun y hy => h y (List.mem_cons_of_mem _ hy))]
    rfl

theorem orderedInsert_all_ge (a : String × Priority) (ys : List (String × Priority))
    (h : ∀ y ∈ ys, priorityLE a y) :
    List.orderedInsert priorityLE a ys = a :: ys := by
  cases ys with
  | nil => rfl
  | cons y ys =>
    rw [List.orderedInsert, if_pos (h y (List.mem_cons_self _ _))]

theorem mem_pairsOf {es : List (String × Priority)} {p : Priority} {x : String × Priority}
    (h : x ∈ pairsOf es p) : x.2 = p := by
  unfold pairsOf at h
  rw [List.mem_filter] at h
  exact of_decide_eq_true h.2

theorem pairsOf_cons_same (a : String × Priority) (es : List (String × Priority)) :
    pairsOf (a :: es) a.2 = a :: pairsOf es a.2 := by
  simp [pairsOf]

theorem pairsOf_cons_other (a : String × Priority) (es : List (String × Priority))
    (p : Priority) (h : a.2 ≠ p) : pairsOf (a :: es) p = pairsOf es p := by
  simp [pairsOf, h]

theorem insertionSort_eq_groups (es : List (String × Priority)) :
    stableSortByPriority es =
      pairsOf es .highest ++ (pairsOf es .high ++ (pairsOf es .low ++ pairsOf es .lowest)) := by
  unfold stableSortByPriority
  induction es with
  | nil => rfl
  | cons a es ih =>
    rw [List.insertionSort, ih]
    have hle : ∀ (p : Priority) (k : Nat), k ≤ p.toNat →
        ∀ x ∈ pairsOf es p, k ≤ x.2.toNat := by
      intro p k hk x hx
      rw [mem_pairsOf hx]
      exact hk
    have hgt : ∀ (p : Priority) (k : Nat), p.toNat < k →
        ∀ x ∈ pairsOf es p, ¬ k ≤ x.2.toNat := by
      intro p k hk x hx
      rw [mem_pairsOf hx]
      omega
    obtain ⟨msg, pa⟩ := a
    cases pa
    · rw [orderedInsert_all_ge]
      · rw [pairsOf_cons_same (msg, .highest), pairsOf_cons_other _ _ .high (by simp),
          pairsOf_cons_other _ _ .low (by simp), pairsOf_cons_other _ _ .lowest (by simp)]
        rfl
      · intro y hy
        exact Nat.zero_le _
    · rw [orderedInsert_append_lt _ _ _ (hgt .highest 1 (by decide)), orderedInsert_all_ge]
      · rw [pairsOf_cons_same (msg, .high), pairsOf_cons_other _ _ .highest (by simp),
          pairsOf_cons_other _ _ .low (by simp), pairsOf_cons_other _ _ .lowest (by simp)]
        rfl
      · intro y hy
        simp only [List.mem_append] at hy
        rcases hy with hy | hy | hy
        · exact hle .high 1 (by decide) y hy
        · exact hle .low 1 (by decide) y hy
        · exact hle .lowest 1 (by decide) y hy
    · rw [orderedInsert_append_lt _ _ _ (hgt .highest 2 (by decide)),
        orderedInsert_append_lt _ _ _ (hgt .high 2 (by decide)), orderedInsert_all_ge]
      · rw [pairsOf_cons_same (msg, .low), pairsOf_cons_other _ _ .highest (by simp),
          pairsOf_cons_other _ _ .high (by simp), pairsOf_cons_other _ _ .lowest (by simp)]
        rfl
      · intro y hy
        simp only [List.mem_append] at hy
        rcases hy with hy | hy
        · exact hle .low 2 (by decide) y hy
        · exact hle .lowest 2 (by decide) y hy
    · rw [orderedInsert_append_lt _ _ _ (hgt .highest 3 (by decide)),
        orderedInsert_append_lt _ _ _ (hgt .high 3 (by decide)),
        orderedInsert_append_lt _ _ _ (hgt .low 3 (by decide)), orderedInsert_all_ge]
      · rw [pairsOf_cons_same (msg, .lowest), pairsOf_cons_other _ _ .highest (by simp),
          pairsOf_cons_other _ _ .high (by simp), pairsOf_cons_other _ _ .low (by simp)]
      · intro y hy
        exact hle .lowest 3 (by decide) y hy

theorem priorityOrder_eq_sort (es : List (String × Priority)) :
    priorityOrder es = (stableSortByPriority es).map (fun e => e.1) := by
  rw [insertionSort_eq_groups]
  simp only [List.map_append, priorityOrder, messagesOf, pairsOf, List.append_assoc]

/-! ## Enqueue everything, then dequeue everything -/

theorem enqueueMessageMPQ_level (r : Bool) (queue : MessagePriorityQueue)
    (message : String) (p : Priority) (hwf : (queue.msgQueues p).list.WF)
    (hok : (enqueueMessageMPQ r queue message p).1 = true) (p1 : Priority) :
    (enqueueMessageMPQ r queue message p).2.level p1 =
      queue.level p1 ++ (if p = p1 then [some message] else []) := by
  rw [enqueueMessageMPQ_eq] at hok ⊢
  simp only at hok
  obtain ⟨c1, _⟩ := addLast_contents r (queue.msgQueues p).list message hwf hok
  by_cases hp : p = p1
  · subst hp
    rw [if_pos rfl]
    show ((queue.setQueue p _).msgQueues p).list.contents = _
    rw [setQueue_same]
    exact c1
  · rw [if_neg hp, List.append_nil]
    show ((queue.setQueue p _).msgQueues p1).list.contents = _
    rw [setQueue_other _ _ _ _ (fun h => hp h.symm)]
    rfl

theorem enqueueAllMPQ_levels (m : Nat) (es : List (Bool × String × Priority))
    (queue queue1 : MessagePriorityQueue)
    (h : ∀ p1 : Priority, (queue.msgQueues p1).list.WF ∧
      (queue.msgQueues p1).list.maxCapacity = m)
    (henq : enqueueAllMPQ es queue = some queue1) :
    (∀ p1 : Priority, (queue1.msgQueues p1).list.WF ∧
      (queue1.msgQueues p1).list.maxCapacity = m) ∧
    ∀ p1 : Priority, queue1.level p1 =
      queue.level p1 ++ (messagesOf (es.map (fun e => e.2)) p1).map some := by
  induction es generalizing queue with
  | nil =>
    simp only [enqueueAllMPQ, Option.some.injEq] at henq
    subst henq
    exact ⟨h, fun p1 => by simp [messagesOf]⟩
  | cons e es ih =>
    obtain ⟨r, message, p⟩ := e
    rw [enqueueAllMPQ] at henq
    cases hres : (enqueueMessageMPQ r queue message p).1
    · have e1 : enqueueMessageMPQ r queue message p =
          (false, (enqueueMessageMPQ r queue message p).2) := Prod.ext hres rfl
      rw [e1] at henq
      exact absurd henq (by simp)
    · have e1 : enqueueMessageMPQ r queue message p =
          (true, (enqueueMessageMPQ r queue message p).2) := Prod.ext hres rfl
      rw [e1] at henq
      have hinv := applyMPQOp_inv m (.enqueue r message p) queue h
      obtain ⟨i1, i2⟩ := ih (enqueueMessageMPQ r queue message p).2 hinv henq
      refine ⟨i1, fun p1 => ?_⟩
      rw [i2 p1, enqueueMessageMPQ_level r queue message p (h p).1 hres p1]
      by_cases hp : p = p1
      · subst hp
        simp [messagesOf]
      · simp [messagesOf, hp]

theorem dequeueMessageMPQ_first (queue : MessagePriorityQueue) (hwf : queue.WF)
    (p : Priority) (hp : 0 < (queue.msgQueues p).list.size)
    (hfirst : ∀ p1 : Priority, p1.toNat < p.toNat → (queue.msgQueues p1).list.size = 0) :
    ∃ v rest, queue.level p = v :: rest ∧
      (dequeueMessageMPQ queue).1 = some v ∧
      (dequeueMessageMPQ queue).2.level p = rest ∧
      ∀ p1 : Priority, p1 ≠ p →
        (dequeueMessageMPQ queue).2.msgQueues p1 = queue.msgQueues p1 := by
  rw [dequeueMessageMPQ_at queue p hp hfirst]
  obtain ⟨_, _, _, _, d5, _⟩ := deleteArrayListValAt_spec _ 0 (hwf.at p) hp
  have hhead := contents_head? _ (hwf.at p) hp
  cases hl : queue.level p with
  | nil =>
    have := (level_eq_nil_iff queue hwf p).1 hl
    omega
  | cons v rest =>
    have hl2 : (queue.msgQueues p).list.contents = v :: rest := hl
    refine ⟨v, rest, rfl, ?_, ?_, ?_⟩
    · rw [hl2] at hhead
      simp only [List.head?_cons, Option.some.injEq] at hhead
      simp only [hhead]
    · show ((queue.setQueue p _).msgQueues p).list.contents = rest
      rw [setQueue_same]
      show (deleteArrayListValAt (queue.msgQueues p).list 0).2.contents = rest
      rw [d5, hl2]
      rfl
    · intro p1 hp1
      exact setQueue_other queue p p1 _ hp1

theorem sizes_zero_of_sum (queue : MessagePriorityQueue) (h : levelSizeSum queue = 0)
    (p : Priority) : (queue.msgQueues p).list.size = 0 := by
  unfold levelSizeSum messageSizeForPriorityMPQ arrayDequeSize arrayListSize at h
  cases p <;> omega

theorem dequeueAllMPQ_levels (m : Nat) (fuel : Nat) (queue : MessagePriorityQueue)
    (h : ∀ p1 : Priority, (queue.msgQueues p1).list.WF ∧
      (queue.msgQueues p1).list.maxCapacity = m)
    (hfuel : levelSizeSum queue ≤ fuel) :
    (dequeueAllMPQ fuel queue).1 =
      queue.level .highest ++ (queue.level .high ++ (queue.level .low ++
        queue.level .lowest)) ∧
    (dequeueMessageMPQ (dequeueAllMPQ fuel queue).2).1 = none ∧
    levelSizeSum (dequeueAllMPQ fuel queue).2 = 0 := by
  induction fuel generalizing queue with
  | zero =>
    have hwf : queue.WF := MessagePriorityQueue.WF.of_forall (fun p => (h p).1)
    have hz := sizes_zero_of_sum queue (by omega)
    have hnil : ∀ p, queue.level p = [] := fun p => (level_eq_nil_iff queue hwf p).2 (hz p)
    rw [dequeueAllMPQ]
    simp only [hnil, List.append_nil]
    rw [dequeueMessageMPQ_all_empty queue hz]
    exact ⟨trivial, rfl, by omega⟩
  | succ fuel ih =>
    have hwf : queue.WF := MessagePriorityQueue.WF.of_forall (fun p => (h p).1)
    by_cases hall : ∀ p : Priority, (queue.msgQueues p).list.size = 0
    · have hnil : ∀ p, queue.level p = [] :=
        fun p => (level_eq_nil_iff queue hwf p).2 (hall p)
      have hs : levelSizeSum queue = 0 := by
        unfold levelSizeSum messageSizeForPriorityMPQ arrayDequeSize arrayListSize
        rw [hall .highest, hall .high, hall .low, hall .lowest]
      rw [dequeueAllMPQ, dequeueMessageMPQ_all_empty queue hall]
      simp only [hnil, List.append_nil]
      rw [dequeueMessageMPQ_all_empty queue hall]
      exact ⟨trivial, rfl, hs⟩
    · obtain ⟨p, hp, hfirst⟩ := exists_first_nonempty queue hall
      obtain ⟨v, rest, hl, hres, hlev, hoth⟩ := dequeueMessageMPQ_first queue hwf p hp hfirst
      have hsum := dequeueMessageMPQ_sum queue hwf
      rw [hres] at hsum
      simp only [Option.isSome_some, if_true] at hsum
      have hinv := applyMPQOp_inv m .dequeue queue h
      have e : dequeueMessageMPQ queue = (some v, (dequeueMessageMPQ queue).2) :=
        Prod.ext hres rfl
      have hinv2 : ∀ p1 : Priority, ((dequeueMessageMPQ queue).2.msgQueues p1).list.WF ∧
          ((dequeueMessageMPQ queue).2.msgQueues p1).list.maxCapacity = m := hinv
      obtain ⟨i1, i2, i3⟩ := ih (dequeueMessageMPQ queue).2 hinv2 (by omega)
      have hfirstnil : ∀ p1 : Priority, p1.toNat < p.toNat → queue.level p1 = [] :=
        fun p1 h1 => (level_eq_nil_iff queue hwf p1).2 (hfirst p1 h1)
      have hothl : ∀ p1 : Priority, p1 ≠ p →
          (dequeueMessageMPQ queue).2.level p1 = queue.level p1 := by
        intro p1 h1
        unfold MessagePriorityQueue.level
        rw [hoth p1 h1]
      rw [dequeueAllMPQ, e]
      simp only
      refine ⟨?_, i2, i3⟩
      rw [i1]
      cases p
      · rw [hlev, hothl .high (by decide), hothl .low (by decide),
          hothl .lowest (by decide), hl]
        rfl
      · rw [hlev, hothl .highest (by decide), hothl .low (by decide),
          hothl .lowest (by decide), hl, hfirstnil .highest (by decide)]
        rfl
      · rw [hlev, hothl .highest (by decide), hothl .high (by decide),
          hothl .lowest (by decide), hl, hfirstnil .highest (by decide),
          hfirstnil .high (by decide)]
        rfl
      · rw [hlev, hothl .highest (by decide), hothl .high (by decide),
          hothl .low (by decide), hl, hfirstnil .highest (by decide),
          hfirstnil .high (by decide), hfirstnil .low (by decide)]
        rfl

theorem messagesOf_length_sum (es : List (String × Priority)) :
    (messagesOf es .highest).length + (messagesOf es .high).length +
      (messagesOf es .low).length + (messagesOf es .lowest).length = es.length := by
  induction es with
  | nil => rfl
  | cons e es ih =>
    obtain ⟨msg, p⟩ := e
    cases p <;> simp [messagesOf] at ih ⊢ <;> omega

/-- C1: when every `enqueueMessageMPQ` of a sequence of (message, priority)
pairs succeeds on a fresh queue, repeating `dequeueMessageMPQ` until it fails
(any fuel of at least the number of messages is enough) returns exactly the
enqueued messages, all `highest` first, then `high`, `low`, `lowest`, each
group in enqueue order; this order is the stable sort of the input by priority;
and the next dequeue on the queue that is left fails. -/
theorem dequeueAllMPQ_stable_sort (m : Nat) (es : List (Bool × String × Priority))
    (queue : MessagePriorityQueue) (fuel : Nat) (hm : m ≤ SIZE_MAX)
    (henq : enqueueAllMPQ es (newMPQ m) = some queue) (hfuel : es.length ≤ fuel) :
    (dequeueAllMPQ fuel queue).1 =
      (priorityOrder (es.map (fun e => e.2))).map some ∧
    (dequeueAllMPQ fuel queue).1 =
      ((stableSortByPriority (es.map (fun e => e.2))).map (fun e => e.1)).map some ∧
    (dequeueMessageMPQ (dequeueAllMPQ fuel queue).2).1 = none := by
  have hinv : ∀ p1 : Priority, ((newMPQ m).msgQueues p1).list.WF ∧
      ((newMPQ m).msgQueues p1).list.maxCapacity = m :=
    fun _ => ⟨newArrayList_WF m hm, rfl⟩
  obtain ⟨hinv1, hlev⟩ := enqueueAllMPQ_levels m es (newMPQ m) queue hinv henq
  have hfresh : ∀ p1 : Priority, (newMPQ m).level p1 = [] := fun _ => rfl
  have hlev2 : ∀ p1 : Priority,
      queue.level p1 = (messagesOf (es.map (fun e => e.2)) p1).map some := by
    intro p1
    rw [hlev p1, hfresh p1, List.nil_append]
  have hsize : ∀ p1 : Priority, (queue.msgQueues p1).list.size =
      (messagesOf (es.map (fun e => e.2)) p1).length := by
    intro p1
    rw [← contents_length _ (hinv1 p1).1]
    show (queue.level p1).length = _
    rw [hlev2 p1, List.length_map]
  have hsum : levelSizeSum queue ≤ fuel := by
    have h1 := messagesOf_length_sum (es.map (fun e => e.2))
    rw [List.length_map] at h1
    unfold levelSizeSum messageSizeForPriorityMPQ arrayDequeSize arrayListSize
    rw [hsize .highest, hsize .high, hsize .low, hsize .lowest]
    omega
  obtain ⟨d1, d2, _⟩ := dequeueAllMPQ_levels m fuel queue hinv1 hsum
  have hout : (dequeueAllMPQ fuel queue).1 =
      (priorityOrder (es.map (fun e => e.2))).map some := by
    rw [d1, hlev2 .highest, hlev2 .high, hlev2 .low, hlev2 .lowest]
    simp only [priorityOrder, List.map_append, List.append_assoc]
  refine ⟨hout, ?_, d2⟩
  rw [hout, priorityOrder_eq_sort]

/-- Witness for C1 on `exampleEnqueues`: seven messages with interleaved
priorities come out grouped by priority, each group in enqueue order. -/
theorem dequeueAllMPQ_stable_sort_witness :
    8 ≤ SIZE_MAX ∧ enqueueAllMPQ exampleEnqueues (newMPQ 8) = some exampleEnqueuedQueue ∧
    (dequeueAllMPQ 7 exampleEnqueuedQueue).1 =
      [some "T0", some "T1", some "H0", some "H1", some "L0", some "L1", some "B0"] ∧
    (dequeueMessageMPQ (dequeueAllMPQ 7 exampleEnqueuedQueue).2).1 = none :=
  ⟨by decide, rfl,
    (dequeueAllMPQ_stable_sort 8 exampleEnqueues exampleEnqueuedQueue 7 (by decide) rfl
      (by decide)).1,
    (dequeueAllMPQ_stable_sort 8 exampleEnqueues exampleEnqueuedQueue 7 (by decide) rfl
      (by decide)).2.2⟩

/-! ## Bounds on size and capacity -/

theorem setArrayListValAt_frame (list : ArrayList) (index : Nat) (val : String) :
    (setArrayListValAt list index val).2.size = list.size ∧
    (setArrayListValAt list index val).2.capacity = list.capacity ∧
    (setArrayListValAt list index val).2.maxCapacity = list.maxCapacity := by
  unfold setArrayListValAt
  split
  · exact ⟨rfl, rfl, rfl⟩
  · exact ⟨rfl, rfl, rfl⟩

theorem addArrayListValAt_capacity_le (r : Bool) (list : ArrayList) (index : Nat)
    (val : String) (hwf : list.WF) :
    list.capacity ≤ (addArrayListValAt r list index val).2.capacity := by
  by_cases hidx : index ≤ list.size
  · cases hens : (ensureArrayCapacity r list).1
    · rw [addArrayListValAt_no_room r list index val hens]
    · obtain ⟨_, _, a3, _, _, _⟩ := addArrayListValAt_spec r list index val hwf hidx hens
      have hc := ensureArrayCapacity_capacity r list hwf hens
      have := hwf.2.2.1
      rw [a3, hc]
      split <;> omega
  · rw [addArrayListValAt_out_of_bounds r list index val (by omega)]

theorem deleteArrayListValAt_capacity (list : ArrayList) (index : Nat) :
    (deleteArrayListValAt list index).2.capacity = list.capacity := by
  unfold deleteArrayListValAt
  split
  · rfl
  · rfl

theorem deleteLastArrayListVal_capacity (list : ArrayList) :
    (deleteLastArrayListVal list).2.capacity = list.capacity := by
  unfold deleteLastArrayListVal
  split
  · exact deleteArrayListValAt_capacity list _
  · rfl

theorem deleteAllLoop_capacity (fuel : Nat) (list : ArrayList) :
    (deleteAllLoop fuel list).capacity = list.capacity := by
  induction fuel generalizing list with
  | zero => rfl
  | succ fuel ih =>
    have hd := deleteLastArrayListVal_capacity list
    unfold deleteAllLoop
    split
    · rename_i l1 heq
      rw [heq] at hd
      rw [ih l1]
      exact hd
    · rename_i l1 heq
      rw [heq] at hd
      exact hd

theorem applyListOp_capacity_le (op : ListOp) (list : ArrayList) (hwf : list.WF) :
    list.capacity ≤ (applyListOp op list).2.capacity := by
  cases op with
  | addAt r index val => exact addArrayListValAt_capacity_le r list index val hwf
  | addFirst r val => exact addArrayListValAt_capacity_le r list 0 val hwf
  | addLast r val => exact addArrayListValAt_capacity_le r list list.size val hwf
  | getAt index => exact Nat.le_refl _
  | getFirst => exact Nat.le_refl _
  | getLast => exact Nat.le_refl _
  | setAt index val => exact Nat.le_of_eq (setArrayListValAt_frame list index val).2.1.symm
  | setFirst val => exact Nat.le_of_eq (setArrayListValAt_frame list 0 val).2.1.symm
  | setLast val =>
    show list.capacity ≤ (setLastArrayListVal list val).2.capacity
    unfold setLastArrayListVal
    split
    · exact Nat.le_refl _
    · exact Nat.le_of_eq (setArrayListValAt_frame list _ val).2.1.symm
  | deleteAt index => exact Nat.le_of_eq (deleteArrayListValAt_capacity list index).symm
  | deleteFirst => exact Nat.le_of_eq (deleteArrayListValAt_capacity list 0).symm
  | deleteLast => exact Nat.le_of_eq (deleteLastArrayListVal_capacity list).symm
  | deleteAll => exact Nat.le_of_eq (deleteAllLoop_capacity _ list).symm

/-- C11: the list made by `newArrayList m` (with `m` a `size_t` value)
satisfies `0 ≤ size ≤ capacity ≤ maxCapacity`, and so does the list after any
public operation applied to a list reachable from it, whether the operation
returns true or false. -/
theorem size_capacity_bounds (m : Nat) (hm : m ≤ SIZE_MAX) :
    (0 ≤ (newArrayList m).size ∧ (newArrayList m).size ≤ (newArrayList m).capacity ∧
      (newArrayList m).capacity ≤ (newArrayList m).maxCapacity) ∧
    (∀ (list : ArrayList) (op : ListOp), list.Reachable m →
      0 ≤ (applyListOp op list).2.size ∧
      (applyListOp op list).2.size ≤ (applyListOp op list).2.capacity ∧
      (applyListOp op list).2.capacity ≤ (applyListOp op list).2.maxCapacity) := by
  constructor
  · obtain ⟨_, w2, w3, _, _⟩ := newArrayList_WF m hm
    exact ⟨Nat.zero_le _, w2, w3⟩
  · intro list op hr
    obtain ⟨⟨_, w2, w3, _, _⟩, _⟩ := applyListOp_WF op list (hr.wf hm).1
    exact ⟨Nat.zero_le _, w2, w3⟩

/-- Witness for C11 with `m = 3`: the bounds after a failing insert (index out
of range) on the fresh list. -/
theorem size_capacity_bounds_witness :
    3 ≤ SIZE_MAX ∧ (newArrayList 3).Reachable 3 ∧
    (applyListOp (.addAt true 5 "x") (newArrayList 3)).1 = false ∧
    (0 ≤ (applyListOp (.addAt true 5 "x") (newArrayList 3)).2.size ∧
      (applyListOp (.addAt true 5 "x") (newArrayList 3)).2.size ≤
        (applyListOp (.addAt true 5 "x") (newArrayList 3)).2.capacity ∧
      (applyListOp (.addAt true 5 "x") (newArrayList 3)).2.capacity ≤
        (applyListOp (.addAt true 5 "x") (newArrayList 3)).2.maxCapacity) :=
  ⟨by decide, ⟨[], rfl⟩, by decide,
    (size_capacity_bounds 3 (by decide)).2 (newArrayList 3) (.addAt true 5 "x") ⟨[], rfl⟩⟩

/-- C12: for every well-formed list and every public operation (insertions,
reads, overwrites, `deleteArrayListValAt` and its first/last forms,
`deleteAllArrayListVals`), the capacity after the call is at least the capacity
before it and `maxCapacity` is the same. -/
theorem capacity_never_shrinks (op : ListOp) (list : ArrayList) (hwf : list.WF) :
    list.capacity ≤ (applyListOp op list).2.capacity ∧
    (applyListOp op list).2.maxCapacity = list.maxCapacity :=
  ⟨applyListOp_capacity_le op list hwf, (applyListOp_WF op list hwf).2⟩

/-- Witness for C12 on `exampleFullList`: an append doubles the capacity from
2 to 4 and keeps `maxCapacity`. -/
theorem capacity_never_shrinks_witness :
    exampleFullList.WF ∧
    (applyListOp (.addLast true "c") exampleFullList).2.capacity = 4 ∧
    (exampleFullList.capacity ≤ (applyListOp (.addLast true "c") exampleFullList).2.capacity ∧
      (applyListOp (.addLast true "c") exampleFullList).2.maxCapacity =
        exampleFullList.maxCapacity) :=
  ⟨by decide, by decide, capacity_never_shrinks (.addLast true "c") exampleFullList (by decide)⟩

/-! ## Deletion, reading and overwriting at an index -/

theorem contents_getElem? (list : ArrayList) (hwf : list.WF) (k : Nat) (hk : k < list.size) :
    list.contents[k]? = some (list.vals.getD k none) := by
  obtain ⟨w1, w2, _, _, _⟩ := hwf
  unfold ArrayList.contents
  rw [List.getElem?_take, if_pos hk, List.getD_eq_getElem?_getD,
    List.getElem?_eq_getElem (by omega)]
  rfl

/-- C14: on a well-formed list with contents `xs`, `deleteArrayListValAt` at
`index` fails iff `index ≥ size`, and a failing call returns the list
unchanged; when `index < size` the contents become `xs` with position `index`
erased (the elements before `index` stay, those after it move one position
toward the start in the same order) and the size drops by exactly one. -/
theorem deleteArrayListValAt_removes (list : ArrayList) (index : Nat) (hwf : list.WF) :
    ((deleteArrayListValAt list index).1 = false ↔ index ≥ list.size) ∧
    ((deleteArrayListValAt list index).1 = false →
      (deleteArrayListValAt list index).2 = list) ∧
    (index < list.size →
      (deleteArrayListValAt list index).2.contents = list.contents.eraseIdx index ∧
      (deleteArrayListValAt list index).2.contents =
        list.contents.take index ++ list.contents.drop (index + 1) ∧
      (∀ k : Nat, k < index →
        (deleteArrayListValAt list index).2.contents[k]? = list.contents[k]?) ∧
      (∀ k : Nat, index ≤ k →
        (deleteArrayListValAt list index).2.contents[k]? = list.contents[k + 1]?) ∧
      (deleteArrayListValAt list index).2.size + 1 = list.size) := by
  have hfalse : (deleteArrayListValAt list index).1 = false ↔ index ≥ list.size := by
    by_cases h : index < list.size
    · have := (deleteArrayListValAt_spec list index hwf h).1
      rw [this]
      constructor
      · intro hc
        exact absurd hc (by decide)
      · intro hc
        omega
    · rw [deleteArrayListValAt_fail list index (by omega)]
      exact ⟨fun _ => by omega, fun _ => rfl⟩
  refine ⟨hfalse, ?_, ?_⟩
  · intro hf
    rw [deleteArrayListValAt_fail list index (hfalse.1 hf)]
  · intro h
    obtain ⟨_, d2, _, _, d5, _⟩ := deleteArrayListValAt_spec list index hwf h
    have he : (deleteArrayListValAt list index).2.contents = list.contents.eraseIdx index := by
      rw [d5, List.eraseIdx_eq_take_drop_succ]
    refine ⟨he, d5, ?_, ?_, by omega⟩
    · intro k hk
      rw [he, List.getElem?_eraseIdx, if_pos hk]
    · intro k hk
      rw [he, List.getElem?_eraseIdx, if_neg (by omega)]

/-- Witness for C14 on `exampleList` (contents `"a"`, `"b"`): deleting index 0
leaves `"b"`. -/
theorem deleteArrayListValAt_removes_witness :
    exampleList.WF ∧ (deleteArrayListValAt exampleList 0).2.contents = [some "b"] ∧
    ((deleteArrayListValAt exampleList 0).1 = false ↔ 0 ≥ exampleList.size) :=
  ⟨by decide, by decide, (deleteArrayListValAt_removes exampleList 0 (by decide)).1⟩

/-- C15: on a well-formed list `getArrayListValAt` at `index` succeeds iff
`index < size`, and then yields the element at position `index` of the
contents; the call returns the list it was given (it performs no write). -/
theorem getArrayListValAt_reads (list : ArrayList) (index : Nat) (hwf : list.WF) :
    ((getArrayListValAt list index).isSome = true ↔ index < list.size) ∧
    (index < list.size → getArrayListValAt list index = list.contents[index]?) ∧
    (index ≥ list.size → getArrayListValAt list index = none) ∧
    (applyListOp (.getAt index) list).2 = list := by
  refine ⟨?_, ?_, ?_, rfl⟩
  · unfold getArrayListValAt
    split
    · rename_i h
      exact ⟨fun _ => h, fun _ => rfl⟩
    · rename_i h
      exact ⟨fun hc => absurd hc (by simp), fun hc => absurd hc h⟩
  · intro h
    rw [contents_getElem? list hwf index h]
    simp [getArrayListValAt, h]
  · intro h
    have : ¬ index < list.size := by omega
    simp [getArrayListValAt, this]

/-- Witness for C15 on `exampleList`: index 1 holds `"b"`, index 2 is out of
range. -/
theorem getArrayListValAt_reads_witness :
    exampleList.WF ∧ getArrayListValAt exampleList 1 = some (some "b") ∧
    getArrayListValAt exampleList 2 = none ∧
    ((getArrayListValAt exampleList 1).isSome = true ↔ 1 < exampleList.size) :=
  ⟨by decide, by decide, by decide, (getArrayListValAt_reads exampleList 1 (by decide)).1⟩

/-- C16: on a well-formed list `setArrayListValAt` at `index` with a present
value succeeds iff `index < size`, and a failing call returns the list
unchanged; on success a following `getArrayListValAt` at `index` yields the
value, the read at every other index is as before, the contents are the old
contents with position `index` replaced, and size, capacity and maxCapacity
are unchanged. -/
theorem setArrayListValAt_overwrites (list : ArrayList) (index : Nat) (val : String)
    (hwf : list.WF) :
    ((setArrayListValAt list index val).1 = true ↔ index < list.size) ∧
    ((setArrayListValAt list index val).1 = false →
      (setArrayListValAt list index val).2 = list) ∧
    (index < list.size →
      getArrayListValAt (setArrayListValAt list index val).2 index = some (some val) ∧
      (∀ k : Nat, k ≠ index →
        getArrayListValAt (setArrayListValAt list index val).2 k =
          getArrayListValAt list k) ∧
      (setArrayListValAt list index val).2.contents = list.contents.set index (some val) ∧
      (setArrayListValAt list index val).2.size = list.size ∧
      (setArrayListValAt list index val).2.capacity = list.capacity ∧
      (setArrayListValAt list index val).2.maxCapacity = list.maxCapacity) := by
  obtain ⟨w1, w2, _, _, _⟩ := hwf
  by_cases h : index < list.size
  · have e : setArrayListValAt list index val =
        (true, { list with vals := list.vals.set index (some val) }) := by
      simp [setArrayListValAt, h]
    rw [e]
    refine ⟨⟨fun _ => h, fun _ => rfl⟩, fun hc => absurd hc (by simp), fun _ => ?_⟩
    refine ⟨?_, ?_, ?_, rfl, rfl, rfl⟩
    · simp only [getArrayListValAt, if_pos h]
      rw [List.getD_eq_getElem?_getD, List.getElem?_set, if_pos rfl, if_pos (by omega)]
      rfl
    · intro k hk
      have hg : (list.vals.set index (some val)).getD k none = list.vals.getD k none := by
        rw [List.getD_eq_getElem?_getD, List.getElem?_set, if_neg (fun hc => hk hc.symm),
          ← List.getD_eq_getElem?_getD]
      simp only [getArrayListValAt, hg]
    · show List.take list.size (list.vals.set index (some val)) = _
      rw [List.set_take]
      rfl
  · have e : setArrayListValAt list index val = (false, list) := by
      simp [setArrayListValAt, h]
    rw [e]
    exact ⟨⟨fun hc => absurd hc (by simp), fun hc => absurd hc h⟩, fun _ => rfl,
      fun hc => absurd hc h⟩

/-- Witness for C16 on `exampleList`: overwriting index 0 with `"z"`. -/
theorem setArrayListValAt_overwrites_witness :
    exampleList.WF ∧
    (setArrayListValAt exampleList 0 "z").2.contents = [some "z", some "b"] ∧
    ((setArrayListValAt exampleList 0 "z").1 = true ↔ 0 < exampleList.size) :=
  ⟨by decide, by decide, (setArrayListValAt_overwrites exampleList 0 "z" (by decide)).1⟩

/-! ## The first and last forms -/

/-- C18: on an empty list the first and last forms of get, set and delete all
fail and return the list unchanged, and the last forms return before the index
`size - 1` is formed; the first forms are the calls at index 0; on a non-empty
well-formed list the last forms are the calls at index `size - 1`, which the
`size_t` subtraction yields without wrap-around. -/
theorem first_last_forms (list : ArrayList) (val : String) (hwf : list.WF) :
    (list.size = 0 →
      getFirstArrayListVal list = none ∧ getLastArrayListVal list = none ∧
      setFirstArrayListVal list val = (false, list) ∧
      setLastArrayListVal list val = (false, list) ∧
      deleteFirstArrayListVal list = (false, list) ∧
      deleteLastArrayListVal list = (false, list)) ∧
    (getFirstArrayListVal list = getArrayListValAt list 0 ∧
      setFirstArrayListVal list val = setArrayListValAt list 0 val ∧
      deleteFirstArrayListVal list = deleteArrayListValAt list 0) ∧
    (0 < list.size →
      subSizeT list.size 1 = list.size - 1 ∧ list.size - 1 < list.size ∧
      getLastArrayListVal list = getArrayListValAt list (list.size - 1) ∧
      setLastArrayListVal list val = setArrayListValAt list (list.size - 1) val ∧
      deleteLastArrayListVal list = deleteArrayListValAt list (list.size - 1)) := by
  refine ⟨?_, ⟨rfl, rfl, rfl⟩, ?_⟩
  · intro h0
    refine ⟨?_, ?_, ?_, ?_, ?_, ?_⟩
    · simp [getFirstArrayListVal, getArrayListValAt, h0]
    · simp [getLastArrayListVal, h0]
    · simp [setFirstArrayListVal, setArrayListValAt, h0]
    · simp [setLastArrayListVal, h0]
    · simp [deleteFirstArrayListVal, deleteArrayListValAt, h0]
    · simp [deleteLastArrayListVal, h0]
  · intro hpos
    obtain ⟨_, w2, w3, w4, _⟩ := hwf
    have hsub : subSizeT list.size 1 = list.size - 1 :=
      subSizeT_eq list.size 1 (by omega) (by omega)
    have hne : ¬ list.size = 0 := by omega
    refine ⟨hsub, by omega, ?_, ?_, ?_⟩
    · simp only [getLastArrayListVal, if_neg hne, hsub]
    · simp only [setLastArrayListVal, if_neg hne, hsub]
    · simp only [deleteLastArrayListVal, if_pos hpos, hsub]

/-- Witness for C18 on `exampleEmptyList` and `exampleList`. -/
theorem first_last_forms_witness :
    exampleEmptyList.WF ∧ exampleEmptyList.size = 0 ∧
    getLastArrayListVal exampleEmptyList = none ∧
    deleteLastArrayListVal exampleEmptyList = (false, exampleEmptyList) ∧
    exampleList.WF ∧ 0 < exampleList.size ∧
    getLastArrayListVal exampleList = some (some "b") ∧
    (subSizeT exampleList.size 1 = exampleList.size - 1 ∧
      exampleList.size - 1 < exampleList.size ∧
      getLastArrayListVal exampleList = getArrayListValAt exampleList (exampleList.size - 1) ∧
      setLastArrayListVal exampleList "z" =
        setArrayListValAt exampleList (exampleList.size - 1) "z" ∧
      deleteLastArrayListVal exampleList =
        deleteArrayListValAt exampleList (exampleList.size - 1)) :=
  ⟨by decide, by decide,
    ((first_last_forms exampleEmptyList "z" (by decide)).1 (by decide)).2.1,
    ((first_last_forms exampleEmptyList "z" (by decide)).1 (by decide)).2.2.2.2.2,
    by decide, by decide, by decide,
    (first_last_forms exampleList "z" (by decide)).2.2 (by decide)⟩

/-! ## The slot invariant -/

theorem shiftUp_drop (vals : List (Option String)) (size index : Nat) (v : String)
    (hidx : index ≤ size) (hsz : size < vals.length) :
    (((shiftUp index size vals).set index none).set index (some v)).drop (size + 1) =
      vals.drop (size + 1) := by
  apply List.ext_getElem?
  intro k
  rw [List.getElem?_drop, List.getElem?_drop, List.getElem?_set, List.getElem?_set,
    shiftUp_getElem? _ _ _ hsz]
  have h1 : ¬ (index = size + 1 + k) := by omega
  have h2 : ¬ (index < size + 1 + k ∧ size + 1 + k ≤ size) := by omega
  rw [if_neg h1, if_neg h1, if_neg h2]

theorem shiftDown_drop (vals : List (Option String)) (size index : Nat)
    (hidx : index < size) (hsz : size ≤ vals.length) :
    ((shiftDown (size - 1 - index) index vals).set (size - 1) none).drop (size - 1) =
      none :: vals.drop size := by
  apply List.ext_getElem?
  intro k
  rw [List.getElem?_drop, List.getElem?_set, shiftDown_length,
    shiftDown_getElem? _ _ _ (by omega), List.getElem?_cons, List.getElem?_drop]
  have h2 : ¬ (index ≤ size - 1 + k ∧ size - 1 + k < index + (size - 1 - index)) := by omega
  rw [if_neg h2]
  by_cases hk : k = 0
  · subst hk
    have h5 : size - 1 < vals.length := by omega
    simp [h5]
  · have h3 : ¬ (size - 1 = size - 1 + k) := by omega
    have h4 : size - 1 + k = size + (k - 1) := by omega
    rw [if_neg h3, if_neg hk, h4]

theorem newArrayList_SlotsOk (m : Nat) : (newArrayList m).SlotsOk := by
  unfold ArrayList.SlotsOk ArrayList.contents newArrayList
  simp

theorem ensureArrayCapacity_SlotsOk (r : Bool) (list : ArrayList) (hwf : list.WF)
    (hs : list.SlotsOk) : (ensureArrayCapacity r list).2.SlotsOk := by
  obtain ⟨w1, w2, w3, w4, w5⟩ := hwf
  have hg : grownCapacity list = min (2 * list.capacity) list.maxCapacity :=
    grow_capacity list.capacity list.maxCapacity w3 w4
  rcases ensureArrayCapacity_cases r list with
    ⟨h1, e⟩ | ⟨h1, h2, e⟩ | ⟨h1, h2, h3, e⟩ | ⟨h1, h2, h3, e⟩
  · rw [e]; exact hs
  · rw [e]; exact hs
  · rw [e]; exact hs
  · rw [e]
    obtain ⟨s1, s2⟩ := hs
    constructor
    · show ∀ x ∈ List.take list.size
        (initNewVals list.vals (grownCapacity list - list.capacity)), x.isSome = true
      rw [initNewVals_eq, List.take_append_of_le_length (by omega)]
      exact s1
    · show List.drop list.size (initNewVals list.vals (grownCapacity list - list.capacity))
        = List.replicate (grownCapacity list - list.size) none
      rw [initNewVals_eq, List.drop_append_of_le_length (by omega), s2, ← List.replicate_add]
      congr 1
      omega

theorem addArrayListValAt_SlotsOk (r : Bool) (list : ArrayList) (index : Nat) (val : String)
    (hwf : list.WF) (hs : list.SlotsOk) : (addArrayListValAt r list index val).2.SlotsOk := by
  by_cases hidx : index ≤ list.size
  · cases hens : (ensureArrayCapacity r list).1
    · rw [addArrayListValAt_no_room r list index val hens]
      exact hs
    · obtain ⟨_, a2, a3, _, a5, _⟩ := addArrayListValAt_spec r list index val hwf hidx hens
      obtain ⟨e1, _, e3, e4, e5, _⟩ := ensureArrayCapacity_spec r list hwf hens
      have hs1 := (ensureArrayCapacity_SlotsOk r list hwf hs).2
      have hmax : list.size < SIZE_MAX := by
        have := hwf.2.2.2.1
        omega
      have e : ensureArrayCapacity r list = (true, (ensureArrayCapacity r list).2) :=
        Prod.ext hens rfl
      constructor
      · rw [a5]
        intro x hx
        rw [List.mem_append, List.mem_cons] at hx
        rcases hx with hx | hx | hx
        · exact hs.1 x (List.mem_of_mem_take hx)
        · rw [hx]; rfl
        · exact hs.1 x (List.mem_of_mem_drop hx)
      · rw [a2, a3]
        rw [addArrayListValAt_room r list _ index val hidx hmax e]
        generalize (ensureArrayCapacity r list).2 = list1 at e1 e3 e4 e5 hs1
        show List.drop (list.size + 1)
          (((shiftUp index list1.size list1.vals).set index none).set index (some val)) = _
        rw [e1, shiftUp_drop _ _ _ _ hidx (by omega)]
        rw [e1] at hs1
        have hd : List.drop (list.size + 1) list1.vals =
            List.drop 1 (List.drop list.size list1.vals) := by
          rw [List.drop_drop]
        rw [hd, hs1, List.drop_replicate]
        congr 1
  · rw [addArrayListValAt_out_of_bounds r list index val (by omega)]
    exact hs

theorem setArrayListValAt_SlotsOk (list : ArrayList) (index : Nat) (val : String)
    (hs : list.SlotsOk) : (setArrayListValAt list index val).2.SlotsOk := by
  by_cases h : index < list.size
  · have e : setArrayListValAt list index val =
        (true, { list with vals := list.vals.set index (some val) }) := by
      simp [setArrayListValAt, h]
    rw [e]
    obtain ⟨s1, s2⟩ := hs
    constructor
    · show ∀ x ∈ List.take list.size (list.vals.set index (some val)), x.isSome = true
      rw [List.set_take]
      intro x hx
      rcases List.mem_or_eq_of_mem_set hx with hx | hx
      · exact s1 x hx
      · rw [hx]; rfl
    · show List.drop list.size (list.vals.set index (some val)) = _
      rw [List.drop_set, if_pos h]
      exact s2
  · have e : setArrayListValAt list index val = (false, list) := by
      simp [setArrayListValAt, h]
    rw [e]
    exact hs

theorem deleteArrayListValAt_SlotsOk (list : ArrayList) (index : Nat) (hwf : list.WF)
    (hs : list.SlotsOk) : (deleteArrayListValAt list index).2.SlotsOk := by
  by_cases h : index < list.size
  · obtain ⟨_, d2, d3, _, d5, _⟩ := deleteArrayListValAt_spec list index hwf h
    obtain ⟨w1, w2, w3, w4, _⟩ := hwf
    obtain ⟨s1, s2⟩ := hs
    constructor
    · rw [d5]
      intro x hx
      rw [List.mem_append] at hx
      rcases hx with hx | hx
      · exact s1 x (List.mem_of_mem_take hx)
      · exact s1 x (List.mem_of_mem_drop hx)
    · rw [d2, d3]
      have hsub : subSizeT list.size 1 = list.size - 1 :=
        subSizeT_eq list.size 1 (by omega) (by omega)
      have hnot : ¬ (index ≥ list.size) := by omega
      unfold deleteArrayListValAt
      rw [if_neg hnot]
      simp only [hsub]
      rw [shiftDown_drop list.vals list.size index h (by omega), s2,
        ← List.replicate_succ]
      have hn : list.capacity - list.size + 1 = list.capacity - (list.size - 1) := by omega
      rw [hn]
  · rw [deleteArrayListValAt_fail list index (by omega)]
    exact hs

theorem deleteLastArrayListVal_SlotsOk (list : ArrayList) (hwf : list.WF)
    (hs : list.SlotsOk) : (deleteLastArrayListVal list).2.SlotsOk := by
  unfold deleteLastArrayListVal
  split
  · exact deleteArrayListValAt_SlotsOk list _ hwf hs
  · exact hs

theorem deleteAllLoop_SlotsOk (fuel : Nat) (list : ArrayList) (hwf : list.WF)
    (hs : list.SlotsOk) : (deleteAllLoop fuel list).SlotsOk := by
  induction fuel generalizing list with
  | zero => exact hs
  | succ fuel ih =>
    have hd := deleteLastArrayListVal_SlotsOk list hwf hs
    have hw := (deleteLastArrayListVal_WF list hwf).1
    unfold deleteAllLoop
    split
    · rename_i l1 heq
      rw [heq] at hd hw
      exact ih l1 hw hd
    · rename_i l1 heq
      rw [heq] at hd
      exact hd

theorem applyListOp_SlotsOk (op : ListOp) (list : ArrayList) (hwf : list.WF)
    (hs : list.SlotsOk) : (applyListOp op list).2.SlotsOk := by
  cases op with
  | addAt r index val => exact addArrayListValAt_SlotsOk r list index val hwf hs
  | addFirst r val => exact addArrayListValAt_SlotsOk r list 0 val hwf hs
  | addLast r val => exact addArrayListValAt_SlotsOk r list list.size val hwf hs
  | getAt index => exact hs
  | getFirst => exact hs
  | getLast => exact hs
  | setAt index val => exact setArrayListValAt_SlotsOk list index val hs
  | setFirst val => exact setArrayListValAt_SlotsOk list 0 val hs
  | setLast val =>
    show (setLastArrayListVal list val).2.SlotsOk
    unfold setLastArrayListVal
    split
    · exact hs
    · exact setArrayListValAt_SlotsOk list _ val hs
  | deleteAt index => exact deleteArrayListValAt_SlotsOk list index hwf hs
  | deleteFirst => exact deleteArrayListValAt_SlotsOk list 0 hwf hs
  | deleteLast => exact deleteLastArrayListVal_SlotsOk list hwf hs
  | deleteAll => exact deleteAllLoop_SlotsOk _ list hwf hs

theorem runListOps_SlotsOk (ops : List ListOp) (list : ArrayList) (hwf : list.WF)
    (hs : list.SlotsOk) : (runListOps ops list).SlotsOk := by
  induction ops generalizing list with
  | nil => exact hs
  | cons op ops ih =>
    exact ih (applyListOp op list).2 (applyListOp_WF op list hwf).1
      (applyListOp_SlotsOk op list hwf hs)

theorem SlotsOk_below (list : ArrayList) (hwf : list.WF) (hs : list.SlotsOk) (k : Nat)
    (hk : k < list.size) : ∃ s : String, list.vals[k]? = some (some s) := by
  obtain ⟨w1, w2, _, _, _⟩ := hwf
  have hlt : k < list.vals.length := by omega
  have hmem : list.vals[k] ∈ list.contents := by
    unfold ArrayList.contents
    rw [List.mem_iff_getElem?]
    exact ⟨k, by rw [List.getElem?_take, if_pos hk, List.getElem?_eq_getElem hlt]⟩
  have hsome := hs.1 _ hmem
  rw [Option.isSome_iff_exists] at hsome
  obtain ⟨s, hsv⟩ := hsome
  exact ⟨s, by rw [List.getElem?_eq_getElem hlt, hsv]⟩

theorem SlotsOk_above (list : ArrayList) (hs : list.SlotsOk) (k : Nat)
    (hk1 : list.size ≤ k) (hk2 : k < list.capacity) : list.vals[k]? = some none := by
  have h := congrArg (fun l => l[k - list.size]?) hs.2
  simp only [List.getElem?_drop, List.getElem?_replicate] at h
  have e : list.size + (k - list.size) = k := by omega
  rw [e, if_pos (by omega)] at h
  exact h

theorem ensureArrayCapacity_WF (r : Bool) (list : ArrayList) (hwf : list.WF) :
    (ensureArrayCapacity r list).2.WF := by
  cases hens : (ensureArrayCapacity r list).1
  · rw [ensureArrayCapacity_fail r list hens]
    exact hwf
  · obtain ⟨s1, s2, s3, s4, s5, _⟩ := ensureArrayCapacity_spec r list hwf hens
    have := hwf.2.2.2.1
    exact ⟨s5, by omega, by omega, by omega, by omega⟩

theorem SlotsOk.pointwise {list : ArrayList} (hwf : list.WF) (hs : list.SlotsOk) :
    list.SlotsPointwise :=
  ⟨fun k hk => SlotsOk_below list hwf hs k hk, fun k h1 h2 => SlotsOk_above list hs k h1 h2⟩

/-- The slot invariant with the exact loop counter, which is the code whenever
`m` fits in `int` (see `strict_ensureArrayCapacity_in_range`): in every list
reachable from `newArrayList m` by public operations with present values, each
slot below `size` holds a value and each slot in `[size, capacity)` is `NULL`;
the same holds after the growth step `ensureArrayCapacity` and after any
further public operation, in particular after the shifts of
`addArrayListValAt` and `deleteArrayListValAt`. -/
theorem slots_invariant (m : Nat) (list : ArrayList) (hm : m ≤ SIZE_MAX)
    (hr : list.Reachable m) :
    list.SlotsPointwise ∧
    (∀ r : Bool, (ensureArrayCapacity r list).2.SlotsPointwise) ∧
    (∀ (r : Bool) (index : Nat) (val : String),
      (addArrayListValAt r list index val).2.SlotsPointwise) ∧
    (∀ index : Nat, (deleteArrayListValAt list index).2.SlotsPointwise) ∧
    (∀ op : ListOp, (applyListOp op list).2.SlotsPointwise) := by
  have hwf := (hr.wf hm).1
  have hs : list.SlotsOk := by
    obtain ⟨ops, rfl⟩ := hr
    exact runListOps_SlotsOk ops _ (newArrayList_WF m hm) (newArrayList_SlotsOk m)
  refine ⟨SlotsOk.pointwise hwf hs, ?_, ?_, ?_, ?_⟩
  · intro r
    exact SlotsOk.pointwise (ensureArrayCapacity_WF r list hwf)
      (ensureArrayCapacity_SlotsOk r list hwf hs)
  · intro r index val
    exact SlotsOk.pointwise (addArrayListValAt_WF r list index val hwf).1
      (addArrayListValAt_SlotsOk r list index val hwf hs)
  · intro index
    exact SlotsOk.pointwise (deleteArrayListValAt_WF list index hwf).1
      (deleteArrayListValAt_SlotsOk list index hwf hs)
  · intro op
    exact SlotsOk.pointwise (applyListOp_WF op list hwf).1
      (applyListOp_SlotsOk op list hwf hs)

/-- An instance of `slots_invariant` on the list reached from `newArrayList 2`
by two appends, and on its state after a delete. -/
theorem slots_invariant_witness :
    2 ≤ SIZE_MAX ∧ exampleReachedList.Reachable 2 ∧
    exampleReachedList.vals = [some "a", some "b"] ∧
    (deleteArrayListValAt exampleReachedList 0).2.vals = [some "b", none] ∧
    exampleReachedList.SlotsPointwise ∧
    (deleteArrayListValAt exampleReachedList 0).2.SlotsPointwise :=
  ⟨by decide, ⟨_, rfl⟩, by decide, by decide,
    (slots_invariant 2 exampleReachedList (by decide) ⟨_, rfl⟩).1,
    (slots_invariant 2 exampleReachedList (by decide) ⟨_, rfl⟩).2.2.2.1 0⟩

/-! ## Deleting all values -/

theorem deleteLastArrayListVal_empty (list : ArrayList) (h : list.size = 0) :
    deleteLastArrayListVal list = (false, list) := by
  simp [deleteLastArrayListVal, h]

theorem deleteLastArrayListVal_nonempty (list : ArrayList) (hwf : list.WF)
    (h : 0 < list.size) :
    deleteLastArrayListVal list =
      (true, { list with vals := list.vals.set (list.size - 1) none
                         size := list.size - 1 }) := by
  obtain ⟨_, w2, w3, w4, _⟩ := hwf
  have hsub : subSizeT list.size 1 = list.size - 1 :=
    subSizeT_eq list.size 1 (by omega) (by omega)
  have hnot : ¬ (list.size - 1 ≥ list.size) := by omega
  unfold deleteLastArrayListVal deleteArrayListValAt
  rw [if_pos h, hsub, if_neg hnot]
  simp only [Nat.sub_self, shiftDown]

theorem deleteAllLoop_eq (fuel : Nat) (list : ArrayList) (hwf : list.WF)
    (hfuel : list.size < fuel) :
    deleteAllLoop fuel list =
      { list with vals := List.replicate list.size none ++ list.vals.drop list.size
                  size := 0 } := by
  induction fuel generalizing list with
  | zero => omega
  | succ fuel ih =>
    rcases Nat.eq_zero_or_pos list.size with h0 | hpos
    · rw [deleteAllLoop, deleteLastArrayListVal_empty list h0]
      cases list with
      | mk vals size capacity maxCapacity =>
        simp only at h0
        subst h0
        simp
    · rw [deleteAllLoop, deleteLastArrayListVal_nonempty list hwf hpos]
      have hw1 := (deleteLastArrayListVal_WF list hwf).1
      rw [deleteLastArrayListVal_nonempty list hwf hpos] at hw1
      simp only
      rw [ih _ hw1 (by show list.size - 1 < fuel; omega)]
      obtain ⟨w1, w2, _, _, _⟩ := hwf
      have hlt : list.size - 1 < list.vals.length := by omega
      have hd : List.drop (list.size - 1) (list.vals.set (list.size - 1) none) =
          none :: List.drop list.size list.vals := by
        rw [List.drop_set, if_neg (by omega), List.drop_eq_getElem_cons hlt, Nat.sub_self,
          List.set_cons_zero]
        have e : list.size - 1 + 1 = list.size := by omega
        rw [e]
      have hr : List.replicate list.size (none : Option String) =
          List.replicate (list.size - 1) none ++ [none] := by
        rw [← List.replicate_succ']
        congr 1
        omega
      simp only [hd, hr, List.append_assoc, List.singleton_append]

/-- C17: `deleteAllArrayListVals` on a well-formed list ends (every fuel above
`size` gives the same result, and the next `deleteLastArrayListVal` fails) with
size 0, the slots below the old size set to `NULL` and the others untouched,
and capacity and maxCapacity unchanged; so when the slots from `size` up were
`NULL` before, every slot is `NULL` afterwards; on an already-empty list the
result is the list itself. -/
theorem deleteAllArrayListVals_clears (list : ArrayList) (hwf : list.WF) :
    (deleteAllArrayListVals list).size = 0 ∧
    (deleteAllArrayListVals list).capacity = list.capacity ∧
    (deleteAllArrayListVals list).maxCapacity = list.maxCapacity ∧
    (deleteAllArrayListVals list).vals =
      List.replicate list.size none ++ list.vals.drop list.size ∧
    (list.SlotsOk →
      (deleteAllArrayListVals list).vals = List.replicate list.capacity none) ∧
    (∀ fuel : Nat, list.size < fuel → deleteAllLoop fuel list = deleteAllArrayListVals list) ∧
    (deleteLastArrayListVal (deleteAllArrayListVals list)).1 = false ∧
    (list.size = 0 → deleteAllArrayListVals list = list) := by
  have e : deleteAllArrayListVals list =
      { list with vals := List.replicate list.size none ++ list.vals.drop list.size
                  size := 0 } :=
    deleteAllLoop_eq (list.size + 1) list hwf (by omega)
  refine ⟨by rw [e], by rw [e], by rw [e], by rw [e], ?_, ?_, ?_, ?_⟩
  · intro hs
    rw [e]
    show List.replicate list.size none ++ list.vals.drop list.size = _
    rw [hs.2, ← List.replicate_add]
    have := hwf.2.1
    congr 1
    omega
  · intro fuel hfuel
    rw [e, deleteAllLoop_eq fuel list hwf hfuel]
  · rw [e, deleteLastArrayListVal_empty _ rfl]
  · intro h0
    rw [e]
    cases list with
    | mk vals size capacity maxCapacity =>
      simp only at h0
      subst h0
      simp

/-- Witness for C17 on `exampleList` (two values in four slots). -/
theorem deleteAllArrayListVals_clears_witness :
    exampleList.WF ∧ exampleList.SlotsOk ∧
    deleteAllArrayListVals exampleList =
      { vals := [none, none, none, none], size := 0, capacity := 4, maxCapacity := 8 } ∧
    (deleteAllArrayListVals exampleList).size = 0 ∧
    (deleteAllArrayListVals exampleList).vals = List.replicate exampleList.capacity none :=
  ⟨by decide, by decide, by decide,
    (deleteAllArrayListVals_clears exampleList (by decide)).1,
    (deleteAllArrayListVals_clears exampleList (by decide)).2.2.2.2.1 (by decide)⟩

/-! ## Calls with a `NULL` value -/

theorem setArrayListValAtPtr_some (list : ArrayList) (index : Nat) (val : String) :
    setArrayListValAtPtr list index (some val) = setArrayListValAt list index val := rfl

theorem addArrayListValAtPtr_some (r : Bool) (list : ArrayList) (index : Nat) (val : String) :
    addArrayListValAtPtr r list index (some val) = addArrayListValAt r list index val := rfl

/-! ## A failing call leaves the container unchanged -/

theorem addArrayListValAtPtr_fail_unchanged (r : Bool) (list : ArrayList) (index : Nat)
    (val : Option String) (h : (addArrayListValAtPtr r list index val).1 = false) :
    (addArrayListValAtPtr r list index val).2 = list := by
  unfold addArrayListValAtPtr at h ⊢
  by_cases hidx : index > list.size
  · rw [if_pos hidx]
  · rw [if_neg hidx] at h ⊢
    rcases ensureArrayCapacity_cases r list with
      ⟨_, e⟩ | ⟨_, _, e⟩ | ⟨_, _, _, e⟩ | ⟨_, _, _, e⟩
    · rw [e] at h
      simp at h
    · rw [e]
    · rw [e]
    · rw [e] at h
      simp at h

theorem addArrayListValAt_fail_unchanged (r : Bool) (list : ArrayList) (index : Nat)
    (val : String) (h : (addArrayListValAt r list index val).1 = false) :
    (addArrayListValAt r list index val).2 = list :=
  addArrayListValAtPtr_fail_unchanged r list index (some val) h

theorem setArrayListValAt_fail_unchanged (list : ArrayList) (index : Nat) (val : String)
    (h : (setArrayListValAt list index val).1 = false) :
    (setArrayListValAt list index val).2 = list := by
  unfold setArrayListValAt at h ⊢
  split
  · rename_i hlt
    rw [if_pos hlt] at h
    simp at h
  · rfl

theorem setLastArrayListVal_fail_unchanged (list : ArrayList) (val : String)
    (h : (setLastArrayListVal list val).1 = false) :
    (setLastArrayListVal list val).2 = list := by
  unfold setLastArrayListVal at h ⊢
  split
  · rfl
  · rename_i hne
    rw [if_neg hne] at h
    exact setArrayListValAt_fail_unchanged list _ val h

theorem deleteArrayListValAt_fail_unchanged (list : ArrayList) (index : Nat)
    (h : (deleteArrayListValAt list index).1 = false) :
    (deleteArrayListValAt list index).2 = list := by
  unfold deleteArrayListValAt at h ⊢
  split
  · rfl
  · rename_i hge
    rw [if_neg hge] at h
    simp at h

theorem deleteLastArrayListVal_fail_unchanged (list : ArrayList)
    (h : (deleteLastArrayListVal list).1 = false) :
    (deleteLastArrayListVal list).2 = list := by
  unfold deleteLastArrayListVal at h ⊢
  split
  · rename_i hpos
    rw [if_pos hpos] at h
    exact deleteArrayListValAt_fail_unchanged list _ h
  · rfl

theorem applyListOp_fail_unchanged (op : ListOp) (list : ArrayList)
    (h : (applyListOp op list).1 = false) : (applyListOp op list).2 = list := by
  cases op with
  | addAt r index val => exact addArrayListValAt_fail_unchanged r list index val h
  | addFirst r val => exact addArrayListValAt_fail_unchanged r list 0 val h
  | addLast r val => exact addArrayListValAt_fail_unchanged r list list.size val h
  | getAt index => rfl
  | getFirst => rfl
  | getLast => rfl
  | setAt index val => exact setArrayListValAt_fail_unchanged list index val h
  | setFirst val => exact setArrayListValAt_fail_unchanged list 0 val h
  | setLast val => exact setLastArrayListVal_fail_unchanged list val h
  | deleteAt index => exact deleteArrayListValAt_fail_unchanged list index h
  | deleteFirst => exact deleteArrayListValAt_fail_unchanged list 0 h
  | deleteLast => exact deleteLastArrayListVal_fail_unchanged list h
  | deleteAll => exact absurd h (by simp [applyListOp])

theorem addLastArrayDequeValPtr_fail_unchanged (r : Bool) (deque : ArrayDeque)
    (val : Option String) (h : (addLastArrayDequeValPtr r deque val).1 = false) :
    (addLastArrayDequeValPtr r deque val).2 = deque := by
  have h1 : (addArrayListValAtPtr r deque.list deque.list.size val).1 = false := h
  have h2 := addArrayListValAtPtr_fail_unchanged r deque.list deque.list.size val h1
  show ({ list := (addArrayListValAtPtr r deque.list deque.list.size val).2 } : ArrayDeque)
    = deque
  rw [h2]

theorem addLastArrayDequeVal_fail_unchanged (r : Bool) (deque : ArrayDeque)
    (val : String) (h : (addLastArrayDequeVal r deque val).1 = false) :
    (addLastArrayDequeVal r deque val).2 = deque :=
  addLastArrayDequeValPtr_fail_unchanged r deque (some val) h

theorem addFirstArrayDequeVal_fail_unchanged (r : Bool) (deque : ArrayDeque)
    (val : String) (h : (addFirstArrayDequeVal r deque val).1 = false) :
    (addFirstArrayDequeVal r deque val).2 = deque := by
  have h1 : (addArrayListValAt r deque.list 0 val).1 = false := h
  have h2 := addArrayListValAt_fail_unchanged r deque.list 0 val h1
  show ({ list := (addArrayListValAt r deque.list 0 val).2 } : ArrayDeque) = deque
  rw [h2]

theorem pokeFirstArrayDequeVal_fail_unchanged (deque : ArrayDeque) (val : String)
    (h : (pokeFirstArrayDequeVal deque val).1 = false) :
    (pokeFirstArrayDequeVal deque val).2 = deque := by
  have h1 : (setArrayListValAt deque.list 0 val).1 = false := h
  have h2 := setArrayListValAt_fail_unchanged deque.list 0 val h1
  show ({ list := (setArrayListValAt deque.list 0 val).2 } : ArrayDeque) = deque
  rw [h2]

theorem pokeLastArrayDequeVal_fail_unchanged (deque : ArrayDeque) (val : String)
    (h : (pokeLastArrayDequeVal deque val).1 = false) :
    (pokeLastArrayDequeVal deque val).2 = deque := by
  have h1 : (setLastArrayListVal deque.list val).1 = false := h
  have h2 := setLastArrayListVal_fail_unchanged deque.list val h1
  show ({ list := (setLastArrayListVal deque.list val).2 } : ArrayDeque) = deque
  rw [h2]

theorem dropFirstArrayDequeVal_fail_unchanged (deque : ArrayDeque)
    (h : (dropFirstArrayDequeVal deque).1 = false) :
    (dropFirstArrayDequeVal deque).2 = deque := by
  have h1 : (deleteArrayListValAt deque.list 0).1 = false := h
  have h2 := deleteArrayListValAt_fail_unchanged deque.list 0 h1
  show ({ list := (deleteArrayListValAt deque.list 0).2 } : ArrayDeque) = deque
  rw [h2]

theorem dropLastArrayDequeVal_fail_unchanged (deque : ArrayDeque)
    (h : (dropLastArrayDequeVal deque).1 = false) :
    (dropLastArrayDequeVal deque).2 = deque := by
  have h1 : (deleteLastArrayListVal deque.list).1 = false := h
  have h2 := deleteLastArrayListVal_fail_unchanged deque.list h1
  show ({ list := (deleteLastArrayListVal deque.list).2 } : ArrayDeque) = deque
  rw [h2]

theorem deleteFirstArrayDequeVal_fail_unchanged (deque : ArrayDeque)
    (h : (deleteFirstArrayDequeVal deque).1.isSome = false) :
    (deleteFirstArrayDequeVal deque).2 = deque := by
  unfold deleteFirstArrayDequeVal at h ⊢
  cases hp : peekFirstArrayDequeVal deque with
  | none => rfl
  | some v =>
    rw [hp] at h
    simp at h

theorem deleteLastArrayDequeVal_fail_unchanged (deque : ArrayDeque)
    (h : (deleteLastArrayDequeVal deque).1.isSome = false) :
    (deleteLastArrayDequeVal deque).2 = deque := by
  unfold deleteLastArrayDequeVal at h ⊢
  cases hp : peekLastArrayDequeVal deque with
  | none => rfl
  | some v =>
    rw [hp] at h
    simp at h

theorem swapTopArrayDequeVal_fail_unchanged (r1 r2 : Bool) (deque : ArrayDeque)
    (h : (swapTopArrayDequeVal r1 r2 deque).1 = false) :
    (swapTopArrayDequeVal r1 r2 deque).2 = deque := by
  unfold swapTopArrayDequeVal at h ⊢
  by_cases hs : arrayDequeSize deque ≥ 2
  · simp only [hs, if_true] at h
    exact absurd h (by decide)
  · simp only [hs, if_false]

theorem dupTopArrayDequeVal_fail_unchanged (r : Bool) (deque : ArrayDeque)
    (h : (dupTopArrayDequeVal r deque).1 = false) :
    (dupTopArrayDequeVal r deque).2 = deque := by
  unfold dupTopArrayDequeVal at h ⊢
  cases hp : peekTopArrayDequeVal deque with
  | none => rfl
  | some v =>
    rw [hp] at h
    simp only at h ⊢
    exact addLastArrayDequeValPtr_fail_unchanged r deque v h

theorem applyDequeOp_fail_unchanged (op : DequeOp) (deque : ArrayDeque)
    (h : (applyDequeOp op deque).1 = false) : (applyDequeOp op deque).2 = deque := by
  cases op with
  | addFirst r val => exact addFirstArrayDequeVal_fail_unchanged r deque val h
  | addLast r val => exact addLastArrayDequeVal_fail_unchanged r deque val h
  | enqueue r val => exact addLastArrayDequeVal_fail_unchanged r deque val h
  | push r val => exact addLastArrayDequeVal_fail_unchanged r deque val h
  | peekFirst => rfl
  | peekLast => rfl
  | peekHead => rfl
  | peekTop => rfl
  | pokeFirst val => exact pokeFirstArrayDequeVal_fail_unchanged deque val h
  | pokeLast val => exact pokeLastArrayDequeVal_fail_unchanged deque val h
  | pokeHead val => exact pokeFirstArrayDequeVal_fail_unchanged deque val h
  | pokeTop val => exact pokeLastArrayDequeVal_fail_unchanged deque val h
  | deleteFirst => exact deleteFirstArrayDequeVal_fail_unchanged deque h
  | deleteLast => exact deleteLastArrayDequeVal_fail_unchanged deque h
  | dequeue => exact deleteFirstArrayDequeVal_fail_unchanged deque h
  | pop => exact deleteLastArrayDequeVal_fail_unchanged deque h
  | dropFirst => exact dropFirstArrayDequeVal_fail_unchanged deque h
  | dropLast => exact dropLastArrayDequeVal_fail_unchanged deque h
  | dropHead => exact dropFirstArrayDequeVal_fail_unchanged deque h
  | dropTop => exact dropLastArrayDequeVal_fail_unchanged deque h
  | swapTop r1 r2 => exact swapTopArrayDequeVal_fail_unchanged r1 r2 deque h
  | dupTop r => exact dupTopArrayDequeVal_fail_unchanged r deque h

theorem dequeueMessageMPQ_fail_unchanged (queue : MessagePriorityQueue)
    (h : (dequeueMessageMPQ queue).1.isSome = false) :
    (dequeueMessageMPQ queue).2 = queue := by
  by_cases hall : ∀ p : Priority, (queue.msgQueues p).list.size = 0
  · rw [dequeueMessageMPQ_all_empty queue hall]
  · obtain ⟨p, hp, hfirst⟩ := exists_first_nonempty queue hall
    rw [dequeueMessageMPQ_at queue p hp hfirst] at h
    exact absurd h (by simp)

theorem applyMPQOp_fail_unchanged (op : MPQOp) (queue : MessagePriorityQueue)
    (h : (applyMPQOp op queue).1 = false) : (applyMPQOp op queue).2 = queue := by
  cases op with
  | enqueue r message p => exact enqueueMessageMPQ_fail_unchanged r queue message p h
  | dequeue => exact dequeueMessageMPQ_fail_unchanged queue h
  | peek => rfl

/-- C20: for every operation of the array list, of the array deque and of the
message priority queue that can fail (add, get, set, delete, peek, poke, drop,
delete/dequeue/pop with a result, swapTop, dupTop, enqueueMessageMPQ,
dequeueMessageMPQ, peekMessageMPQ) and every state, reachable or not, a call
that returns false returns the state it was given: same slots, size, capacity
and maxCapacity in every list involved. -/
theorem failure_leaves_state_unchanged :
    (∀ (op : ListOp) (list : ArrayList),
      (applyListOp op list).1 = false → (applyListOp op list).2 = list) ∧
    (∀ (op : DequeOp) (deque : ArrayDeque),
      (applyDequeOp op deque).1 = false → (applyDequeOp op deque).2 = deque) ∧
    (∀ (op : MPQOp) (queue : MessagePriorityQueue),
      (applyMPQOp op queue).1 = false → (applyMPQOp op queue).2 = queue) :=
  ⟨applyListOp_fail_unchanged, applyDequeOp_fail_unchanged, applyMPQOp_fail_unchanged⟩

/-- Witness for C20: `swapTopArrayDequeVal` on a fresh deque, an insert into
the full `exampleReachedList`, and a dequeue on a fresh queue all fail and
return their argument. -/
theorem failure_leaves_state_unchanged_witness :
    (applyDequeOp (.swapTop true true) (newArrayDeque 4)).1 = false ∧
    (applyDequeOp (.swapTop true true) (newArrayDeque 4)).2 = newArrayDeque 4 ∧
    (applyListOp (.addLast true "c") exampleReachedList).1 = false ∧
    (applyListOp (.addLast true "c") exampleReachedList).2 = exampleReachedList ∧
    (applyMPQOp .dequeue (newMPQ 4)).1 = false ∧
    (applyMPQOp .dequeue (newMPQ 4)).2 = newMPQ 4 :=
  ⟨by decide,
    failure_leaves_state_unchanged.2.1 (.swapTop true true) (newArrayDeque 4) (by decide),
    by decide,
    failure_leaves_state_unchanged.1 (.addLast true "c") exampleReachedList (by decide),
    by decide,
    failure_leaves_state_unchanged.2.2 .dequeue (newMPQ 4) (by decide)⟩

/-! ## Both ends of the backing list -/

theorem getLastArrayListVal_nonempty (list : ArrayList) (hwf : list.WF) (h : 0 < list.size) :
    getLastArrayListVal list = list.contents.getLast? ∧
    getLastArrayListVal list = some (list.vals.getD (list.size - 1) none) := by
  obtain ⟨w1, w2, w3, w4, _⟩ := hwf
  have hsub : subSizeT list.size 1 = list.size - 1 :=
    subSizeT_eq list.size 1 (by omega) (by omega)
  have hne : ¬ list.size = 0 := by omega
  have hlt : list.size - 1 < list.size := by omega
  have e : getLastArrayListVal list = some (list.vals.getD (list.size - 1) none) := by
    simp only [getLastArrayListVal, if_neg hne, hsub, getArrayListValAt, if_pos hlt]
  refine ⟨?_, e⟩
  rw [e, List.getLast?_eq_getElem?, contents_length list ⟨w1, w2, w3, w4, ‹_›⟩,
    contents_getElem? list ⟨w1, w2, w3, w4, ‹_›⟩ _ hlt]

theorem getFirstArrayListVal_eq_head? (list : ArrayList) (hwf : list.WF) :
    getFirstArrayListVal list = list.contents.head? := by
  rcases Nat.eq_zero_or_pos list.size with h | h
  · have hnil : list.contents = [] := by
      rw [← List.length_eq_zero, contents_length list hwf, h]
    rw [hnil]
    simp [getFirstArrayListVal, getArrayListValAt, h]
  · rw [contents_head? list hwf h]
    simp [getFirstArrayListVal, getArrayListValAt, h]

theorem getLastArrayListVal_eq_getLast? (list : ArrayList) (hwf : list.WF) :
    getLastArrayListVal list = list.contents.getLast? := by
  rcases Nat.eq_zero_or_pos list.size with h | h
  · have hnil : list.contents = [] := by
      rw [← List.length_eq_zero, contents_length list hwf, h]
    rw [hnil]
    simp [getLastArrayListVal, h]
  · exact (getLastArrayListVal_nonempty list hwf h).1

theorem addArrayListValAt_ok_of_room (list : ArrayList) (index : Nat) (val : String)
    (hwf : list.WF) (hidx : index ≤ list.size) (hroom : list.size < list.maxCapacity) :
    (addArrayListValAt true list index val).1 = true := by
  obtain ⟨_, w2, w3, _, _⟩ := hwf
  have hens : (ensureArrayCapacity true list).1 = true := by
    rw [ensureArrayCapacity_ok_iff]
    by_cases hc : list.size = list.capacity
    · exact Or.inr ⟨by omega, rfl⟩
    · exact Or.inl hc
  exact (addArrayListValAt_spec true list index val ⟨‹_›, w2, w3, ‹_›, ‹_›⟩ hidx hens).1

/-! ## The deque at both ends -/

theorem peekFirst_none_iff (deque : ArrayDeque) :
    peekFirstArrayDequeVal deque = none ↔ deque.list.size = 0 := by
  rcases Nat.eq_zero_or_pos deque.list.size with h | h
  · rw [peekFirstArrayDequeVal_empty deque h]
    exact ⟨fun _ => h, fun _ => rfl⟩
  · rw [peekFirstArrayDequeVal_nonempty deque h]
    exact ⟨fun hc => absurd hc (by simp), fun hc => by omega⟩

theorem peekLast_none_iff (deque : ArrayDeque) (hwf : deque.list.WF) :
    peekLastArrayDequeVal deque = none ↔ deque.list.size = 0 := by
  rcases Nat.eq_zero_or_pos deque.list.size with h | h
  · have e : peekLastArrayDequeVal deque = none := by
      simp [peekLastArrayDequeVal, getLastArrayListVal, h]
    rw [e]
    exact ⟨fun _ => h, fun _ => rfl⟩
  · have e : peekLastArrayDequeVal deque = some (deque.list.vals.getD (deque.list.size - 1) none) :=
      (getLastArrayListVal_nonempty deque.list hwf h).2
    rw [e]
    exact ⟨fun hc => absurd hc (by simp), fun hc => by omega⟩

theorem setArrayListValAt_ok_iff (list : ArrayList) (index : Nat) (val : String) :
    (setArrayListValAt list index val).1 = false ↔ ¬ index < list.size := by
  unfold setArrayListValAt
  split
  · rename_i h
    exact ⟨fun hc => absurd hc (by simp), fun hc => absurd h hc⟩
  · rename_i h
    exact ⟨fun _ => h, fun _ => rfl⟩

theorem deleteArrayListValAt_false_iff (list : ArrayList) (index : Nat) :
    (deleteArrayListValAt list index).1 = false ↔ index ≥ list.size := by
  unfold deleteArrayListValAt
  split
  · rename_i h
    exact ⟨fun _ => h, fun _ => rfl⟩
  · rename_i h
    exact ⟨fun hc => absurd hc (by simp), fun hc => absurd hc h⟩

theorem setLast_false_iff (list : ArrayList) (val : String) (hwf : list.WF) :
    (setLastArrayListVal list val).1 = false ↔ list.size = 0 := by
  rcases Nat.eq_zero_or_pos list.size with h | h
  · simp [setLastArrayListVal, h]
  · obtain ⟨_, w2, w3, w4, _⟩ := hwf
    have hsub : subSizeT list.size 1 = list.size - 1 :=
      subSizeT_eq list.size 1 (by omega) (by omega)
    have hne : ¬ list.size = 0 := by omega
    simp only [setLastArrayListVal, if_neg hne, hsub]
    rw [setArrayListValAt_ok_iff]
    constructor
    · intro hc
      omega
    · intro hc
      omega

theorem deleteLast_false_iff (list : ArrayList) (hwf : list.WF) :
    (deleteLastArrayListVal list).1 = false ↔ list.size = 0 := by
  rcases Nat.eq_zero_or_pos list.size with h | h
  · rw [deleteLastArrayListVal_empty list h]
    exact ⟨fun _ => h, fun _ => rfl⟩
  · rw [deleteLastArrayListVal_nonempty list hwf h]
    exact ⟨fun hc => absurd hc (by simp), fun hc => by omega⟩

/-- C24: on a deque whose backing list is well-formed, each of
`peekFirst`, `peekLast`, `pokeFirst`, `pokeLast` (with a present value),
`dropFirst`, `dropLast`, `deleteFirst` and `deleteLast` returns failure iff
the deque has zero elements. -/
theorem deque_ops_fail_iff_empty (deque : ArrayDeque) (val : String) (hwf : deque.list.WF) :
    ((peekFirstArrayDequeVal deque).isSome = false ↔ arrayDequeSize deque = 0) ∧
    ((peekLastArrayDequeVal deque).isSome = false ↔ arrayDequeSize deque = 0) ∧
    ((pokeFirstArrayDequeVal deque val).1 = false ↔ arrayDequeSize deque = 0) ∧
    ((pokeLastArrayDequeVal deque val).1 = false ↔ arrayDequeSize deque = 0) ∧
    ((dropFirstArrayDequeVal deque).1 = false ↔ arrayDequeSize deque = 0) ∧
    ((dropLastArrayDequeVal deque).1 = false ↔ arrayDequeSize deque = 0) ∧
    ((deleteFirstArrayDequeVal deque).1.isSome = false ↔ arrayDequeSize deque = 0) ∧
    ((deleteLastArrayDequeVal deque).1.isSome = false ↔ arrayDequeSize deque = 0) := by
  have hf := peekFirst_none_iff deque
  have hl := peekLast_none_iff deque hwf
  have hsz : arrayDequeSize deque = deque.list.size := rfl
  rw [hsz]
  refine ⟨?_, ?_, ?_, ?_, ?_, ?_, ?_, ?_⟩
  · rw [← hf]
    cases peekFirstArrayDequeVal deque <;> simp
  · rw [← hl]
    cases peekLastArrayDequeVal deque <;> simp
  · show (setArrayListValAt deque.list 0 val).1 = false ↔ _
    rw [setArrayListValAt_ok_iff]
    omega
  · exact setLast_false_iff deque.list val hwf
  · show (deleteArrayListValAt deque.list 0).1 = false ↔ _
    rw [deleteArrayListValAt_false_iff]
    omega
  · exact deleteLast_false_iff deque.list hwf
  · unfold deleteFirstArrayDequeVal
    cases hp : peekFirstArrayDequeVal deque with
    | none => exact ⟨fun _ => hf.1 hp, fun _ => rfl⟩
    | some v =>
      refine ⟨fun hc => absurd hc (by simp), fun hc => ?_⟩
      rw [hf.2 hc] at hp
      exact absurd hp (by simp)
  · unfold deleteLastArrayDequeVal
    cases hp : peekLastArrayDequeVal deque with
    | none => exact ⟨fun _ => hl.1 hp, fun _ => rfl⟩
    | some v =>
      refine ⟨fun hc => absurd hc (by simp), fun hc => ?_⟩
      rw [hl.2 hc] at hp
      exact absurd hp (by simp)

/-- Witness for C24 on `exampleRoundTripDeque` (three elements): `peekLast`
succeeds. -/
theorem deque_ops_fail_iff_empty_witness :
    exampleRoundTripDeque.list.WF ∧
    peekLastArrayDequeVal exampleRoundTripDeque = some (some "B") ∧
    ((peekLastArrayDequeVal exampleRoundTripDeque).isSome = false ↔
      arrayDequeSize exampleRoundTripDeque = 0) :=
  ⟨by decide, by decide,
    (deque_ops_fail_iff_empty exampleRoundTripDeque "Z" (by decide)).2.1⟩

/-! ## Delete is peek followed by drop; the alias operations -/

theorem deleteFirstArrayDequeVal_eq (deque : ArrayDeque) :
    (deleteFirstArrayDequeVal deque).1 = peekFirstArrayDequeVal deque ∧
    (deleteFirstArrayDequeVal deque).2 = (dropFirstArrayDequeVal deque).2 := by
  unfold deleteFirstArrayDequeVal
  cases hp : peekFirstArrayDequeVal deque with
  | none =>
    refine ⟨rfl, ?_⟩
    have h0 := (peekFirst_none_iff deque).1 hp
    have hd : (dropFirstArrayDequeVal deque).1 = false := by
      show (deleteArrayListValAt deque.list 0).1 = false
      rw [deleteArrayListValAt_false_iff]
      omega
    exact (dropFirstArrayDequeVal_fail_unchanged deque hd).symm
  | some v => exact ⟨rfl, rfl⟩

theorem deleteLastArrayDequeVal_eq (deque : ArrayDeque) (hwf : deque.list.WF) :
    (deleteLastArrayDequeVal deque).1 = peekLastArrayDequeVal deque ∧
    (deleteLastArrayDequeVal deque).2 = (dropLastArrayDequeVal deque).2 := by
  unfold deleteLastArrayDequeVal
  cases hp : peekLastArrayDequeVal deque with
  | none =>
    refine ⟨rfl, ?_⟩
    have h0 := (peekLast_none_iff deque hwf).1 hp
    have hd : (dropLastArrayDequeVal deque).1 = false := by
      show (deleteLastArrayListVal deque.list).1 = false
      rw [deleteLastArrayListVal_empty deque.list h0]
    exact (dropLastArrayDequeVal_fail_unchanged deque hd).symm
  | some v => exact ⟨rfl, rfl⟩

/-- C22: on a deque whose backing list is well-formed, each of
`deleteFirstArrayDequeVal`, `dequeueArrayDequeVal` (front end),
`deleteLastArrayDequeVal` and `popArrayDequeVal` (back end) fails exactly when
the deque is empty; the value it returns is the value `peekFirst` (front) or
`peekLast` (back) returns on the state before the call, and the deque it leaves
is the deque `dropFirst` (front) or `dropLast` (back) leaves. -/
theorem delete_is_peek_then_drop (deque : ArrayDeque) (hwf : deque.list.WF) :
    (((deleteFirstArrayDequeVal deque).1.isSome = false ↔ arrayDequeSize deque = 0) ∧
      (deleteFirstArrayDequeVal deque).1 = peekFirstArrayDequeVal deque ∧
      (deleteFirstArrayDequeVal deque).2 = (dropFirstArrayDequeVal deque).2) ∧
    (((dequeueArrayDequeVal deque).1.isSome = false ↔ arrayDequeSize deque = 0) ∧
      (dequeueArrayDequeVal deque).1 = peekFirstArrayDequeVal deque ∧
      (dequeueArrayDequeVal deque).2 = (dropFirstArrayDequeVal deque).2) ∧
    (((deleteLastArrayDequeVal deque).1.isSome = false ↔ arrayDequeSize deque = 0) ∧
      (deleteLastArrayDequeVal deque).1 = peekLastArrayDequeVal deque ∧
      (deleteLastArrayDequeVal deque).2 = (dropLastArrayDequeVal deque).2) ∧
    (((popArrayDequeVal deque).1.isSome = false ↔ arrayDequeSize deque = 0) ∧
      (popArrayDequeVal deque).1 = peekLastArrayDequeVal deque ∧
      (popArrayDequeVal deque).2 = (dropLastArrayDequeVal deque).2) := by
  obtain ⟨f1, f2⟩ := deleteFirstArrayDequeVal_eq deque
  obtain ⟨l1, l2⟩ := deleteLastArrayDequeVal_eq deque hwf
  have hf : (peekFirstArrayDequeVal deque).isSome = false ↔ arrayDequeSize deque = 0 := by
    show _ ↔ deque.list.size = 0
    rw [← peekFirst_none_iff deque]
    cases peekFirstArrayDequeVal deque <;> simp
  have hl : (peekLastArrayDequeVal deque).isSome = false ↔ arrayDequeSize deque = 0 := by
    show _ ↔ deque.list.size = 0
    rw [← peekLast_none_iff deque hwf]
    cases peekLastArrayDequeVal deque <;> simp
  have ed : dequeueArrayDequeVal deque = deleteFirstArrayDequeVal deque := rfl
  have ep : popArrayDequeVal deque = deleteLastArrayDequeVal deque := rfl
  rw [ed, ep, f1, l1]
  exact ⟨⟨hf, rfl, f2⟩, ⟨hf, rfl, f2⟩, ⟨hl, rfl, l2⟩, ⟨hl, rfl, l2⟩⟩

/-- Witness for C22 on `exampleRoundTripDeque` (contents `"C"`, `"A"`, `"B"`):
`popArrayDequeVal` returns `"B"` and leaves `"C"`, `"A"`. -/
theorem delete_is_peek_then_drop_witness :
    exampleRoundTripDeque.list.WF ∧
    (popArrayDequeVal exampleRoundTripDeque).1 = some (some "B") ∧
    (popArrayDequeVal exampleRoundTripDeque).2.contents = [some "C", some "A"] ∧
    (((popArrayDequeVal exampleRoundTripDeque).1.isSome = false ↔
        arrayDequeSize exampleRoundTripDeque = 0) ∧
      (popArrayDequeVal exampleRoundTripDeque).1 = peekLastArrayDequeVal exampleRoundTripDeque ∧
      (popArrayDequeVal exampleRoundTripDeque).2 =
        (dropLastArrayDequeVal exampleRoundTripDeque).2) :=
  ⟨by decide, by decide, by decide,
    (delete_is_peek_then_drop exampleRoundTripDeque (by decide)).2.2.2⟩

/-- C23: for every deque state and argument each alias operation returns the
same result and the same deque as its base operation: enqueue = push = addLast,
peekHead = peekFirst, peekTop = peekLast, pokeHead = pokeFirst,
pokeTop = pokeLast, dequeue = deleteFirst, pop = deleteLast,
dropHead = dropFirst, dropTop = dropLast. -/
theorem alias_operations (r : Bool) (deque : ArrayDeque) (val : String) :
    enqueueArrayDequeVal r deque val = addLastArrayDequeVal r deque val ∧
    pushArrayDequeVal r deque val = addLastArrayDequeVal r deque val ∧
    enqueueArrayDequeVal r deque val = pushArrayDequeVal r deque val ∧
    peekHeadArrayDequeVal deque = peekFirstArrayDequeVal deque ∧
    peekTopArrayDequeVal deque = peekLastArrayDequeVal deque ∧
    pokeHeadArrayDequeVal deque val = pokeFirstArrayDequeVal deque val ∧
    pokeTopArrayDequeVal deque val = pokeLastArrayDequeVal deque val ∧
    dequeueArrayDequeVal deque = deleteFirstArrayDequeVal deque ∧
    popArrayDequeVal deque = deleteLastArrayDequeVal deque ∧
    dropHeadArrayDequeVal deque = dropFirstArrayDequeVal deque ∧
    dropTopArrayDequeVal deque = dropLastArrayDequeVal deque :=
  ⟨rfl, rfl, rfl, rfl, rfl, rfl, rfl, rfl, rfl, rfl, rfl⟩

/-! ## Push and pop in explicit form -/

theorem shiftUp_self (index : Nat) (vals : List (Option String)) :
    shiftUp index index vals = vals := by
  cases index with
  | zero => rfl
  | succ i =>
    rw [shiftUp, if_neg (by omega)]

theorem addLastPtr_explicit (r : Bool) (list : ArrayList) (val : Option String)
    (hwf : list.WF) (hroom : list.size < list.capacity) :
    addArrayListValAtPtr r list list.size val =
      (true, { list with vals := list.vals.set list.size val, size := list.size + 1 }) := by
  obtain ⟨_, _, w3, w4, _⟩ := hwf
  have hne : list.size ≠ list.capacity := by omega
  have hadd : addSizeT list.size 1 = list.size + 1 := addSizeT_one _ (by omega)
  have hlt : list.size < list.size + 1 := by omega
  unfold addArrayListValAtPtr
  rw [if_neg (by omega), ensureArrayCapacity_room r list hne]
  simp only [setArrayListValAtPtr, hadd, if_pos hlt, shiftUp_self, List.set_set, strdup]

theorem popArrayDequeVal_explicit (deque : ArrayDeque) (hwf : deque.list.WF)
    (h : 0 < deque.list.size) :
    popArrayDequeVal deque =
      (some (deque.list.vals.getD (deque.list.size - 1) none),
        { list := { deque.list with
                      vals := deque.list.vals.set (deque.list.size - 1) none
                      size := deque.list.size - 1 } }) := by
  have hp : peekTopArrayDequeVal deque =
      some (deque.list.vals.getD (deque.list.size - 1) none) :=
    (getLastArrayListVal_nonempty deque.list hwf h).2
  have hd : (dropTopArrayDequeVal deque).2 =
      { list := { deque.list with
                    vals := deque.list.vals.set (deque.list.size - 1) none
                    size := deque.list.size - 1 } } := by
    show ({ list := (deleteLastArrayListVal deque.list).2 } : ArrayDeque) = _
    rw [deleteLastArrayListVal_nonempty deque.list hwf h]
  unfold popArrayDequeVal
  rw [hp]
  simp only [hd, strdup]

theorem deleteLast_WF_explicit (list : ArrayList) (hwf : list.WF) (h : 0 < list.size) :
    ({ list with vals := list.vals.set (list.size - 1) none
                 size := list.size - 1 } : ArrayList).WF := by
  have hw := (deleteLastArrayListVal_WF list hwf).1
  rw [deleteLastArrayListVal_nonempty list hwf h] at hw
  exact hw

theorem addLast_WF_explicit (list : ArrayList) (val : Option String) (hwf : list.WF)
    (hroom : list.size < list.capacity) :
    ({ list with vals := list.vals.set list.size val, size := list.size + 1 } : ArrayList).WF := by
  obtain ⟨w1, w2, w3, w4, w5⟩ := hwf
  refine ⟨?_, ?_, w3, w4, w5⟩
  · show (list.vals.set list.size val).length = list.capacity
    rw [List.length_set, w1]
  · show list.size + 1 ≤ list.capacity
    omega

theorem swap_vals (vals : List (Option String)) (n : Nat) (v1 v2 : Option String)
    (hn : 2 ≤ n) :
    (((vals.set (n - 1) none).set (n - 1 - 1) none).set (n - 1 - 1) v1).set (n - 1 - 1 + 1) v2 =
      (vals.set (n - 2) v1).set (n - 1) v2 := by
  have hn1 : n - 1 - 1 = n - 2 := by omega
  have hn2 : n - 2 + 1 = n - 1 := by omega
  rw [hn1, hn2, List.set_set, List.set_comm none v1 vals (by omega : n - 1 ≠ n - 2),
    List.set_set]

theorem swapTopArrayDequeVal_explicit (r1 r2 : Bool) (deque : ArrayDeque)
    (hwf : deque.list.WF) (h : 2 ≤ deque.list.size) :
    swapTopArrayDequeVal r1 r2 deque =
      (true, { list := { deque.list with
                 vals := (deque.list.vals.set (deque.list.size - 2)
                     (deque.list.vals.getD (deque.list.size - 1) none)).set
                   (deque.list.size - 1) (deque.list.vals.getD (deque.list.size - 2) none) } }) := by
  obtain ⟨⟨vals, size, capacity, maxCapacity⟩⟩ := deque
  simp only at hwf h ⊢
  have hw := hwf
  obtain ⟨w1, w2, w3, w4, w5⟩ := hw
  simp only at w1 w2 w3 w4 w5
  have hsz : arrayDequeSize ⟨⟨vals, size, capacity, maxCapacity⟩⟩ ≥ 2 := h
  have hwf1 : (⟨vals.set (size - 1) none, size - 1, capacity, maxCapacity⟩ : ArrayList).WF :=
    deleteLast_WF_explicit ⟨vals, size, capacity, maxCapacity⟩ hwf (by show 0 < size; omega)
  have hwf2 : (⟨(vals.set (size - 1) none).set (size - 1 - 1) none, size - 1 - 1, capacity,
      maxCapacity⟩ : ArrayList).WF :=
    deleteLast_WF_explicit ⟨vals.set (size - 1) none, size - 1, capacity, maxCapacity⟩ hwf1
      (by show 0 < size - 1; omega)
  have e1 : popArrayDequeVal ⟨⟨vals, size, capacity, maxCapacity⟩⟩ =
      (some (vals.getD (size - 1) none),
        ⟨⟨vals.set (size - 1) none, size - 1, capacity, maxCapacity⟩⟩) :=
    popArrayDequeVal_explicit ⟨⟨vals, size, capacity, maxCapacity⟩⟩ hwf
      (by show 0 < size; omega)
  have e2 : popArrayDequeVal ⟨⟨vals.set (size - 1) none, size - 1, capacity, maxCapacity⟩⟩ =
      (some ((vals.set (size - 1) none).getD (size - 1 - 1) none),
        ⟨⟨(vals.set (size - 1) none).set (size - 1 - 1) none, size - 1 - 1, capacity,
          maxCapacity⟩⟩) :=
    popArrayDequeVal_explicit ⟨⟨vals.set (size - 1) none, size - 1, capacity, maxCapacity⟩⟩
      hwf1 (by show 0 < size - 1; omega)
  have e3 : addArrayListValAtPtr r1
      ⟨(vals.set (size - 1) none).set (size - 1 - 1) none, size - 1 - 1, capacity, maxCapacity⟩
      (size - 1 - 1) (vals.getD (size - 1) none) =
      (true, ⟨((vals.set (size - 1) none).set (size - 1 - 1) none).set (size - 1 - 1)
        (vals.getD (size - 1) none), size - 1 - 1 + 1, capacity, maxCapacity⟩) :=
    addLastPtr_explicit r1 _ (vals.getD (size - 1) none) hwf2
      (by show size - 1 - 1 < capacity; omega)
  have hwf3 : (⟨((vals.set (size - 1) none).set (size - 1 - 1) none).set (size - 1 - 1)
        (vals.getD (size - 1) none), size - 1 - 1 + 1, capacity, maxCapacity⟩ : ArrayList).WF :=
    addLast_WF_explicit _ (vals.getD (size - 1) none) hwf2
      (by show size - 1 - 1 < capacity; omega)
  have e4 : addArrayListValAtPtr r2
      ⟨((vals.set (size - 1) none).set (size - 1 - 1) none).set (size - 1 - 1)
        (vals.getD (size - 1) none), size - 1 - 1 + 1, capacity, maxCapacity⟩
      (size - 1 - 1 + 1) ((vals.set (size - 1) none).getD (size - 1 - 1) none) =
      (true, ⟨(((vals.set (size - 1) none).set (size - 1 - 1) none).set (size - 1 - 1)
        (vals.getD (size - 1) none)).set (size - 1 - 1 + 1)
          ((vals.set (size - 1) none).getD (size - 1 - 1) none),
        size - 1 - 1 + 1 + 1, capacity, maxCapacity⟩) :=
    addLastPtr_explicit r2 _ ((vals.set (size - 1) none).getD (size - 1 - 1) none) hwf3
      (by show size - 1 - 1 + 1 < capacity; omega)
  have hg : (vals.set (size - 1) none).getD (size - 1 - 1) none = vals.getD (size - 2) none := by
    have hn1 : size - 1 - 1 = size - 2 := by omega
    rw [hn1, List.getD_eq_getElem?_getD, List.getElem?_set, if_neg (by omega),
      ← List.getD_eq_getElem?_getD]
  have hsize : size - 1 - 1 + 1 + 1 = size := by omega
  unfold swapTopArrayDequeVal
  rw [if_pos hsz]
  simp only [e1, e2, Option.getD_some, pushArrayDequeValPtr, addLastArrayDequeValPtr,
    addLastArrayListValPtr, e3, e4]
  rw [swap_vals vals size _ _ h, hg, hsize]

theorem swap_last_two (ys : List (Option String)) (a b : Option String) :
    ((ys ++ [a, b]).set ys.length b).set (ys.length + 1) a = ys ++ [b, a] := by
  induction ys with
  | nil => rfl
  | cons y ys ih => simp [ih]

theorem last_two_present (list : ArrayList) (hs : list.SlotsOk) (ys : List (Option String))
    (a b : Option String) (h : list.contents = ys ++ [a, b]) :
    ∃ sa sb : String, a = some sa ∧ b = some sb := by
  have ha := hs.1 a (by rw [h]; simp)
  have hb := hs.1 b (by rw [h]; simp)
  rw [Option.isSome_iff_exists] at ha hb
  obtain ⟨sa, hsa⟩ := ha
  obtain ⟨sb, hsb⟩ := hb
  exact ⟨sa, sb, hsa, hsb⟩

/-- C25: on a deque whose backing list is well-formed and satisfies the slot
invariant, `swapTopArrayDequeVal` fails iff the deque has fewer than two
elements, and then returns the deque unchanged; with two or more elements it
succeeds whatever `realloc` would return, so also on a full deque, and the
result is the in-place exchange of the last two slots: contents `ys ++ [a, b]`
become `ys ++ [b, a]`, and size, capacity and maxCapacity are unchanged. -/
theorem swapTop_exchanges (r1 r2 : Bool) (deque : ArrayDeque) (hwf : deque.list.WF)
    (hs : deque.list.SlotsOk) :
    ((swapTopArrayDequeVal r1 r2 deque).1 = false ↔ arrayDequeSize deque < 2) ∧
    ((swapTopArrayDequeVal r1 r2 deque).1 = false →
      (swapTopArrayDequeVal r1 r2 deque).2 = deque) ∧
    (2 ≤ arrayDequeSize deque →
      (swapTopArrayDequeVal r1 r2 deque).1 = true ∧
      (∀ (ys : List (Option String)) (a b : Option String),
        deque.contents = ys ++ [a, b] →
        (swapTopArrayDequeVal r1 r2 deque).2.contents = ys ++ [b, a] ∧
        ∃ sa sb : String, a = some sa ∧ b = some sb) ∧
      (swapTopArrayDequeVal r1 r2 deque).2.list.vals =
        (deque.list.vals.set (deque.list.size - 2)
          (deque.list.vals.getD (deque.list.size - 1) none)).set
          (deque.list.size - 1) (deque.list.vals.getD (deque.list.size - 2) none) ∧
      arrayDequeSize (swapTopArrayDequeVal r1 r2 deque).2 = arrayDequeSize deque ∧
      (swapTopArrayDequeVal r1 r2 deque).2.list.capacity = deque.list.capacity ∧
      (swapTopArrayDequeVal r1 r2 deque).2.list.maxCapacity = deque.list.maxCapacity) := by
  have hsz : arrayDequeSize deque = deque.list.size := rfl
  rw [hsz]
  refine ⟨?_, swapTopArrayDequeVal_fail_unchanged r1 r2 deque, ?_⟩
  · by_cases h2 : 2 ≤ deque.list.size
    · rw [swapTopArrayDequeVal_explicit r1 r2 deque hwf h2]
      exact ⟨fun hc => absurd hc (by simp), fun hc => by omega⟩
    · have hn : ¬ arrayDequeSize deque ≥ 2 := h2
      have e : swapTopArrayDequeVal r1 r2 deque = (false, deque) := by
        unfold swapTopArrayDequeVal
        simp only [hn, if_false]
      rw [e]
      exact ⟨fun _ => by omega, fun _ => rfl⟩
  · intro h2
    rw [swapTopArrayDequeVal_explicit r1 r2 deque hwf h2]
    refine ⟨rfl, ?_, rfl, rfl, rfl, rfl⟩
    intro ys a b hc
    refine ⟨?_, last_two_present deque.list hs ys a b hc⟩
    have hlen := contents_length deque.list hwf
    have hc2 : deque.list.contents = ys ++ [a, b] := hc
    have hn : deque.list.size = ys.length + 2 := by
      rw [← hlen, hc2]
      simp
    have hv1 : deque.list.vals.getD (deque.list.size - 1) none = b := by
      have h1 := contents_getElem? deque.list hwf (deque.list.size - 1) (by omega)
      rw [hc2, hn] at h1
      have h3 : (ys ++ [a, b])[ys.length + 2 - 1]? = some b := by
        rw [List.getElem?_append_right (by omega)]
        have : ys.length + 2 - 1 - ys.length = 1 := by omega
        rw [this]
        rfl
      rw [h3] at h1
      rw [hn]
      exact (Option.some.inj h1).symm
    have hv2 : deque.list.vals.getD (deque.list.size - 2) none = a := by
      have h1 := contents_getElem? deque.list hwf (deque.list.size - 2) (by omega)
      rw [hc2, hn] at h1
      have h3 : (ys ++ [a, b])[ys.length + 2 - 2]? = some a := by
        rw [List.getElem?_append_right (by omega)]
        have : ys.length + 2 - 2 - ys.length = 0 := by omega
        rw [this]
        rfl
      rw [h3] at h1
      rw [hn]
      exact (Option.some.inj h1).symm
    show List.take deque.list.size ((deque.list.vals.set (deque.list.size - 2)
      (deque.list.vals.getD (deque.list.size - 1) none)).set (deque.list.size - 1)
      (deque.list.vals.getD (deque.list.size - 2) none)) = ys ++ [b, a]
    rw [List.set_take, List.set_take, hv1, hv2]
    have hc3 : List.take deque.list.size deque.list.vals = ys ++ [a, b] := hc2
    rw [hc3, hn]
    have e1 : ys.length + 2 - 2 = ys.length := by omega
    have e2 : ys.length + 2 - 1 = ys.length + 1 := by omega
    rw [e1, e2]
    exact swap_last_two ys a b

/-- Witness for C25 on `exampleMaxedDeque` (contents `"a"`, `"b"`, size =
capacity = maxCapacity = 2) with `realloc` failing: the swap succeeds and gives
`"b"`, `"a"`. -/
theorem swapTop_exchanges_witness :
    exampleMaxedDeque.list.WF ∧ exampleMaxedDeque.list.SlotsOk ∧
    exampleMaxedDeque.list.size = exampleMaxedDeque.list.maxCapacity ∧
    swapTopArrayDequeVal false false exampleMaxedDeque =
      (true, { list := { vals := [some "b", some "a"], size := 2, capacity := 2,
                         maxCapacity := 2 } }) ∧
    ((swapTopArrayDequeVal false false exampleMaxedDeque).1 = false ↔
      arrayDequeSize exampleMaxedDeque < 2) :=
  ⟨by decide, by decide, by decide, by decide,
    (swapTop_exchanges false false exampleMaxedDeque (by decide) (by decide)).1⟩

/-! ## Reachable deques -/

/-- C29, the claim as stated fails: the queue reached from `newMPQ 1` by an
enqueue at `high` and an enqueue at `low` holds two messages, more than the
maximum capacity 1 given at creation. -/
theorem total_exceeds_maxCapacity :
    exampleTwoLevelQueue.Reachable 1 ∧ exampleTwoLevelQueue.maxCapacity = 1 ∧
    messageSizeMPQ exampleTwoLevelQueue = 2 ∧
    ¬ messageSizeMPQ exampleTwoLevelQueue ≤ 1 :=
  ⟨⟨_, rfl⟩, by decide, by decide, by decide⟩

theorem dequeueLoop_maxCapacity (ps : List Priority) (queue : MessagePriorityQueue) :
    (dequeueLoop ps queue).2.maxCapacity = queue.maxCapacity := by
  induction ps generalizing queue with
  | nil => rfl
  | cons p ps ih =>
    rw [dequeueLoop]
    split
    · rfl
    · rw [ih]
      rfl

theorem applyMPQOp_maxCapacity (op : MPQOp) (queue : MessagePriorityQueue) :
    (applyMPQOp op queue).2.maxCapacity = queue.maxCapacity := by
  cases op with
  | enqueue r message p => rfl
  | dequeue => exact dequeueLoop_maxCapacity priorityScan queue
  | peek => rfl

theorem runMPQOps_maxCapacity (ops : List MPQOp) (queue : MessagePriorityQueue) :
    (runMPQOps ops queue).maxCapacity = queue.maxCapacity := by
  induction ops generalizing queue with
  | nil => rfl
  | cons op ops ih =>
    have h1 : runMPQOps (op :: ops) queue = runMPQOps ops (applyMPQOp op queue).2 := rfl
    rw [h1, ih, applyMPQOp_maxCapacity]

/-- C29 as amended: in every queue reachable from `newMPQ m` (with `m` a
`size_t` value) the field `maxCapacity` is `m`, each level holds at most `m`
messages, and `messageSizeMPQ` is at most `4 * m`. -/
theorem level_bounded_by_maxCapacity (m : Nat) (queue : MessagePriorityQueue)
    (hm : m ≤ SIZE_MAX) (hr : queue.Reachable m) :
    queue.maxCapacity = m ∧
    (∀ p : Priority, messageSizeForPriorityMPQ queue p ≤ m) ∧
    messageSizeMPQ queue ≤ 4 * m := by
  have hinv := hr.inv hm
  have hlevel : ∀ p : Priority, messageSizeForPriorityMPQ queue p ≤ m := by
    intro p
    obtain ⟨⟨_, w2, w3, _, _⟩, hmax⟩ := hinv p
    show (queue.msgQueues p).list.size ≤ m
    omega
  refine ⟨?_, hlevel, ?_⟩
  · obtain ⟨ops, rfl⟩ := hr
    exact runMPQOps_maxCapacity ops (newMPQ m)
  · have hmod : messageSizeMPQ queue = levelSizeSum queue % 2 ^ 64 := by
      unfold messageSizeMPQ levelSizeSum messageSizeForPriorityMPQ addSizeT
      simp only [Nat.add_mod, Nat.mod_mod]
    have hle : levelSizeSum queue % 2 ^ 64 ≤ levelSizeSum queue := Nat.mod_le _ _
    have h0 := hlevel .highest
    have h1 := hlevel .high
    have h2 := hlevel .low
    have h3 := hlevel .lowest
    have hsum : levelSizeSum queue ≤ 4 * m := by
      unfold levelSizeSum
      omega
    omega

/-- Witness for C29 as amended on `exampleTwoLevelQueue`. -/
theorem level_bounded_by_maxCapacity_witness :
    1 ≤ SIZE_MAX ∧ exampleTwoLevelQueue.Reachable 1 ∧
    messageSizeForPriorityMPQ exampleTwoLevelQueue .high = 1 ∧
    (exampleTwoLevelQueue.maxCapacity = 1 ∧
      (∀ p : Priority, messageSizeForPriorityMPQ exampleTwoLevelQueue p ≤ 1) ∧
      messageSizeMPQ exampleTwoLevelQueue ≤ 4 * 1) :=
  ⟨by decide, ⟨_, rfl⟩, by decide,
    level_bounded_by_maxCapacity 1 exampleTwoLevelQueue (by decide) ⟨_, rfl⟩⟩

/-! ## Destroying the queue -/

/-- C30, the code on any queue: `deleteMPQ` passes only the deque of `highest`
to `deleteArrayDeque`; the deques of `high`, `low` and `lowest` are not
destroyed, the array `msgQueues` is not freed, and the queue struct is. -/
theorem deleteMPQ_releases_only_highest (queue : MessagePriorityQueue) :
    (deleteMPQ queue).deques = [.highest] ∧
    Priority.high ∉ (deleteMPQ queue).deques ∧
    Priority.low ∉ (deleteMPQ queue).deques ∧
    Priority.lowest ∉ (deleteMPQ queue).deques ∧
    (deleteMPQ queue).msgQueuesArray = false ∧
    (deleteMPQ queue).queueStruct = true := by
  refine ⟨rfl, ?_, ?_, ?_, rfl, rfl⟩ <;> simp [deleteMPQ, priorityOfIndex]

/-! ## The capacity after a run of appends -/

theorem addLast_step_capacity (r : Bool) (list : ArrayList) (val : String) (hwf : list.WF)
    (hok : (addArrayListValAt r list list.size val).1 = true) :
    (addArrayListValAt r list list.size val).2.WF ∧
    (addArrayListValAt r list list.size val).2.maxCapacity = list.maxCapacity ∧
    (addArrayListValAt r list list.size val).2.size = list.size + 1 ∧
    (addArrayListValAt r list list.size val).2.capacity =
      (if list.size = list.capacity then min (2 * list.capacity) list.maxCapacity
       else list.capacity) ∧
    (list.size = list.capacity → list.capacity < list.maxCapacity) := by
  have hens := addArrayListValAt_ok_ensure r list list.size val hok
  obtain ⟨_, a2, a3, a4, _, a6⟩ :=
    addArrayListValAt_spec r list list.size val hwf (Nat.le_refl _) hens
  have hc := ensureArrayCapacity_capacity r list hwf hens
  refine ⟨a6, a4, a2, a3.trans hc, ?_⟩
  intro hfull
  have := (ensureArrayCapacity_ok_iff r list).1 hens
  have hw3 := hwf.2.2.1
  rcases this with h1 | ⟨h1, _⟩
  · exact absurd hfull h1
  · omega

theorem addLastAll_capacity (m : Nat) (es : List (Bool × String)) (list list1 : ArrayList)
    (hwf : list.WF) (hmax : list.maxCapacity = m)
    (hq : ∃ k : Nat, 1 ≤ k ∧ list.capacity = min m (2 ^ k) ∧ list.size ≤ 2 ^ k ∧
      (k = 1 ∨ 2 ^ k < 2 * list.size))
    (hall : addLastAll es list = some list1) :
    list1.WF ∧ list1.maxCapacity = m ∧ list1.size = list.size + es.length ∧
    ∃ k : Nat, 1 ≤ k ∧ list1.capacity = min m (2 ^ k) ∧ list1.size ≤ 2 ^ k ∧
      (k = 1 ∨ 2 ^ k < 2 * list1.size) := by
  induction es generalizing list with
  | nil =>
    simp only [addLastAll, Option.some.injEq] at hall
    subst hall
    exact ⟨hwf, hmax, rfl, hq⟩
  | cons e es ih =>
    obtain ⟨r, val⟩ := e
    rw [addLastAll] at hall
    cases hres : (addLastArrayListVal r list val).1
    · have e1 : addLastArrayListVal r list val = (false, (addLastArrayListVal r list val).2) :=
        Prod.ext hres rfl
      rw [e1] at hall
      exact absurd hall (by simp)
    · have e1 : addLastArrayListVal r list val = (true, (addLastArrayListVal r list val).2) :=
        Prod.ext hres rfl
      rw [e1] at hall
      have hok : (addArrayListValAt r list list.size val).1 = true := hres
      obtain ⟨s1, s2, s3, s4, s5⟩ := addLast_step_capacity r list val hwf hok
      obtain ⟨k, hk1, hk2, hk3, hk4⟩ := hq
      have hw2 := hwf.2.1
      have hpow : 2 ^ (k + 1) = 2 * 2 ^ k := by rw [Nat.pow_succ]; omega
      have hk2le : 2 ≤ 2 ^ k := by
        calc 2 = 2 ^ 1 := rfl
          _ ≤ 2 ^ k := Nat.pow_le_pow_right (by decide) hk1
      have hq1 : ∃ k1 : Nat, 1 ≤ k1 ∧
          (addArrayListValAt r list list.size val).2.capacity = min m (2 ^ k1) ∧
          (addArrayListValAt r list list.size val).2.size ≤ 2 ^ k1 ∧
          (k1 = 1 ∨ 2 ^ k1 < 2 * (addArrayListValAt r list list.size val).2.size) := by
        rw [s3, s4]
        by_cases hfull : list.size = list.capacity
        · have hlt := s5 hfull
          rw [if_pos hfull]
          refine ⟨k + 1, by omega, ?_, ?_, Or.inr ?_⟩
          · rw [hpow, hmax, hk2]
            omega
          · rw [hpow]
            omega
          · rw [hpow]
            omega
        · rw [if_neg hfull]
          refine ⟨k, hk1, hk2, ?_, ?_⟩
          · omega
          · rcases hk4 with h | h
            · exact Or.inl h
            · exact Or.inr (by omega)
      obtain ⟨i1, i2, i3, i4⟩ := ih (addArrayListValAt r list list.size val).2 s1
        (s2.trans hmax) hq1 hall
      refine ⟨i1, i2, ?_, i4⟩
      rw [i3, s3, List.length_cons]
      omega

theorem pow2_unique_in_range (n k j : Nat) (hk : 2 ^ k < 2 * n) (hj : n ≤ 2 ^ j) :
    2 ^ k ≤ 2 ^ j := by
  have h1 : 2 ^ k < 2 ^ (j + 1) := by
    have : 2 ^ (j + 1) = 2 * 2 ^ j := by rw [Nat.pow_succ]; omega
    omega
  have h2 : k < j + 1 := (Nat.pow_lt_pow_iff_right (by decide)).1 h1
  exact Nat.pow_le_pow_right (by decide) (by omega)

/-- C28: for every `size_t` value `m`, `newArrayList m` has size 0 and capacity
`min m 2`; and when `n` calls of `addLastArrayListVal` in a row on it all
succeed, `n ≤ m`, the size is `n`, and the capacity is `min m 2` if `n ≤ 2`
and `min m P` otherwise, for `P` the smallest power of two with `n ≤ P`. -/
theorem capacity_after_appends (m : Nat) (hm : m ≤ SIZE_MAX) :
    (newArrayList m).size = 0 ∧ (newArrayList m).capacity = min m 2 ∧
    ∀ (es : List (Bool × String)) (list : ArrayList),
      addLastAll es (newArrayList m) = some list →
      es.length ≤ m ∧ list.size = es.length ∧
      (es.length ≤ 2 → list.capacity = min m 2) ∧
      (2 < es.length → ∀ P : Nat, IsSmallestPow2GE es.length P →
        list.capacity = min m P) := by
  have hcap : (newArrayList m).capacity = min m 2 := by
    show (if m < 2 then m else 2) = min m 2
    split <;> omega
  refine ⟨rfl, hcap, ?_⟩
  intro es list hall
  have hq0 : ∃ k : Nat, 1 ≤ k ∧ (newArrayList m).capacity = min m (2 ^ k) ∧
      (newArrayList m).size ≤ 2 ^ k ∧ (k = 1 ∨ 2 ^ k < 2 * (newArrayList m).size) :=
    ⟨1, Nat.le_refl _, hcap, Nat.zero_le _, Or.inl rfl⟩
  obtain ⟨hwf, hmax, hsize, k, hk1, hk2, hk3, hk4⟩ :=
    addLastAll_capacity m es (newArrayList m) list (newArrayList_WF m hm) rfl hq0 hall
  have hsize2 : list.size = es.length := by
    rw [hsize]
    show 0 + es.length = es.length
    omega
  obtain ⟨_, w2, w3, _, _⟩ := hwf
  rw [hsize2] at hk3 hk4
  refine ⟨by omega, hsize2, ?_, ?_⟩
  · intro hn
    have hk : k = 1 := by
      rcases hk4 with h | h
      · exact h
      · have h4 : 2 ^ k < 2 ^ 2 := by
          have : (2 : Nat) ^ 2 = 4 := rfl
          omega
        have := (Nat.pow_lt_pow_iff_right (by decide)).1 h4
        omega
    rw [hk2, hk, Nat.pow_one]
  · intro hn P hP
    obtain ⟨⟨j, hj⟩, hP2, hP3⟩ := hP
    have hkn : 2 ^ k < 2 * es.length := by
      rcases hk4 with h | h
      · rw [h] at hk3
        have : (2 : Nat) ^ 1 = 2 := rfl
        omega
      · exact h
    have h1 : P ≤ 2 ^ k := hP3 (2 ^ k) ⟨k, rfl⟩ hk3
    have h2 : 2 ^ k ≤ P := by
      rw [hj]
      exact pow2_unique_in_range es.length k j hkn (by rw [← hj]; exact hP2)
    rw [hk2, Nat.le_antisymm h1 h2]

theorem smallestPow2_five : IsSmallestPow2GE 5 8 := by
  refine ⟨⟨3, rfl⟩, by decide, ?_⟩
  rintro Q ⟨k, rfl⟩ h
  by_contra hc
  have h8 : 2 ^ k < 2 ^ 3 := by
    have : (2 : Nat) ^ 3 = 8 := rfl
    omega
  have hk : k < 3 := (Nat.pow_lt_pow_iff_right (by decide)).1 h8
  have h4 : 2 ^ k ≤ 2 ^ 2 := Nat.pow_le_pow_right (by decide) (by omega)
  have : (2 : Nat) ^ 2 = 4 := rfl
  omega

/-- Witness for C28 with `m = 6`: after five appends the capacity is
`min 6 8 = 6`, where 8 is the smallest power of two that is at least 5. -/
theorem capacity_after_appends_witness :
    6 ≤ SIZE_MAX ∧ IsSmallestPow2GE 5 8 ∧
    addLastAll exampleFiveAppends (newArrayList 6) = some exampleFiveList ∧
    exampleFiveList.capacity = 6 ∧
    exampleFiveList.capacity = min 6 8 :=
  ⟨by decide, smallestPow2_five, by decide, by decide,
    ((capacity_after_appends 6 (by decide)).2.2 exampleFiveAppends exampleFiveList
      (by decide)).2.2.2 (by decide) 8 smallestPow2_five⟩

/-! ## The container stores its own copy -/

theorem Heap.read_lt {heap : Heap} {p : Nat} {text : String}
    (h : heap.read p = some text) : p < heap.cells.length := by
  by_contra hc
  unfold Heap.read at h
  rw [List.getD_eq_getElem?_getD, List.getElem?_eq_none (by omega)] at h
  simp at h

theorem Heap.free_length (heap : Heap) (p : Option Nat) :
    (heap.free p).cells.length = heap.cells.length := by
  cases p with
  | none => rfl
  | some a => simp [Heap.free]

theorem Heap.free_read (heap : Heap) (p : Option Nat) (val : Nat) (h : p ≠ some val) :
    (heap.free p).read val = heap.read val := by
  cases p with
  | none => rfl
  | some a =>
    have hne : a ≠ val := fun hc => h (by rw [hc])
    simp only [Heap.free, Heap.read]
    rw [List.getD_eq_getElem?_getD, List.getElem?_set, if_neg hne, ← List.getD_eq_getElem?_getD]

theorem Heap.strdup_read (heap : Heap) (val : Nat) (text text1 : String)
    (h : heap.read val = some text) :
    (heap.strdup val).2.read (heap.strdup val).1 = some text ∧
    ((heap.strdup val).2.write val text1).read (heap.strdup val).1 = some text := by
  have hlt := Heap.read_lt h
  have e : (heap.strdup val).2.read (heap.strdup val).1 = some text := by
    simp only [Heap.strdup, Heap.read]
    rw [List.getD_eq_getElem?_getD, List.getElem?_append_right (Nat.le_refl _), Nat.sub_self]
    simp only [List.getElem?_cons_zero, Option.getD_some]
    exact h
  refine ⟨e, ?_⟩
  simp only [Heap.strdup, Heap.read, Heap.write] at e ⊢
  rw [List.getD_eq_getElem?_getD, List.getElem?_set, if_neg (by omega),
    ← List.getD_eq_getElem?_getD]
  exact e

theorem setArrayListValAtHeap_copy (heap : Heap) (list : HeapList) (index val : Nat)
    (text text1 : String) (hval : heap.read val = some text) (hidx : index < list.size)
    (hslot : index < list.vals.length) (hown : list.vals.getD index none ≠ some val) :
    (setArrayListValAtHeap heap list index val).1 = true ∧
    HeapList.storedText (setArrayListValAtHeap heap list index val).2.1
      (setArrayListValAtHeap heap list index val).2.2 index = some text ∧
    HeapList.storedText ((setArrayListValAtHeap heap list index val).2.1.write val text1)
      (setArrayListValAtHeap heap list index val).2.2 index = some text := by
  have hval1 : (heap.free (list.vals.getD index none)).read val = some text := by
    rw [Heap.free_read heap _ val hown]
    exact hval
  obtain ⟨d1, d2⟩ := Heap.strdup_read _ val text text1 hval1
  have hget : (list.vals.set index
      (some ((heap.free (list.vals.getD index none)).strdup val).1)).getD index none =
      some ((heap.free (list.vals.getD index none)).strdup val).1 := by
    rw [List.getD_eq_getElem?_getD, List.getElem?_set, if_pos rfl, if_pos hslot]
    rfl
  simp only [setArrayListValAtHeap, if_pos hidx, HeapList.storedText, hget]
  exact ⟨trivial, d1, d2⟩

theorem shiftUpHeap_length (index i : Nat) (vals : List (Option Nat)) :
    (shiftUpHeap index i vals).length = vals.length := by
  induction i generalizing vals with
  | zero => rfl
  | succ i ih =>
    rw [shiftUpHeap]
    split
    · rw [ih, List.length_set]
    · rfl

theorem initNewValsHeap_length (vals : List (Option Nat)) (n : Nat) :
    (initNewValsHeap vals n).length = vals.length + n := by
  induction n generalizing vals with
  | zero => rfl
  | succ n ih =>
    rw [initNewValsHeap, ih, List.length_append]
    simp only [List.length_singleton]
    omega

theorem ensureArrayCapacityHeap_room (reallocOk : Bool) (list : HeapList) (hwf : list.WF)
    (h : (ensureArrayCapacityHeap reallocOk list).1 = true) :
    (ensureArrayCapacityHeap reallocOk list).2.size = list.size ∧
    list.size < (ensureArrayCapacityHeap reallocOk list).2.vals.length ∧
    list.size < SIZE_MAX := by
  obtain ⟨hlen, hsz, hcap, hmax, hzero⟩ := hwf
  unfold ensureArrayCapacityHeap at h ⊢
  by_cases h1 : list.size = list.capacity
  · by_cases h2 : list.capacity = list.maxCapacity
    · simp [h1, h2] at h
    · cases reallocOk with
      | false => simp [h1, h2] at h
      | true =>
        have hpos : 0 < list.capacity := by
          rcases Nat.eq_zero_or_pos list.capacity with h0 | h0
          · exact absurd ((hzero h0).symm ▸ h0) h2
          · exact h0
        simp only [h1, h2, if_true, if_false, Bool.true_eq_false]
        rw [grow_capacity list.capacity list.maxCapacity hcap hmax, initNewValsHeap_length, hlen]
        refine ⟨trivial, ?_, ?_⟩ <;> omega
  · simp only [if_neg h1]
    refine ⟨trivial, ?_, ?_⟩ <;> omega

theorem addArrayListValAtHeap_copy (reallocOk : Bool) (heap : Heap) (list : HeapList)
    (index val : Nat) (text text1 : String) (hwf : list.WF)
    (hval : heap.read val = some text)
    (hok : (addArrayListValAtHeap reallocOk heap list index val).1 = true) :
    HeapList.storedText (addArrayListValAtHeap reallocOk heap list index val).2.1
      (addArrayListValAtHeap reallocOk heap list index val).2.2 index = some text ∧
    HeapList.storedText ((addArrayListValAtHeap reallocOk heap list index val).2.1.write val text1)
      (addArrayListValAtHeap reallocOk heap list index val).2.2 index = some text := by
  unfold addArrayListValAtHeap at hok ⊢
  by_cases hidx : index > list.size
  · simp [hidx] at hok
  · rw [if_neg hidx] at hok ⊢
    have hroom := ensureArrayCapacityHeap_room reallocOk list hwf
    rcases he : ensureArrayCapacityHeap reallocOk list with ⟨b, list1⟩
    rw [he] at hok hroom
    cases b with
    | false => simp at hok
    | true =>
      obtain ⟨hs, hl, hmax⟩ := hroom rfl
      simp only at hs hl ⊢
      have hadd : addSizeT list1.size 1 = list1.size + 1 := by
        rw [hs]
        exact addSizeT_one list.size hmax
      have hlen : ((shiftUpHeap index list1.size list1.vals).set index none).length =
          list1.vals.length := by
        rw [List.length_set, shiftUpHeap_length]
      have hnull : ((shiftUpHeap index list1.size list1.vals).set index none).getD index none ≠
          some val := by
        rw [List.getD_eq_getElem?_getD, List.getElem?_set, if_pos rfl]
        split <;> simp
      have key := setArrayListValAtHeap_copy heap
        { list1 with vals := (shiftUpHeap index list1.size list1.vals).set index none,
                     size := addSizeT list1.size 1 }
        index val text text1 hval (by simp only [hadd]; omega) (by rw [hlen]; omega) hnull
      exact key.2

/-- C27: the container holds its own copy. When the caller's buffer `val` holds
`text`, after a successful `setArrayListValAt(list, index, val)` on a slot that
is not the caller's buffer itself, after a successful
`addArrayListValAt(list, index, val)` and after a successful
`addLastArrayListVal(list, val)` (the call behind every enqueue and push), the
slot points to a block holding `text`, and it still does after the caller
overwrites its buffer with any other text. -/
theorem container_holds_own_copy (heap : Heap) (list : HeapList) (val : Nat)
    (text text1 : String) (hwf : list.WF) (hval : heap.read val = some text) :
    (∀ index, (setArrayListValAtHeap heap list index val).1 = true →
      list.vals.getD index none ≠ some val →
      HeapList.storedText (setArrayListValAtHeap heap list index val).2.1
        (setArrayListValAtHeap heap list index val).2.2 index = some text ∧
      HeapList.storedText ((setArrayListValAtHeap heap list index val).2.1.write val text1)
        (setArrayListValAtHeap heap list index val).2.2 index = some text) ∧
    (∀ reallocOk index, (addArrayListValAtHeap reallocOk heap list index val).1 = true →
      HeapList.storedText (addArrayListValAtHeap reallocOk heap list index val).2.1
        (addArrayListValAtHeap reallocOk heap list index val).2.2 index = some text ∧
      HeapList.storedText
        ((addArrayListValAtHeap reallocOk heap list index val).2.1.write val text1)
        (addArrayListValAtHeap reallocOk heap list index val).2.2 index = some text) ∧
    (∀ reallocOk, (addLastArrayListValHeap reallocOk heap list val).1 = true →
      HeapList.storedText (addLastArrayListValHeap reallocOk heap list val).2.1
        (addLastArrayListValHeap reallocOk heap list val).2.2 list.size = some text ∧
      HeapList.storedText
        ((addLastArrayListValHeap reallocOk heap list val).2.1.write val text1)
        (addLastArrayListValHeap reallocOk heap list val).2.2 list.size = some text) := by
  refine ⟨?_, ?_, ?_⟩
  · intro index hok hown
    have hidx : index < list.size := by
      by_contra hc
      simp [setArrayListValAtHeap, hc] at hok
    have hslot : index < list.vals.length := by
      have h1 := hwf.1
      have h2 := hwf.2.1
      omega
    exact (setArrayListValAtHeap_copy heap list index val text text1 hval hidx hslot hown).2
  · intro reallocOk index hok
    exact addArrayListValAtHeap_copy reallocOk heap list index val text text1 hwf hval hok
  · intro reallocOk hok
    exact addArrayListValAtHeap_copy reallocOk heap list list.size val text text1 hwf hval hok

theorem container_holds_own_copy_witness :
    exampleHeapList.WF ∧ exampleHeap.read 0 = some "new" ∧
    (setArrayListValAtHeap exampleHeap exampleHeapList 1 0).1 = true ∧
    exampleHeapList.vals.getD 1 none ≠ some 0 ∧
    ((setArrayListValAtHeap exampleHeap exampleHeapList 1 0).2.1.write 0 "changed").read 0 =
      some "changed" ∧
    HeapList.storedText
      ((setArrayListValAtHeap exampleHeap exampleHeapList 1 0).2.1.write 0 "changed")
      (setArrayListValAtHeap exampleHeap exampleHeapList 1 0).2.2 1 = some "new" ∧
    (addArrayListValAtHeap false exampleHeap exampleHeapList 0 0).1 = true ∧
    HeapList.storedText
      ((addArrayListValAtHeap false exampleHeap exampleHeapList 0 0).2.1.write 0 "changed")
      (addArrayListValAtHeap false exampleHeap exampleHeapList 0 0).2.2 0 = some "new" :=
  ⟨by decide, by decide, by decide, by decide, by decide,
    ((container_holds_own_copy exampleHeap exampleHeapList 0 "new" "changed" (by decide)
      (by decide)).1 1 (by decide) (by decide)).2,
    by decide,
    ((container_holds_own_copy exampleHeap exampleHeapList 0 "new" "changed" (by decide)
      (by decide)).2.1 false 0 (by decide)).2⟩

/-! ## What `isEmptyMPQ` computes -/

theorem boolToInt_sum_ne_zero (a b c d : Bool) :
    decide (boolToInt a + boolToInt b + boolToInt c + boolToInt d ≠ 0) = true ↔
      (a = true ∨ b = true ∨ c = true ∨ d = true) := by
  cases a <;> cases b <;> cases c <;> cases d <;> decide

/-- C37: on every queue, `isEmptyMPQ` (the sum of the four per-level emptiness
flags converted to `bool`) returns true iff at least one priority level is
empty, that is, iff `isEmptyForPriorityMPQ` is true for some priority, that is,
iff some level holds no message. -/
theorem isEmptyMPQ_iff_some_level_empty (queue : MessagePriorityQueue) :
    (isEmptyMPQ queue = true ↔ ∃ p : Priority, isEmptyForPriorityMPQ queue p = true) ∧
    (isEmptyMPQ queue = true ↔ ∃ p : Priority, messageSizeForPriorityMPQ queue p = 0) := by
  have h1 : isEmptyMPQ queue = true ↔ ∃ p : Priority, isEmptyForPriorityMPQ queue p = true := by
    unfold isEmptyMPQ isEmptyForPriorityMPQ
    rw [boolToInt_sum_ne_zero]
    constructor
    · rintro (h | h | h | h)
      · exact ⟨.highest, h⟩
      · exact ⟨.high, h⟩
      · exact ⟨.low, h⟩
      · exact ⟨.lowest, h⟩
    · rintro ⟨p, hp⟩
      cases p
      · exact Or.inl hp
      · exact Or.inr (Or.inl hp)
      · exact Or.inr (Or.inr (Or.inl hp))
      · exact Or.inr (Or.inr (Or.inr hp))
  refine ⟨h1, ?_⟩
  rw [h1]
  constructor
  · rintro ⟨p, hp⟩
    refine ⟨p, ?_⟩
    simpa [isEmptyForPriorityMPQ, isArrayDequeEmpty, isArrayListEmpty,
      messageSizeForPriorityMPQ, arrayDequeSize, arrayListSize] using hp
  · rintro ⟨p, hp⟩
    refine ⟨p, ?_⟩
    simpa [isEmptyForPriorityMPQ, isArrayDequeEmpty, isArrayListEmpty,
      messageSizeForPriorityMPQ, arrayDequeSize, arrayListSize] using hp

/-! ## The frame of a growth step -/

/-- The growth step with the exact loop counter, which is the code whenever the
new capacity fits in `int` (see `strict_ensureArrayCapacity_in_range`): on a
list with `vals` of `capacity` slots, `size = capacity` and
`capacity < maxCapacity`, a successful `ensureArrayCapacity` leaves `size` and
`maxCapacity` as they were, sets `capacity` to `min (2 * capacity) maxCapacity`,
keeps every old slot, and the array then has the new capacity with every slot
from the old capacity up to the new one `NULL`. -/
theorem ensureArrayCapacity_frame (r : Bool) (list : ArrayList)
    (hlen : list.vals.length = list.capacity) (hsize : list.size = list.capacity)
    (hcap : list.capacity < list.maxCapacity) (hmax : list.maxCapacity ≤ SIZE_MAX)
    (hok : (ensureArrayCapacity r list).1 = true) :
    (ensureArrayCapacity r list).2.size = list.size ∧
    (ensureArrayCapacity r list).2.maxCapacity = list.maxCapacity ∧
    (ensureArrayCapacity r list).2.capacity = min (2 * list.capacity) list.maxCapacity ∧
    (ensureArrayCapacity r list).2.vals.length = (ensureArrayCapacity r list).2.capacity ∧
    (ensureArrayCapacity r list).2.vals.take list.capacity = list.vals ∧
    (ensureArrayCapacity r list).2.contents = list.contents ∧
    (∀ i : Nat, list.capacity ≤ i → i < (ensureArrayCapacity r list).2.capacity →
      (ensureArrayCapacity r list).2.vals[i]? = some none) := by
  have hne : list.capacity ≠ list.maxCapacity := by omega
  have hr : r = true := by
    rcases (ensureArrayCapacity_ok_iff r list).1 hok with h | h
    · exact absurd hsize h
    · exact h.2
  subst hr
  have hg : grownCapacity list = min (2 * list.capacity) list.maxCapacity :=
    grow_capacity list.capacity list.maxCapacity (by omega) hmax
  rw [ensureArrayCapacity_grow list hsize hne]
  simp only [hg, initNewVals_eq]
  have htake : (list.vals ++ List.replicate
      (min (2 * list.capacity) list.maxCapacity - list.capacity) none).take list.capacity =
      list.vals := by
    rw [← hlen, List.take_left]
  refine ⟨trivial, trivial, trivial, ?_, htake, ?_, ?_⟩
  · rw [List.length_append, List.length_replicate, hlen]
    omega
  · unfold ArrayList.contents
    simp only
    rw [hsize, htake, ← hlen, List.take_length]
  · intro i hi1 hi2
    rw [List.getElem?_append_right (by omega), List.getElem?_replicate, if_pos (by omega)]

/-- An instance of `ensureArrayCapacity_frame`: the full list `"a"`, `"b"` grows
from two to four slots. -/
theorem ensureArrayCapacity_frame_witness :
    exampleFullList.size = exampleFullList.capacity ∧
    (ensureArrayCapacity true exampleFullList).2.capacity = 4 ∧
    (ensureArrayCapacity true exampleFullList).2.vals = [some "a", some "b", none, none] ∧
    (ensureArrayCapacity true exampleFullList).2.contents = exampleFullList.contents :=
  ⟨by decide, by decide, by decide,
    (ensureArrayCapacity_frame true exampleFullList (by decide) (by decide) (by decide)
      (by decide) (by decide)).2.2.2.2.2.1⟩

/-! ## Appending up to the maximum capacity -/

theorem intShiftLoop_in_range (size room i : Nat) (vals : List (Option String))
    (h1 : i + room = INT_MAX) (h2 : size ≤ INT_MAX) (h3 : i ≤ size) :
    Fixed.intShiftLoop size room i vals = some (shiftDown (size - i) i vals) := by
  induction room generalizing i vals with
  | zero =>
    have hi : size - i = 0 := by omega
    rw [Fixed.intShiftLoop, if_neg (by omega), hi]
    rfl
  | succ room ih =>
    rw [Fixed.intShiftLoop]
    by_cases h : i < size
    · have hs : size - i = (size - (i + 1)) + 1 := by omega
      rw [if_pos h, ih (i + 1) _ (by omega) (by omega), hs]
      rfl
    · have hi : size - i = 0 := by omega
      rw [if_neg h, hi]
      rfl

theorem fixed_shiftDownInt_in_range (vals : List (Option String)) (index size : Nat)
    (h1 : index ≤ size) (h2 : size ≤ INT_MAX) :
    Fixed.shiftDownInt vals index size = some (shiftDown (size - index) index vals) := by
  have hI : INT_MAX = 2 ^ 31 - 1 := rfl
  have hlow : index % 2 ^ 32 = index := Nat.mod_eq_of_lt (by omega)
  unfold Fixed.shiftDownInt
  simp only [hlow]
  rw [if_pos (by omega)]
  exact intShiftLoop_in_range size _ index vals (by omega) h2 h1

theorem fixed_add_embeds (r : Bool) (f : Fixed.ArrayList) (index : Nat) (val : String)
    (ha : f.vals.isSome = true) (hwf : (fixedToGrowable f).WF) :
    FixedEmbeds (Fixed.addArrayListValAt f index (some val))
      (addArrayListValAt r (fixedToGrowable f) index val) := by
  obtain ⟨vals, size, capacity⟩ := f
  cases vals with
  | none => simp at ha
  | some vs =>
    obtain ⟨w1, w2, w3, w4, _⟩ := hwf
    have w2f : size ≤ capacity := w2
    have w4f : capacity ≤ SIZE_MAX := w4
    by_cases h1 : index > size
    · rw [addArrayListValAt_out_of_bounds r _ index val h1]
      exact ⟨_, by simp [Fixed.addArrayListValAt, h1], rfl, rfl⟩
    · by_cases h2 : size = capacity
      · have hens : (ensureArrayCapacity r (fixedToGrowable
            { vals := some vs, size := size, capacity := capacity })).1 = false := by
          rw [ensureArrayCapacity_full r _ h2 rfl]
        rw [addArrayListValAt_no_room r _ index val hens]
        exact ⟨_, by simp [Fixed.addArrayListValAt, h1, h2], rfl, rfl⟩
      · have hens : ensureArrayCapacity r (fixedToGrowable
            { vals := some vs, size := size, capacity := capacity }) =
            (true, fixedToGrowable { vals := some vs, size := size, capacity := capacity }) :=
          ensureArrayCapacity_room r _ h2
        have hlt : size < SIZE_MAX := by omega
        have hadd : addSizeT size 1 = size + 1 := addSizeT_one size hlt
        rw [addArrayListValAt_room r _ _ index val (by
          show index ≤ size
          omega) hlt hens]
        refine ⟨{ vals := some ((shiftUp index size vs).set index (some val))
                  size := size + 1, capacity := capacity }, ?_, ?_, rfl⟩
        · simp only [Fixed.addArrayListValAt, if_neg h1, if_neg h2, hadd]
        · simp only [fixedToGrowable, Option.getD_some, List.set_set]

theorem fixed_get_embeds (f : Fixed.ArrayList) (index : Nat) (ha : f.vals.isSome = true) :
    Fixed.getArrayListValAt f index = some (getArrayListValAt (fixedToGrowable f) index) := by
  obtain ⟨vals, size, capacity⟩ := f
  cases vals with
  | none => simp at ha
  | some vs =>
    unfold Fixed.getArrayListValAt getArrayListValAt
    by_cases h : index < size
    · have h1 : index < (fixedToGrowable
          { vals := some vs, size := size, capacity := capacity }).size := h
      simp only [if_pos h, if_pos h1]
      rfl
    · have h1 : ¬ index < (fixedToGrowable
          { vals := some vs, size := size, capacity := capacity }).size := h
      simp only [if_neg h, if_neg h1]

theorem fixed_getLast_embeds (f : Fixed.ArrayList) (ha : f.vals.isSome = true) :
    Fixed.getLastArrayListVal f = some (getLastArrayListVal (fixedToGrowable f)) := by
  unfold Fixed.getLastArrayListVal getLastArrayListVal
  by_cases h : f.size = 0
  · have h1 : (fixedToGrowable f).size = 0 := h
    simp only [if_pos h, if_pos h1]
  · have h1 : ¬ (fixedToGrowable f).size = 0 := h
    simp only [if_neg h, if_neg h1]
    exact fixed_get_embeds f _ ha

theorem fixed_set_embeds (f : Fixed.ArrayList) (index : Nat) (val : String)
    (ha : f.vals.isSome = true) :
    FixedEmbeds (Fixed.setArrayListValAt f index (some val))
      (setArrayListValAt (fixedToGrowable f) index val) := by
  obtain ⟨vals, size, capacity⟩ := f
  cases vals with
  | none => simp at ha
  | some vs =>
    unfold setArrayListValAt Fixed.setArrayListValAt
    by_cases h : index < size
    · have h1 : index < (fixedToGrowable
          { vals := some vs, size := size, capacity := capacity }).size := h
      simp only [if_pos h, if_pos h1]
      exact ⟨_, rfl, rfl, rfl⟩
    · have h1 : ¬ index < (fixedToGrowable
          { vals := some vs, size := size, capacity := capacity }).size := h
      simp only [if_neg h, if_neg h1]
      exact ⟨_, rfl, rfl, rfl⟩

theorem fixed_setLast_embeds (f : Fixed.ArrayList) (val : String)
    (ha : f.vals.isSome = true) :
    FixedEmbeds (Fixed.setLastArrayListVal f (some val))
      (setLastArrayListVal (fixedToGrowable f) val) := by
  unfold setLastArrayListVal Fixed.setLastArrayListVal
  by_cases h : f.size = 0
  · have h1 : (fixedToGrowable f).size = 0 := h
    simp only [if_pos h, if_pos h1]
    exact ⟨_, rfl, rfl, ha⟩
  · have h1 : ¬ (fixedToGrowable f).size = 0 := h
    simp only [if_neg h, if_neg h1]
    exact fixed_set_embeds f _ val ha

theorem fixed_delete_embeds (f : Fixed.ArrayList) (index : Nat)
    (ha : f.vals.isSome = true) (hwf : (fixedToGrowable f).WF)
    (hint : f.capacity ≤ INT_MAX) :
    FixedEmbeds (Fixed.deleteArrayListValAt f index)
      (deleteArrayListValAt (fixedToGrowable f) index) := by
  obtain ⟨vals, size, capacity⟩ := f
  cases vals with
  | none => simp at ha
  | some vs =>
    obtain ⟨w1, w2, w3, w4, _⟩ := hwf
    have w2f : size ≤ capacity := w2
    have w4f : capacity ≤ SIZE_MAX := w4
    have hintf : capacity ≤ INT_MAX := hint
    unfold deleteArrayListValAt Fixed.deleteArrayListValAt
    by_cases h : index ≥ size
    · have h1 : index ≥ (fixedToGrowable
          { vals := some vs, size := size, capacity := capacity }).size := h
      simp only [if_pos h, if_pos h1]
      exact ⟨_, rfl, rfl, rfl⟩
    · have h1 : ¬ index ≥ (fixedToGrowable
          { vals := some vs, size := size, capacity := capacity }).size := h
      have hsub : subSizeT size 1 = size - 1 := subSizeT_eq size 1 (by omega) (by omega)
      have hshift : Fixed.shiftDownInt vs index (subSizeT size 1) =
          some (shiftDown (subSizeT size 1 - index) index vs) :=
        fixed_shiftDownInt_in_range vs index _ (by omega) (by omega)
      simp only [if_neg h, if_neg h1, hshift]
      exact ⟨_, rfl, rfl, rfl⟩

theorem fixed_deleteLast_embeds (f : Fixed.ArrayList) (ha : f.vals.isSome = true)
    (hwf : (fixedToGrowable f).WF) (hint : f.capacity ≤ INT_MAX) :
    FixedEmbeds (Fixed.deleteLastArrayListVal f)
      (deleteLastArrayListVal (fixedToGrowable f)) := by
  unfold deleteLastArrayListVal Fixed.deleteLastArrayListVal
  by_cases h : f.size > 0
  · have h1 : (fixedToGrowable f).size > 0 := h
    simp only [if_pos h, if_pos h1]
    exact fixed_delete_embeds f _ ha hwf hint
  · have h1 : ¬ (fixedToGrowable f).size > 0 := h
    simp only [if_neg h, if_neg h1]
    exact ⟨_, rfl, rfl, ha⟩

theorem fixed_deleteAllLoop_embeds (fuel : Nat) (f : Fixed.ArrayList)
    (ha : f.vals.isSome = true) (hwf : (fixedToGrowable f).WF)
    (hint : f.capacity ≤ INT_MAX) :
    ∃ f1 : Fixed.ArrayList, Fixed.deleteAllLoop fuel f = some f1 ∧
      fixedToGrowable f1 = deleteAllLoop fuel (fixedToGrowable f) ∧
      f1.vals.isSome = true := by
  induction fuel generalizing f with
  | zero => exact ⟨f, rfl, rfl, ha⟩
  | succ fuel ih =>
    obtain ⟨f1, e1, e2, e3⟩ := fixed_deleteLast_embeds f ha hwf hint
    obtain ⟨wf1, wm1⟩ := deleteLastArrayListVal_WF (fixedToGrowable f) hwf
    rw [← e2] at wf1 wm1
    have hint1 : f1.capacity ≤ INT_MAX := by
      have : f1.capacity = f.capacity := wm1
      omega
    rw [deleteAllLoop, Fixed.deleteAllLoop, e1]
    rcases hd : deleteLastArrayListVal (fixedToGrowable f) with ⟨b, g1⟩
    rw [hd] at e2
    cases b with
    | false =>
      simp only
      exact ⟨f1, rfl, e2, e3⟩
    | true =>
      simp only
      obtain ⟨f2, i1, i2, i3⟩ := ih f1 e3 wf1 hint1
      exact ⟨f2, i1, by rw [i2, e2], i3⟩

theorem fixed_apply_embeds (op : ListOp) (f : Fixed.ArrayList)
    (ha : f.vals.isSome = true) (hwf : (fixedToGrowable f).WF)
    (hint : f.capacity ≤ INT_MAX) :
    FixedEmbeds (Fixed.applyListOp op f) (applyListOp op (fixedToGrowable f)) ∧
    Fixed.observeListOp op f = some (observeListOp op (fixedToGrowable f)) := by
  cases op with
  | addAt r index val => exact ⟨fixed_add_embeds r f index val ha hwf, rfl⟩
  | addFirst r val => exact ⟨fixed_add_embeds r f 0 val ha hwf, rfl⟩
  | addLast r val => exact ⟨fixed_add_embeds r f f.size val ha hwf, rfl⟩
  | getAt index =>
    refine ⟨⟨f, ?_, rfl, ha⟩, fixed_get_embeds f index ha⟩
    show (Fixed.getArrayListValAt f index).map (fun r => (r.isSome, f)) = _
    rw [fixed_get_embeds f index ha]
    rfl
  | getFirst =>
    refine ⟨⟨f, ?_, rfl, ha⟩, fixed_get_embeds f 0 ha⟩
    show (Fixed.getArrayListValAt f 0).map (fun r => (r.isSome, f)) = _
    rw [fixed_get_embeds f 0 ha]
    rfl
  | getLast =>
    refine ⟨⟨f, ?_, rfl, ha⟩, fixed_getLast_embeds f ha⟩
    show (Fixed.getLastArrayListVal f).map (fun r => (r.isSome, f)) = _
    rw [fixed_getLast_embeds f ha]
    rfl
  | setAt index val => exact ⟨fixed_set_embeds f index val ha, rfl⟩
  | setFirst val => exact ⟨fixed_set_embeds f 0 val ha, rfl⟩
  | setLast val => exact ⟨fixed_setLast_embeds f val ha, rfl⟩
  | deleteAt index => exact ⟨fixed_delete_embeds f index ha hwf hint, rfl⟩
  | deleteFirst => exact ⟨fixed_delete_embeds f 0 ha hwf hint, rfl⟩
  | deleteLast => exact ⟨fixed_deleteLast_embeds f ha hwf hint, rfl⟩
  | deleteAll =>
    obtain ⟨f1, e1, e2, e3⟩ := fixed_deleteAllLoop_embeds (f.size + 1) f ha hwf hint
    refine ⟨⟨f1, ?_, e2, e3⟩, rfl⟩
    show (Fixed.deleteAllLoop (f.size + 1) f).map (fun l => (true, l)) = _
    rw [e1]
    rfl

theorem addArrayListValAt_model (list : ArrayList) (index : Nat) (val : String)
    (hwf : list.WF) :
    (addArrayListValAt true list index val).1 =
      decide (index ≤ list.size ∧ list.size ≠ list.maxCapacity) ∧
    (addArrayListValAt true list index val).2.contents =
      (if index ≤ list.size ∧ list.size ≠ list.maxCapacity then
        list.contents.take index ++ some val :: list.contents.drop index
       else list.contents) := by
  by_cases h : index ≤ list.size ∧ list.size ≠ list.maxCapacity
  · have hroom : list.size < list.maxCapacity := by
      obtain ⟨_, w2, w3, _, _⟩ := hwf
      omega
    have hok := addArrayListValAt_ok_of_room list index val hwf h.1 hroom
    have hspec := addArrayListValAt_spec true list index val hwf h.1
      (addArrayListValAt_ok_ensure true list index val hok)
    rw [if_pos h, hok]
    exact ⟨by simp [h], hspec.2.2.2.2.1⟩
  · have hf : (addArrayListValAt true list index val).1 = false :=
      (addArrayListValAt_fail_iff_wf list index val hwf).2 (by omega)
    rw [if_neg h, hf, addArrayListValAt_fail_unchanged true list index val hf]
    exact ⟨by simp [h], rfl⟩

theorem getArrayListValAt_model (list : ArrayList) (index : Nat) (hwf : list.WF) :
    getArrayListValAt list index = list.contents[index]? := by
  by_cases h : index < list.size
  · rw [contents_getElem? list hwf index h]
    simp [getArrayListValAt, h]
  · rw [List.getElem?_eq_none (by rw [contents_length list hwf]; omega)]
    simp [getArrayListValAt, h]

theorem setArrayListValAt_model (list : ArrayList) (index : Nat) (val : String) :
    (setArrayListValAt list index val).1 = decide (index < list.size) ∧
    (setArrayListValAt list index val).2.contents = list.contents.set index (some val) := by
  unfold setArrayListValAt ArrayList.contents
  by_cases h : index < list.size
  · simp only [if_pos h]
    refine ⟨by simp [h], ?_⟩
    rw [List.set_take]
  · simp only [if_neg h]
    refine ⟨by simp [h], ?_⟩
    rw [List.set_eq_of_length_le]
    rw [List.length_take]
    omega

theorem deleteArrayListValAt_model (list : ArrayList) (index : Nat) (hwf : list.WF) :
    (deleteArrayListValAt list index).1 = decide (index < list.size) ∧
    (deleteArrayListValAt list index).2.contents =
      list.contents.take index ++ list.contents.drop (index + 1) := by
  by_cases h : index < list.size
  · have hspec := deleteArrayListValAt_spec list index hwf h
    rw [hspec.1]
    exact ⟨by simp [h], hspec.2.2.2.2.1⟩
  · rw [deleteArrayListValAt_fail list index (by omega)]
    refine ⟨by simp [h], ?_⟩
    have hl := contents_length list hwf
    rw [List.take_of_length_le (by omega), List.drop_eq_nil_of_le (by omega),
      List.append_nil]

theorem deleteAllArrayListVals_model (list : ArrayList) (hwf : list.WF) :
    (deleteAllArrayListVals list).contents = [] := by
  unfold deleteAllArrayListVals
  rw [deleteAllLoop_eq (list.size + 1) list hwf (by omega)]
  rfl

theorem same_contents_size (g1 g2 : ArrayList) (hwf1 : g1.WF) (hwf2 : g2.WF)
    (hc : g1.contents = g2.contents) : g1.size = g2.size := by
  rw [← contents_length g1 hwf1, ← contents_length g2 hwf2, hc]

theorem applyListOp_same_contents (op : ListOp) (g1 g2 : ArrayList) (hwf1 : g1.WF)
    (hwf2 : g2.WF) (hc : g1.contents = g2.contents)
    (hm : g1.maxCapacity = g2.maxCapacity) (hr : op.reallocSucceeds = true) :
    (applyListOp op g1).1 = (applyListOp op g2).1 ∧
    observeListOp op g1 = observeListOp op g2 ∧
    (applyListOp op g1).2.contents = (applyListOp op g2).2.contents := by
  have hs := same_contents_size g1 g2 hwf1 hwf2 hc
  have hadd : ∀ (index : Nat) (val : String),
      (addArrayListValAt true g1 index val).1 = (addArrayListValAt true g2 index val).1 ∧
      (addArrayListValAt true g1 index val).2.contents =
        (addArrayListValAt true g2 index val).2.contents := by
    intro index val
    obtain ⟨a1, a2⟩ := addArrayListValAt_model g1 index val hwf1
    obtain ⟨b1, b2⟩ := addArrayListValAt_model g2 index val hwf2
    rw [a1, a2, b1, b2, hc, hs, hm]
    exact ⟨rfl, rfl⟩
  have hget : ∀ index : Nat, getArrayListValAt g1 index = getArrayListValAt g2 index := by
    intro index
    rw [getArrayListValAt_model g1 index hwf1, getArrayListValAt_model g2 index hwf2, hc]
  have hset : ∀ (index : Nat) (val : String),
      (setArrayListValAt g1 index val).1 = (setArrayListValAt g2 index val).1 ∧
      (setArrayListValAt g1 index val).2.contents =
        (setArrayListValAt g2 index val).2.contents := by
    intro index val
    obtain ⟨a1, a2⟩ := setArrayListValAt_model g1 index val
    obtain ⟨b1, b2⟩ := setArrayListValAt_model g2 index val
    rw [a1, a2, b1, b2, hc, hs]
    exact ⟨rfl, rfl⟩
  have hdel : ∀ index : Nat,
      (deleteArrayListValAt g1 index).1 = (deleteArrayListValAt g2 index).1 ∧
      (deleteArrayListValAt g1 index).2.contents =
        (deleteArrayListValAt g2 index).2.contents := by
    intro index
    obtain ⟨a1, a2⟩ := deleteArrayListValAt_model g1 index hwf1
    obtain ⟨b1, b2⟩ := deleteArrayListValAt_model g2 index hwf2
    rw [a1, a2, b1, b2, hc, hs]
    exact ⟨rfl, rfl⟩
  cases op with
  | addAt r index val =>
    have : r = true := hr
    subst this
    exact ⟨(hadd index val).1, rfl, (hadd index val).2⟩
  | addFirst r val =>
    have : r = true := hr
    subst this
    exact ⟨(hadd 0 val).1, rfl, (hadd 0 val).2⟩
  | addLast r val =>
    have : r = true := hr
    subst this
    show (addArrayListValAt true g1 g1.size val).1 = (addArrayListValAt true g2 g2.size val).1 ∧
      none = none ∧
      (addArrayListValAt true g1 g1.size val).2.contents =
        (addArrayListValAt true g2 g2.size val).2.contents
    rw [hs]
    exact ⟨(hadd g2.size val).1, rfl, (hadd g2.size val).2⟩
  | getAt index =>
    show (getArrayListValAt g1 index).isSome = (getArrayListValAt g2 index).isSome ∧
      getArrayListValAt g1 index = getArrayListValAt g2 index ∧ g1.contents = g2.contents
    rw [hget index]
    exact ⟨rfl, rfl, hc⟩
  | getFirst =>
    show (getArrayListValAt g1 0).isSome = (getArrayListValAt g2 0).isSome ∧
      getArrayListValAt g1 0 = getArrayListValAt g2 0 ∧ g1.contents = g2.contents
    rw [hget 0]
    exact ⟨rfl, rfl, hc⟩
  | getLast =>
    show (getLastArrayListVal g1).isSome = (getLastArrayListVal g2).isSome ∧
      getLastArrayListVal g1 = getLastArrayListVal g2 ∧ g1.contents = g2.contents
    rw [getLastArrayListVal_eq_getLast? g1 hwf1, getLastArrayListVal_eq_getLast? g2 hwf2, hc]
    exact ⟨rfl, rfl, rfl⟩
  | setAt index val => exact ⟨(hset index val).1, rfl, (hset index val).2⟩
  | setFirst val => exact ⟨(hset 0 val).1, rfl, (hset 0 val).2⟩
  | setLast val =>
    show (setLastArrayListVal g1 val).1 = (setLastArrayListVal g2 val).1 ∧ none = none ∧
      (setLastArrayListVal g1 val).2.contents = (setLastArrayListVal g2 val).2.contents
    unfold setLastArrayListVal
    rw [hs]
    by_cases h : g2.size = 0
    · simp only [if_pos h]
      exact ⟨trivial, trivial, hc⟩
    · simp only [if_neg h]
      exact ⟨(hset _ val).1, trivial, (hset _ val).2⟩
  | deleteAt index => exact ⟨(hdel index).1, rfl, (hdel index).2⟩
  | deleteFirst => exact ⟨(hdel 0).1, rfl, (hdel 0).2⟩
  | deleteLast =>
    show (deleteLastArrayListVal g1).1 = (deleteLastArrayListVal g2).1 ∧ none = none ∧
      (deleteLastArrayListVal g1).2.contents = (deleteLastArrayListVal g2).2.contents
    unfold deleteLastArrayListVal
    rw [hs]
    by_cases h : g2.size > 0
    · simp only [if_pos h]
      exact ⟨(hdel _).1, trivial, (hdel _).2⟩
    · simp only [if_neg h]
      exact ⟨trivial, trivial, hc⟩
  | deleteAll =>
    show true = true ∧ none = none ∧
      (deleteAllArrayListVals g1).contents = (deleteAllArrayListVals g2).contents
    rw [deleteAllArrayListVals_model g1 hwf1, deleteAllArrayListVals_model g2 hwf2]
    exact ⟨rfl, rfl, rfl⟩

theorem fixed_trace_eq (ops : List ListOp) (f : Fixed.ArrayList) (g : ArrayList)
    (ha : f.vals.isSome = true) (hf : (fixedToGrowable f).WF) (hint : f.capacity ≤ INT_MAX)
    (hg : g.WF) (hc : f.contents = g.contents) (hm : f.capacity = g.maxCapacity)
    (hr : ∀ op ∈ ops, op.reallocSucceeds = true) :
    Fixed.traceListOps ops f = some (traceListOps ops g) := by
  induction ops generalizing f g with
  | nil => rfl
  | cons op ops ih =>
    have hop : op.reallocSucceeds = true := hr op (List.mem_cons_self _ _)
    obtain ⟨⟨f1, e1, e2, e3⟩, eo⟩ := fixed_apply_embeds op f ha hf hint
    obtain ⟨s1, s2, s3⟩ := applyListOp_same_contents op (fixedToGrowable f) g hf hg hc hm hop
    obtain ⟨wf1, wm1⟩ := applyListOp_WF op (fixedToGrowable f) hf
    obtain ⟨wg1, wm2⟩ := applyListOp_WF op g hg
    rw [← e2] at s3 wf1 wm1
    have hcont : f1.contents = (applyListOp op g).2.contents := s3
    have hsize : Fixed.arrayListSize f1 = arrayListSize (applyListOp op g).2 :=
      same_contents_size _ _ wf1 wg1 s3
    have hcap1 : f1.capacity = f.capacity := wm1
    have hcap : f1.capacity = (applyListOp op g).2.maxCapacity := by
      rw [wm2, ← hm]
      exact hcap1
    have hrest := ih f1 (applyListOp op g).2 e3 wf1 (by omega) wg1 hcont hcap
      (fun o ho => hr o (List.mem_cons_of_mem _ ho))
    rw [Fixed.traceListOps, e1, eo]
    simp only [hrest, traceListOps, s1, s2, hcont, hsize]

/-- C36, the claim as stated fails: for `m = SIZE_MAX` the `calloc` of the
fixed-capacity list cannot succeed (the byte count does not fit in `size_t`),
its array pointer is `NULL`, and the first `addLastArrayListVal` writes through
it and does not return, while the same call on the growable list created with
maximum capacity `SIZE_MAX` returns true. -/
theorem fixed_list_calloc_failure :
    (Fixed.newArrayList true SIZE_MAX).vals = none ∧
    Fixed.addLastArrayListVal (Fixed.newArrayList true SIZE_MAX) (some "a") = none ∧
    Fixed.traceListOps [.addLast true "a"] (Fixed.newArrayList true SIZE_MAX) = none ∧
    (addLastArrayListVal true (newArrayList SIZE_MAX) "a").1 = true ∧
    (traceListOps [.addLast true "a"] (newArrayList SIZE_MAX)).map (fun s => s.ok) = [true] := by
  decide

/-- C36 as amended: for every `m ≤ INT_MAX` for which the `calloc` of the
fixed-capacity list succeeds, and every sequence of public list operations with
present values in which `realloc` succeeds, every call on the fixed-capacity
list returns, and the fixed-capacity list created with capacity `m` and the
growable list created with maximum capacity `m` show the caller the same steps:
the same returned flag, the same value read, and the same contents and size
after each call. -/
theorem fixed_list_refines_growable (m : Nat) (ops : List ListOp) (hm : m ≤ INT_MAX)
    (hr : ∀ op ∈ ops, op.reallocSucceeds = true) :
    Fixed.traceListOps ops (Fixed.newArrayList true m) =
      some (traceListOps ops (newArrayList m)) := by
  have hI : INT_MAX = 2 ^ 31 - 1 := rfl
  have hS : SIZE_MAX = 2 ^ 64 - 1 := rfl
  have hm2 : m ≤ SIZE_MAX := by omega
  have hvals : (Fixed.newArrayList true m).vals = some (List.replicate m none) := by
    unfold Fixed.newArrayList
    simp only
    rw [if_pos ⟨trivial, by omega⟩]
  have ha : (Fixed.newArrayList true m).vals.isSome = true := by rw [hvals]; rfl
  have hf : (fixedToGrowable (Fixed.newArrayList true m)).WF := by
    refine ⟨?_, ?_, ?_, hm2, fun h => h⟩
    · show ((Fixed.newArrayList true m).vals.getD []).length = m
      rw [hvals]
      exact List.length_replicate _ _
    · exact Nat.zero_le _
    · exact Nat.le_refl _
  exact fixed_trace_eq ops _ _ ha hf hm (newArrayList_WF m hm2) rfl rfl hr

/-- Witness for C36 as amended on a run that exercises every kind of call,
including an insertion refused at capacity 3 and calls on the emptied list. -/
theorem fixed_list_refines_growable_witness :
    3 ≤ INT_MAX ∧ (∀ op ∈ exampleListOps, op.reallocSucceeds = true) ∧
    (traceListOps exampleListOps (newArrayList 3)).map (fun s => s.ok) =
      [true, true, true, false, true, true, true, true, true, true, false, false] ∧
    Fixed.traceListOps exampleListOps (Fixed.newArrayList true 3) =
      some (traceListOps exampleListOps (newArrayList 3)) :=
  ⟨by decide, by decide, by decide,
    fixed_list_refines_growable 3 exampleListOps (by decide) (by decide)⟩

/-! ## The linked list iterator -/

theorem getLinkedNodeAt_eq (chain : List (Option String)) (n k : Nat) (hn : n < chain.length) :
    getLinkedNodeAt chain (some n) k =
      if n + k < chain.length then some (n + k) else none := by
  induction k generalizing n with
  | zero => simp [getLinkedNodeAt, hn]
  | succ k ih =>
    rw [getLinkedNodeAt]
    unfold nextLinkedNode
    by_cases h : n + 1 < chain.length
    · rw [if_pos h, ih (n + 1) h]
      have e : n + 1 + k = n + (k + 1) := by omega
      rw [e]
    · rw [if_neg h]
      have h2 : ¬ n + (k + 1) < chain.length := by omega
      rw [if_neg h2]
      cases k <;> rfl

theorem getNextLinkedListIteratorVal_explicit (itr : LinkedListIterator) (hinv : itr.Inv) :
    getNextLinkedListIteratorVal itr =
      if itr.count < itr.theList.size then
        (some (itr.theList.head.getD (itr.count + 1) none),
          { itr with curNode := itr.count + 1, count := itr.count + 1 })
      else (none, itr) := by
  obtain ⟨⟨w1, w2, w3⟩, hcur, hle⟩ := hinv
  unfold getNextLinkedListIteratorVal nextLinkedNode
  rw [hcur, w1]
  by_cases h : itr.count < itr.theList.size
  · have h1 : itr.count + 1 < itr.theList.size + 1 := by omega
    have hadd : addSizeT itr.count 1 = itr.count + 1 := addSizeT_one itr.count (by omega)
    rw [if_pos h, if_pos h1]
    simp only [hadd]
  · have h1 : ¬ itr.count + 1 < itr.theList.size + 1 := by omega
    rw [if_neg h, if_neg h1]

theorem getPrevLinkedListIteratorVal_explicit (itr : LinkedListIterator) (hinv : itr.Inv) :
    getPrevLinkedListIteratorVal itr =
      if 1 < itr.count then
        (some (itr.theList.head.getD itr.count none),
          { itr with count := itr.count - 1, curNode := itr.count - 1 })
      else (none, itr) := by
  obtain ⟨⟨w1, w2, w3⟩, hcur, hle⟩ := hinv
  unfold getPrevLinkedListIteratorVal
  by_cases h : 1 < itr.count
  · have h1 : itr.count > 1 := h
    have hsub : subSizeT itr.count 1 = itr.count - 1 :=
      subSizeT_eq itr.count 1 (by omega) (by omega)
    have hnode : getLinkedNodeAt itr.theList.head (some 0) (itr.count - 1) =
        some (itr.count - 1) := by
      rw [getLinkedNodeAt_eq _ 0 _ (by omega), if_pos (by omega)]
      simp
    rw [if_pos h, if_pos h1, hsub, hnode, hcur]
  · have h1 : ¬ itr.count > 1 := h
    rw [if_neg h, if_neg h1]

theorem newLinkedListIterator_Inv (list : LinkedList) (hwf : list.WF) :
    (newLinkedListIterator list).Inv :=
  ⟨hwf, rfl, Nat.zero_le _⟩

theorem applyIteratorOp_Inv (op : IteratorOp) (itr : LinkedListIterator) (hinv : itr.Inv) :
    (applyIteratorOp op itr).Inv ∧ (applyIteratorOp op itr).theList = itr.theList := by
  have hinv0 := hinv
  obtain ⟨hwf, hcur, hle⟩ := hinv
  cases op with
  | getNext =>
    show (getNextLinkedListIteratorVal itr).2.Inv ∧
      (getNextLinkedListIteratorVal itr).2.theList = itr.theList
    rw [getNextLinkedListIteratorVal_explicit itr hinv0]
    by_cases h : itr.count < itr.theList.size
    · rw [if_pos h]
      exact ⟨⟨hwf, rfl, h⟩, rfl⟩
    · rw [if_neg h]
      exact ⟨hinv0, rfl⟩
  | getPrev =>
    show (getPrevLinkedListIteratorVal itr).2.Inv ∧
      (getPrevLinkedListIteratorVal itr).2.theList = itr.theList
    rw [getPrevLinkedListIteratorVal_explicit itr hinv0]
    by_cases h : 1 < itr.count
    · rw [if_pos h]
      refine ⟨⟨hwf, rfl, ?_⟩, rfl⟩
      show itr.count - 1 ≤ itr.theList.size
      omega
    · rw [if_neg h]
      exact ⟨hinv0, rfl⟩
  | reset => exact ⟨⟨hwf, rfl, Nat.zero_le _⟩, rfl⟩

theorem runIteratorOps_Inv (ops : List IteratorOp) (itr : LinkedListIterator)
    (hinv : itr.Inv) :
    (runIteratorOps ops itr).Inv ∧ (runIteratorOps ops itr).theList = itr.theList := by
  induction ops generalizing itr with
  | nil => exact ⟨hinv, rfl⟩
  | cons op ops ih =>
    obtain ⟨h1, h2⟩ := applyIteratorOp_Inv op itr hinv
    obtain ⟨i1, i2⟩ := ih (applyIteratorOp op itr) h1
    have e : runIteratorOps (op :: ops) itr = runIteratorOps ops (applyIteratorOp op itr) := rfl
    rw [e]
    exact ⟨i1, by rw [i2, h2]⟩

/-- C31: for every well-formed list and every sequence of `getNext`, `getPrev`
and `reset` calls on the iterator made by `newLinkedListIterator` for it, the
iterator still refers to that list, its count is at most the size of the list,
and `getLinkedListIteratorCount + getLinkedListIteratorAvailable` equals
`linkedListSize` of the list. -/
theorem iterator_count_plus_available (list : LinkedList) (ops : List IteratorOp)
    (hwf : list.WF) :
    (runIteratorOps ops (newLinkedListIterator list)).theList = list ∧
    getLinkedListIteratorCount (runIteratorOps ops (newLinkedListIterator list)) ≤
      linkedListSize list ∧
    getLinkedListIteratorCount (runIteratorOps ops (newLinkedListIterator list)) +
      getLinkedListIteratorAvailable (runIteratorOps ops (newLinkedListIterator list)) =
      linkedListSize list := by
  obtain ⟨⟨hw, _, hle⟩, hl⟩ :=
    runIteratorOps_Inv ops (newLinkedListIterator list) (newLinkedListIterator_Inv list hwf)
  have hl2 : (runIteratorOps ops (newLinkedListIterator list)).theList = list := hl
  rw [hl2] at hle hw
  obtain ⟨_, w2, w3⟩ := hw
  refine ⟨hl2, hle, ?_⟩
  unfold getLinkedListIteratorAvailable getLinkedListIteratorCount linkedListSize
  rw [hl2, subSizeT_eq _ _ hle (by omega)]
  omega

/-- Witness for C31: the walk of the iterator test on the list `"A"` to `"E"`
(five `getNext`, one `getPrev`), where the count is 4 and 1 value is
available. -/
theorem iterator_count_plus_available_witness :
    exampleLinkedList.WF ∧ linkedListSize exampleLinkedList = 5 ∧
    getLinkedListIteratorCount (runIteratorOps
      [.getNext, .getNext, .getNext, .getNext, .getNext, .getPrev]
      (newLinkedListIterator exampleLinkedList)) = 4 ∧
    getLinkedListIteratorCount (runIteratorOps
      [.getNext, .getNext, .getNext, .getNext, .getNext, .getPrev]
      (newLinkedListIterator exampleLinkedList)) +
    getLinkedListIteratorAvailable (runIteratorOps
      [.getNext, .getNext, .getNext, .getNext, .getNext, .getPrev]
      (newLinkedListIterator exampleLinkedList)) = linkedListSize exampleLinkedList :=
  ⟨by decide, by decide, by decide,
    (iterator_count_plus_available exampleLinkedList
      [.getNext, .getNext, .getNext, .getNext, .getNext, .getPrev] (by decide)).2.2⟩

/-- C32, the code on every live iterator over a well-formed list:
`hasPrevLinkedListIteratorVal` is true iff the count is at least 1, but
`getPrevLinkedListIteratorVal` returns true iff the count is at least 2. After
exactly one value has been returned the iterator is not at the start, yet
`getPrev` returns false and changes nothing. When it does succeed it yields the
data of the current node and lowers the count by 1. -/
theorem getPrev_fails_at_first_value (itr : LinkedListIterator) (hinv : itr.Inv) :
    (hasPrevLinkedListIteratorVal itr = true ↔ 1 ≤ itr.count) ∧
    ((getPrevLinkedListIteratorVal itr).1.isSome = true ↔ 2 ≤ itr.count) ∧
    (itr.count = 1 →
      hasPrevLinkedListIteratorVal itr = true ∧ getPrevLinkedListIteratorVal itr = (none, itr)) ∧
    (2 ≤ itr.count →
      getPrevLinkedListIteratorVal itr =
        (some (itr.theList.head.getD itr.count none),
          { itr with count := itr.count - 1, curNode := itr.count - 1 })) := by
  have hp := getPrevLinkedListIteratorVal_explicit itr hinv
  obtain ⟨_, hcur, _⟩ := hinv
  have hhas : hasPrevLinkedListIteratorVal itr = true ↔ 1 ≤ itr.count := by
    unfold hasPrevLinkedListIteratorVal
    rw [decide_eq_true_iff, hcur]
    omega
  refine ⟨hhas, ?_, ?_, ?_⟩
  · rw [hp]
    by_cases h : 1 < itr.count
    · rw [if_pos h]
      exact ⟨fun _ => h, fun _ => rfl⟩
    · rw [if_neg h]
      exact ⟨fun hc => absurd hc (by simp), fun hc => absurd hc (by omega)⟩
  · intro h1
    refine ⟨hhas.2 (by omega), ?_⟩
    rw [hp, if_neg (by omega)]
  · intro h2
    rw [hp, if_pos (by omega)]

/-- The failing input of C32: on the list holding `"A"`, after the first
`getNext` has returned `"A"`, `hasPrev` is true and `getPrev` returns false. -/
theorem getPrev_fails_at_first_value_witness :
    (getNextLinkedListIteratorVal (newLinkedListIterator exampleOneNodeList)).1 =
      some (some "A") ∧
    (getNextLinkedListIteratorVal (newLinkedListIterator exampleOneNodeList)).2.Inv ∧
    (getNextLinkedListIteratorVal (newLinkedListIterator exampleOneNodeList)).2.count = 1 ∧
    hasPrevLinkedListIteratorVal
      (getNextLinkedListIteratorVal (newLinkedListIterator exampleOneNodeList)).2 = true ∧
    getPrevLinkedListIteratorVal
      (getNextLinkedListIteratorVal (newLinkedListIterator exampleOneNodeList)).2 =
      (none, (getNextLinkedListIteratorVal (newLinkedListIterator exampleOneNodeList)).2) :=
  ⟨by decide, by decide, by decide,
    ((getPrev_fails_at_first_value
      (getNextLinkedListIteratorVal (newLinkedListIterator exampleOneNodeList)).2
      (by decide)).2.2.1 (by decide)).1,
    ((getPrev_fails_at_first_value
      (getNextLinkedListIteratorVal (newLinkedListIterator exampleOneNodeList)).2
      (by decide)).2.2.1 (by decide)).2⟩

/-! ## Insertion of a `NULL` value into the linked list -/

/-- C34, the code on every well-formed list with room: `addLinkedListValAt`
called with a `NULL` value and an index up to `size` does not fail; it returns
true, links a new node with `NULL` data after the node at `index` and raises
`size` by 1. -/
theorem addLinkedListValAt_accepts_null (list : LinkedList) (index : Nat) (hwf : list.WF)
    (hroom : list.size ≠ list.maxCapacity) (hidx : index ≤ list.size) :
    addLinkedListValAt list index none =
      (true, { list with
                head := list.head.take (index + 1) ++ none :: list.head.drop (index + 1)
                size := list.size + 1 }) ∧
    (addLinkedListValAt list index none).2.head.length = list.head.length + 1 ∧
    (addLinkedListValAt list index none).2 ≠ list := by
  obtain ⟨w1, w2, w3⟩ := hwf
  have hnode : getLinkedNodeAt list.head (some 0) index = some index := by
    rw [getLinkedNodeAt_eq _ 0 _ (by omega), if_pos (by omega)]
    simp
  have hadd : addSizeT list.size 1 = list.size + 1 := addSizeT_one list.size (by omega)
  have e : addLinkedListValAt list index none =
      (true, { list with
                head := list.head.take (index + 1) ++ none :: list.head.drop (index + 1)
                size := list.size + 1 }) := by
    unfold addLinkedListValAt
    rw [if_neg hroom, hnode]
    simp only [hadd, addAfterLinkedNode, newLinkedNode]
  refine ⟨e, ?_, ?_⟩
  · rw [e]
    simp only [List.length_append, List.length_cons, List.length_take, List.length_drop]
    omega
  · rw [e]
    intro hc
    have hs : list.size + 1 = list.size := congrArg LinkedList.size hc
    omega

/-- The failing input of C34: `addLinkedListValAt(list, 0, NULL)` on the new
list of maximum capacity 5 returns true and leaves a list of size 1 whose
single node holds `NULL`. -/
theorem addLinkedListValAt_accepts_null_witness :
    (newLinkedList 5).WF ∧
    addLinkedListValAt (newLinkedList 5) 0 none =
      (true, { head := [none, none], size := 1, maxCapacity := 5 }) ∧
    addLinkedListValAt (newLinkedList 5) 0 none =
      (true, { newLinkedList 5 with
                head := (newLinkedList 5).head.take (0 + 1) ++
                  none :: (newLinkedList 5).head.drop (0 + 1)
                size := (newLinkedList 5).size + 1 }) :=
  ⟨by decide, by decide,
    (addLinkedListValAt_accepts_null (newLinkedList 5) 0 (by decide) (by decide)
      (by decide)).1⟩

/-! ## The crawler -/

theorem crawlLoop_spec {δ : Type}
    (callback : LinkedListCrawler δ → Bool × LinkedListCrawler δ)
    (hcb : ∀ c : LinkedListCrawler δ,
      (callback c).2.itr.curNode = c.itr.curNode ∧
      (callback c).2.itr.count = c.itr.count ∧
      (callback c).2.itr.theList.head.length = c.itr.theList.head.length ∧
      (callback c).2.itr.theList.size = c.itr.theList.size ∧
      (callback c).2.itr.theList.maxCapacity = c.itr.theList.maxCapacity)
    (fuel : Nat) (crawler : LinkedListCrawler δ) (hinv : crawler.itr.Inv)
    (hfuel : crawler.itr.theList.size - crawler.itr.count < fuel) :
    ∃ (b : Bool) (last : LinkedListCrawler δ) (calls : List (Nat × Bool)),
      crawlLoop callback fuel crawler = some (b, last, calls) ∧
      calls.map Prod.fst = List.range' (crawler.itr.count + 1) calls.length ∧
      last.itr.count = crawler.itr.count + calls.length ∧
      last.itr.theList.size = crawler.itr.theList.size ∧
      calls.length ≤ crawler.itr.theList.size - crawler.itr.count ∧
      (∀ e ∈ calls.dropLast, e.2 = true) ∧
      (b = true → (∀ e ∈ calls, e.2 = true) ∧ last.itr.count = crawler.itr.theList.size) ∧
      (b = false → calls.getLast? = some (last.itr.count, false)) := by
  induction fuel generalizing crawler with
  | zero => omega
  | succ fuel ih =>
    have hinv0 := hinv
    obtain ⟨⟨w1, w2, w3⟩, hcur, hle⟩ := hinv
    rw [crawlLoop, getNextLinkedListIteratorVal_explicit crawler.itr hinv0]
    by_cases h : crawler.itr.count < crawler.itr.theList.size
    · rw [if_pos h]
      simp only
      obtain ⟨c1, c2, c3, c4, c5⟩ := hcb { crawler with itr :=
        { crawler.itr with curNode := crawler.itr.count + 1, count := crawler.itr.count + 1 } }
      simp only at c1 c2 c3 c4 c5
      rcases hres : callback { crawler with itr :=
        { crawler.itr with curNode := crawler.itr.count + 1,
                           count := crawler.itr.count + 1 } } with ⟨r, next⟩
      rw [hres] at c1 c2 c3 c4 c5
      simp only at c1 c2 c3 c4 c5
      cases r with
      | false =>
        refine ⟨false, next, [(crawler.itr.count + 1, false)], ?_, ?_, ?_, c4, ?_, ?_, ?_, ?_⟩
        · simp [getLinkedListIteratorCount]
        · rfl
        · rw [c2]
          rfl
        · show 1 ≤ crawler.itr.theList.size - crawler.itr.count
          omega
        · intro e he
          simp at he
        · intro hb
          simp at hb
        · intro _
          rw [c2]
          rfl
      | true =>
        have hinv1 : next.itr.Inv := by
          refine ⟨⟨?_, ?_, ?_⟩, ?_, ?_⟩
          · rw [c3, c4]
            exact w1
          · rw [c4, c5]
            exact w2
          · rw [c5]
            exact w3
          · rw [c1, c2]
          · rw [c2, c4]
            exact h
        obtain ⟨b, last, calls, i1, i2, i3, i4, i5, i6, i7, i8⟩ := ih next hinv1 (by
          rw [c2, c4]
          omega)
        rw [c2] at i2 i3
        rw [c4] at i4 i7
        rw [c2, c4] at i5
        refine ⟨b, last, (crawler.itr.count + 1, true) :: calls, ?_, ?_, ?_, i4, ?_, ?_, ?_, ?_⟩
        · simp [getLinkedListIteratorCount, i1]
        · rw [List.map_cons, i2, List.length_cons, List.range'_succ]
        · rw [i3, List.length_cons]
          omega
        · rw [List.length_cons]
          omega
        · intro e he
          cases calls with
          | nil => simp at he
          | cons c cs =>
            rw [List.dropLast_cons₂, List.mem_cons] at he
            rcases he with he | he
            · rw [he]
            · exact i6 e he
        · intro hb
          obtain ⟨j1, j2⟩ := i7 hb
          refine ⟨?_, j2⟩
          intro e he
          rw [List.mem_cons] at he
          rcases he with he | he
          · rw [he]
          · exact j1 e he
        · intro hb
          have hl := i8 hb
          cases calls with
          | nil => simp at hl
          | cons c cs =>
            rw [List.getLast?_cons_cons]
            exact hl
    · rw [if_neg h]
      simp only
      refine ⟨true, _, [], rfl, rfl, rfl, rfl, Nat.zero_le _, ?_, ?_, ?_⟩
      · intro e he
        simp at he
      · intro _
        refine ⟨fun e he => by simp at he, ?_⟩
        show crawler.itr.count = crawler.itr.theList.size
        omega
      · intro hb
        simp at hb

/-- C33, the claim as stated fails: `exampleResetOnceCallback` never modifies
the list, yet on the two-element list, started with no value returned so far,
the crawler calls it three times, on the elements at positions 0, 0 and 1,
because the callback restarts the crawler with `resetLinkedListCrawler`. -/
theorem crawler_reset_in_callback :
    (∀ c : LinkedListCrawler Nat,
      (exampleResetOnceCallback c).2.itr.theList = c.itr.theList) ∧
    linkedListSize exampleTwoNodeList = 2 ∧
    getLinkedListCrawlerCount (newLinkedListCrawler exampleTwoNodeList :
      LinkedListCrawler Nat) = 0 ∧
    (startLinkedListCrawler exampleResetOnceCallback 10
      (newLinkedListCrawler exampleTwoNodeList) (some 0)).map (fun r => (r.1, r.2.2)) =
      some (true, [(1, true), (1, true), (2, true)]) ∧
    ¬ [(1, true), (1, true), (2, true)].length ≤ linkedListSize exampleTwoNodeList - 0 := by
  refine ⟨?_, by decide, by decide, by decide, by decide⟩
  intro c
  unfold exampleResetOnceCallback
  split <;> rfl

/-- C33 as amended: for a crawler whose iterator is live on a well-formed list
of `n` values and has returned `k` of them, and a callback that modifies
neither the list structure nor the position and count of the iterator,
`startLinkedListCrawler` returns once the fuel exceeds `n - k`; the callback
has then been called with the counts `k + 1, k + 2, ...` in order, at most
`n - k` times, every call but the last returned true; when the result is false
the last call returned false and the count is the count of that call (its
index + 1), and when the result is true every call returned true and the count
is `n`. -/
theorem crawler_visits_in_order {δ : Type}
    (callback : LinkedListCrawler δ → Bool × LinkedListCrawler δ)
    (crawler : LinkedListCrawler δ) (data : Option δ) (fuel : Nat)
    (hcb : ∀ c : LinkedListCrawler δ,
      (callback c).2.itr.curNode = c.itr.curNode ∧
      (callback c).2.itr.count = c.itr.count ∧
      (callback c).2.itr.theList.head.length = c.itr.theList.head.length ∧
      (callback c).2.itr.theList.size = c.itr.theList.size ∧
      (callback c).2.itr.theList.maxCapacity = c.itr.theList.maxCapacity)
    (hinv : crawler.itr.Inv)
    (hfuel : crawler.itr.theList.size - crawler.itr.count < fuel) :
    ∃ (b : Bool) (last : LinkedListCrawler δ) (calls : List (Nat × Bool)),
      startLinkedListCrawler callback fuel crawler data = some (b, last, calls) ∧
      calls.map Prod.fst = List.range' (crawler.itr.count + 1) calls.length ∧
      calls.length ≤ crawler.itr.theList.size - crawler.itr.count ∧
      (∀ e ∈ calls.dropLast, e.2 = true) ∧
      (b = false → calls.getLast? = some (last.itr.count, false)) ∧
      (b = true → (∀ e ∈ calls, e.2 = true) ∧
        getLinkedListCrawlerCount last = crawler.itr.theList.size) := by
  obtain ⟨b, last, calls, i1, i2, _, _, i5, i6, i7, i8⟩ :=
    crawlLoop_spec callback hcb fuel { crawler with callbackData := data } hinv hfuel
  exact ⟨b, last, calls, i1, i2, i5, i6, i8, i7⟩

/-- Witness for C33 as amended: on the list `"A"` to `"E"` a callback that
stops at the second element is called with the counts 1 and 2, and the crawler
returns false with count 2. -/
theorem crawler_visits_in_order_witness :
    (newLinkedListCrawler exampleLinkedList : LinkedListCrawler Nat).itr.Inv ∧
    (startLinkedListCrawler exampleStopAtSecondCallback 6
      (newLinkedListCrawler exampleLinkedList) (some 0)).map
        (fun r => (r.1, r.2.1.itr.count, r.2.2)) = some (false, 2, [(1, true), (2, false)]) ∧
    ∃ (b : Bool) (last : LinkedListCrawler Nat) (calls : List (Nat × Bool)),
      startLinkedListCrawler exampleStopAtSecondCallback 6
        (newLinkedListCrawler exampleLinkedList) (some 0) = some (b, last, calls) ∧
      calls.map Prod.fst = List.range' (0 + 1) calls.length ∧
      calls.length ≤ 5 - 0 ∧
      (∀ e ∈ calls.dropLast, e.2 = true) ∧
      (b = false → calls.getLast? = some (last.itr.count, false)) ∧
      (b = true → (∀ e ∈ calls, e.2 = true) ∧ getLinkedListCrawlerCount last = 5) :=
  ⟨by decide, by decide,
    crawler_visits_in_order exampleStopAtSecondCallback
      (newLinkedListCrawler exampleLinkedList) (some 0) 6
      (fun _ => ⟨rfl, rfl, rfl, rfl, rfl⟩) (by decide) (by decide)⟩

/-! ## Well-formed linked lists -/

theorem newLinkedList_WF (m : Nat) (hm : m ≤ SIZE_MAX) : (newLinkedList m).WF :=
  ⟨rfl, Nat.zero_le _, hm⟩

theorem addLinkedListValAt_WF (list : LinkedList) (index : Nat) (val : Option String)
    (hwf : list.WF) : (addLinkedListValAt list index val).2.WF := by
  obtain ⟨w1, w2, w3⟩ := hwf
  unfold addLinkedListValAt
  by_cases h : list.size = list.maxCapacity
  · rw [if_pos h]
    exact ⟨w1, w2, w3⟩
  · rw [if_neg h]
    rcases getLinkedNodeAt list.head (some 0) index with _ | node
    · exact ⟨w1, w2, w3⟩
    · have hadd : addSizeT list.size 1 = list.size + 1 := addSizeT_one list.size (by omega)
      refine ⟨?_, ?_, w3⟩
      · simp only [hadd, addAfterLinkedNode, List.length_append, List.length_cons,
          List.length_take, List.length_drop]
        omega
      · simp only [hadd]
        omega

/-! ## The nulling loop with its `int` counter -/

theorem intCounterLoop_in_range (newCapacity room i : Nat) (vals : List (Option String))
    (h1 : i + room = INT_MAX) (h2 : newCapacity ≤ INT_MAX) (h3 : i ≤ newCapacity)
    (h4 : vals.length = newCapacity) :
    Strict.intCounterLoop newCapacity room i vals =
      some (vals.take i ++ List.replicate (newCapacity - i) none) := by
  induction room generalizing i vals with
  | zero =>
    have hi : i = newCapacity := by omega
    rw [Strict.intCounterLoop, if_neg (by omega), hi, Nat.sub_self, ← h4, List.take_length]
    simp
  | succ room ih =>
    rw [Strict.intCounterLoop]
    by_cases h : i < newCapacity
    · rw [if_pos h, ih (i + 1) (vals.set i none) (by omega) (by omega)
        (by rw [List.length_set]; exact h4)]
      congr 1
      apply List.ext_getElem?
      intro k
      by_cases hk : k < i
      · rw [List.getElem?_append_left (by rw [List.length_take, List.length_set]; omega),
          List.getElem?_append_left (by rw [List.length_take]; omega),
          List.getElem?_take, List.getElem?_take, if_pos (by omega), if_pos hk,
          List.getElem?_set, if_neg (by omega)]
      · by_cases hk2 : k = i
        · subst hk2
          rw [List.getElem?_append_left (by rw [List.length_take, List.length_set]; omega),
            List.getElem?_append_right (by rw [List.length_take]; omega),
            List.getElem?_take, if_pos (by omega), List.getElem?_set, if_pos rfl,
            if_pos (by omega), List.getElem?_replicate, if_pos (by
              rw [List.length_take]
              omega)]
        · rw [List.getElem?_append_right (by rw [List.length_take, List.length_set]; omega),
            List.getElem?_append_right (by rw [List.length_take]; omega),
            List.getElem?_replicate, List.getElem?_replicate]
          simp only [List.length_take, List.length_set]
          by_cases hk3 : k < newCapacity
          · rw [if_pos (by omega), if_pos (by omega)]
          · rw [if_neg (by omega), if_neg (by omega)]
    · have hi : i = newCapacity := by omega
      rw [if_neg h, hi, Nat.sub_self, ← h4, List.take_length]
      simp

theorem strict_initNewVals_in_range (vals : List (Option String)) (capacity newCapacity : Nat)
    (h1 : capacity ≤ newCapacity) (h2 : newCapacity ≤ INT_MAX)
    (h3 : vals.length = newCapacity) :
    Strict.initNewVals vals capacity newCapacity =
      some (vals.take capacity ++ List.replicate (newCapacity - capacity) none) := by
  have hI : INT_MAX = 2 ^ 31 - 1 := rfl
  have hlow : capacity % 2 ^ 32 = capacity := Nat.mod_eq_of_lt (by omega)
  unfold Strict.initNewVals
  simp only [hlow]
  rw [if_pos (by omega)]
  exact intCounterLoop_in_range newCapacity _ capacity vals (by omega) h2 h1 h3

theorem strict_initNewVals_skip (vals : List (Option String)) (capacity newCapacity : Nat)
    (h31 : 2 ^ 31 ≤ capacity) (h32 : capacity < 2 ^ 32) (hN : newCapacity ≤ 2 ^ 33) :
    Strict.initNewVals vals capacity newCapacity = some vals := by
  have hlow : capacity % 2 ^ 32 = capacity := Nat.mod_eq_of_lt h32
  unfold Strict.initNewVals
  simp only [hlow]
  rw [if_neg (by omega), if_neg (by omega)]

theorem strict_ensureArrayCapacity_in_range (r : Bool) (junk : Nat → Option String)
    (list : ArrayList) (hwf : list.WF) (hint : list.maxCapacity ≤ INT_MAX) :
    Strict.ensureArrayCapacity r junk list = some (ensureArrayCapacity r list) := by
  obtain ⟨w1, w2, w3, w4, w5⟩ := hwf
  unfold Strict.ensureArrayCapacity ensureArrayCapacity
  by_cases h1 : list.size = list.capacity
  · by_cases h2 : list.capacity = list.maxCapacity
    · simp only [if_pos h1, if_pos h2]
    · cases r with
      | false => simp only [if_pos h1, if_neg h2, if_true]
      | true =>
        have hg := grow_capacity list.capacity list.maxCapacity w3 w4
        simp only [if_pos h1, if_neg h2, Bool.true_eq_false, if_false, hg]
        have hle : list.capacity ≤ min (2 * list.capacity) list.maxCapacity := by omega
        rw [strict_initNewVals_in_range _ list.capacity _ hle (by omega) (by
          rw [List.length_append, List.length_map, List.length_range, w1]
          omega)]
        simp only [initNewVals_eq]
        rw [← w1, List.take_left]
  · simp only [if_neg h1]

theorem strict_ensureArrayCapacity_skip (junk : Nat → Option String) (list : ArrayList)
    (hsize : list.size = list.capacity) (h31 : 2 ^ 31 ≤ list.capacity)
    (h32 : list.capacity < 2 ^ 32) (hcap : list.capacity < list.maxCapacity)
    (hmax : list.maxCapacity ≤ SIZE_MAX) :
    Strict.ensureArrayCapacity true junk list =
      some (true, { list with
        vals := list.vals ++
          (List.range (min (2 * list.capacity) list.maxCapacity - list.capacity)).map
            (fun k => junk (list.capacity + k))
        capacity := min (2 * list.capacity) list.maxCapacity }) := by
  have hne : list.capacity ≠ list.maxCapacity := by omega
  have hg := grow_capacity list.capacity list.maxCapacity (by omega) hmax
  unfold Strict.ensureArrayCapacity
  simp only [if_pos hsize, if_neg hne, Bool.true_eq_false, if_false, hg]
  rw [strict_initNewVals_skip _ list.capacity _ h31 h32 (by omega)]

/-! ## Calls with a `NULL` value, strictly -/

/-- C19, the code on every well-formed list: `setArrayListValAt` with a `NULL`
value at an index below `size`, and `addArrayListValAt` with a `NULL` value at
an index up to `size` on a list with a free slot, do not return failure: there
is no test of the value, both reach `strdup(NULL)`, whose behaviour is
undefined, and do not return at all. -/
theorem null_value_is_undefined (r : Bool) (junk : Nat → Option String) (list : ArrayList)
    (index : Nat) (hwf : list.WF) :
    (index < list.size → Strict.setArrayListValAt list index none = none) ∧
    (index ≤ list.size → list.size < list.capacity →
      Strict.addArrayListValAt r junk list index none = none) := by
  obtain ⟨_, _, w3, w4, _⟩ := hwf
  constructor
  · intro h
    simp [Strict.setArrayListValAt, Strict.strdup, h]
  · intro h1 h2
    have hne : ¬ list.size = list.capacity := by omega
    have hadd : addSizeT list.size 1 = list.size + 1 := addSizeT_one list.size (by omega)
    have hens : Strict.ensureArrayCapacity r junk list = some (true, list) := by
      simp [Strict.ensureArrayCapacity, hne]
    unfold Strict.addArrayListValAt
    rw [if_neg (by omega), hens]
    simp only [hadd, Strict.setArrayListValAt, Strict.strdup]
    rw [if_pos (by omega)]

/-- The failing input of C19: on `exampleList` (contents `"a"`, `"b"`, four
slots) neither call with `NULL` at index 0 returns. -/
theorem null_value_is_undefined_witness :
    exampleList.WF ∧
    Strict.setArrayListValAt exampleList 0 none = none ∧
    Strict.addArrayListValAt true exampleJunk exampleList 0 none = none :=
  ⟨by decide,
    (null_value_is_undefined true exampleJunk exampleList 0 (by decide)).1 (by decide),
    (null_value_is_undefined true exampleJunk exampleList 0 (by decide)).2 (by decide)
      (by decide)⟩

/-! ## Growth past the range of `int` -/

theorem exampleFullListOf_WF (n : Nat) (h0 : 0 < n) (hn : n ≤ SIZE_MAX) :
    (exampleFullListOf n).WF := by
  refine ⟨?_, Nat.le_refl _, hn, Nat.le_refl _, ?_⟩
  · show (List.replicate n (some "a")).length = n
    exact List.length_replicate _ _
  · intro h
    have h1 : n = 0 := h
    omega

theorem exampleFullListOf_SlotsOk (n : Nat) : (exampleFullListOf n).SlotsOk := by
  constructor
  · intro x hx
    have hx1 : x ∈ (List.replicate n (some "a")).take n := hx
    have hx2 := List.mem_of_mem_take hx1
    rw [List.mem_replicate] at hx2
    rw [hx2.2]
    rfl
  · show (List.replicate n (some "a")).drop n = List.replicate (n - n) none
    rw [Nat.sub_self, List.drop_eq_nil_of_le (by rw [List.length_replicate])]
    rfl

/-- C39, the code on a full list whose capacity is from `2 ^ 31` up to
`2 ^ 32 - 1` and below `maxCapacity`: `ensureArrayCapacity` succeeds and sets
the capacity to `min (2 * capacity) maxCapacity`, the old slots are kept, but
the `int` counter of the nulling loop starts negative, the loop body never
runs, and every new slot still holds whatever `realloc` handed out instead of
`NULL`. -/
theorem ensureArrayCapacity_skips_new_slots (junk : Nat → Option String) (list : ArrayList)
    (hlen : list.vals.length = list.capacity) (hsize : list.size = list.capacity)
    (h31 : 2 ^ 31 ≤ list.capacity) (h32 : list.capacity < 2 ^ 32)
    (hcap : list.capacity < list.maxCapacity) (hmax : list.maxCapacity ≤ SIZE_MAX) :
    ∃ list1 : ArrayList,
      Strict.ensureArrayCapacity true junk list = some (true, list1) ∧
      list1.size = list.size ∧
      list1.capacity = min (2 * list.capacity) list.maxCapacity ∧
      list1.vals.take list.capacity = list.vals ∧
      ∀ i : Nat, list.capacity ≤ i → i < list1.capacity → list1.vals[i]? = some (junk i) := by
  refine ⟨_, strict_ensureArrayCapacity_skip junk list hsize h31 h32 hcap hmax, rfl, rfl,
    ?_, ?_⟩
  · show (list.vals ++ _).take list.capacity = list.vals
    rw [← hlen, List.take_left]
  · intro i hi1 hi2
    have hi3 : i < min (2 * list.capacity) list.maxCapacity := hi2
    show (list.vals ++ _)[i]? = some (junk i)
    rw [List.getElem?_append_right (by omega), List.getElem?_map,
      List.getElem?_range (by omega)]
    simp only [Option.map_some', hlen]
    congr 2
    omega

/-- The failing input of C39: the full list of `2 ^ 31` values grows to
`2 ^ 32` slots, and slot `2 ^ 31` holds the junk pointer, not `NULL`. -/
theorem ensureArrayCapacity_skips_new_slots_witness :
    exampleHugeList.size = exampleHugeList.capacity ∧
    exampleHugeList.capacity = 2 ^ 31 ∧ exampleHugeList.SlotsOk ∧
    ∃ list1 : ArrayList,
      Strict.ensureArrayCapacity true exampleJunk exampleHugeList = some (true, list1) ∧
      list1.capacity = 2 ^ 32 ∧ list1.vals[2 ^ 31]? = some (some "junk") := by
  obtain ⟨list1, e1, _, e3, _, e5⟩ := ensureArrayCapacity_skips_new_slots exampleJunk
    exampleHugeList (List.length_replicate _ _) rfl (Nat.le_refl _) (by decide) (by decide)
    (Nat.le_refl _)
  have hc : list1.capacity = 2 ^ 32 := by
    rw [e3]
    decide
  exact ⟨rfl, rfl, exampleFullListOf_SlotsOk _, list1, e1, hc,
    e5 (2 ^ 31) (Nat.le_refl _) (by rw [hc]; decide)⟩

theorem intCounterLoop_overflow (newCapacity room i : Nat) (vals : List (Option String))
    (h1 : i + room = INT_MAX) (h2 : INT_MAX < newCapacity) :
    Strict.intCounterLoop newCapacity room i vals = none := by
  induction room generalizing i vals with
  | zero => rw [Strict.intCounterLoop, if_pos (by omega)]
  | succ room ih =>
    rw [Strict.intCounterLoop, if_pos (by omega)]
    exact ih (i + 1) _ (by omega)

theorem strict_ensureArrayCapacity_overflow (junk : Nat → Option String) (list : ArrayList)
    (hsize : list.size = list.capacity) (hle : list.capacity ≤ INT_MAX)
    (hgt : INT_MAX < min (2 * list.capacity) list.maxCapacity)
    (hmax : list.maxCapacity ≤ SIZE_MAX) :
    Strict.ensureArrayCapacity true junk list = none := by
  have hI : INT_MAX = 2 ^ 31 - 1 := rfl
  have hne : list.capacity ≠ list.maxCapacity := by omega
  have hg := grow_capacity list.capacity list.maxCapacity (by omega) hmax
  have hlow : list.capacity % 2 ^ 32 = list.capacity := Nat.mod_eq_of_lt (by omega)
  unfold Strict.ensureArrayCapacity
  simp only [if_pos hsize, if_neg hne, Bool.true_eq_false, if_false, hg]
  have hinit : ∀ vals : List (Option String),
      Strict.initNewVals vals list.capacity (min (2 * list.capacity) list.maxCapacity) =
        none := by
    intro vals
    unfold Strict.initNewVals
    simp only [hlow]
    rw [if_pos (by omega)]
    exact intCounterLoop_overflow _ _ _ _ (by omega) hgt
  rw [hinit]

/-- C13, the code on a full well-formed list and an append of a present value
that has to grow the array. When the old capacity fits in `int` and the new one
does not, the `int` counter of the nulling loop overflows and the behaviour of
the call is undefined. When the old capacity is from `2 ^ 31` up to
`2 ^ 32 - 1`, with room for two more values, the call succeeds, but the slot
after the new last value, which lies in `[size, capacity)`, holds whatever
`realloc` handed out; when that is not `NULL` the list no longer satisfies the
slot invariant. -/
theorem growth_breaks_slot_invariant (junk : Nat → Option String) (list : ArrayList)
    (val : String) (hwf : list.WF) (hsize : list.size = list.capacity) :
    (list.capacity ≤ INT_MAX → INT_MAX < min (2 * list.capacity) list.maxCapacity →
      Strict.addLastArrayListVal true junk list (some val) = none) ∧
    (2 ^ 31 ≤ list.capacity → list.capacity < 2 ^ 32 →
      list.capacity + 1 < list.maxCapacity → junk (list.capacity + 1) ≠ none →
      ∃ list1 : ArrayList,
        Strict.addLastArrayListVal true junk list (some val) = some (true, list1) ∧
        list1.size = list.size + 1 ∧ list1.size < list1.capacity ∧
        list1.vals[list1.size]? = some (junk (list.capacity + 1)) ∧
        ¬ list1.SlotsPointwise) := by
  obtain ⟨w1, w2, w3, w4, w5⟩ := hwf
  constructor
  · intro hle hgt
    unfold Strict.addLastArrayListVal Strict.addArrayListValAt
    rw [if_neg (Nat.lt_irrefl _), strict_ensureArrayCapacity_overflow junk list hsize hle hgt w4]
  · intro h31 h32 hroom hjunk
    have he := strict_ensureArrayCapacity_skip junk list hsize h31 h32 (by omega) w4
    have hadd : addSizeT list.size 1 = list.size + 1 := addSizeT_one list.size (by omega)
    have e : Strict.addLastArrayListVal true junk list (some val) =
        some (true, { list with
          vals := (((list.vals ++
            (List.range (min (2 * list.capacity) list.maxCapacity - list.capacity)).map
              (fun k => junk (list.capacity + k))).set list.size none).set list.size
                (some val))
          size := list.size + 1
          capacity := min (2 * list.capacity) list.maxCapacity }) := by
      unfold Strict.addLastArrayListVal Strict.addArrayListValAt
      rw [if_neg (Nat.lt_irrefl _), he]
      simp only [shiftUp_self, hadd, Strict.setArrayListValAt, Strict.strdup]
      rw [if_pos (by omega)]
    have hslot : (((list.vals ++
        (List.range (min (2 * list.capacity) list.maxCapacity - list.capacity)).map
          (fun k => junk (list.capacity + k))).set list.size none).set list.size
            (some val))[list.size + 1]? = some (junk (list.capacity + 1)) := by
      rw [List.getElem?_set, if_neg (by omega), List.getElem?_set, if_neg (by omega),
        List.getElem?_append_right (by omega), List.getElem?_map,
        List.getElem?_range (by omega)]
      simp only [Option.map_some', w1, hsize]
      congr 2
      omega
    refine ⟨_, e, rfl, ?_, hslot, ?_⟩
    · show list.size + 1 < min (2 * list.capacity) list.maxCapacity
      omega
    · intro hp
      have h2 := hp.2 (list.size + 1) (Nat.le_refl _) (by
        show list.size + 1 < min (2 * list.capacity) list.maxCapacity
        omega)
      have h3 : some (junk (list.capacity + 1)) = some none := by
        rw [← hslot]
        exact h2
      exact hjunk (Option.some.inj h3)

/-- The failing inputs of C13. The full list of `2 ^ 30` values satisfies the
slot invariant, and one more append is undefined. The full list of `2 ^ 31`
values satisfies it too; after one more append its size is `2 ^ 31 + 1` and
slot `2 ^ 31 + 1` holds the junk pointer. -/
theorem growth_breaks_slot_invariant_witness :
    (exampleFullListOf (2 ^ 30)).WF ∧ (exampleFullListOf (2 ^ 30)).SlotsOk ∧
    Strict.addLastArrayListVal true exampleJunk (exampleFullListOf (2 ^ 30)) (some "b") =
      none ∧
    exampleHugeList.WF ∧ exampleHugeList.SlotsOk ∧ exampleHugeList.SlotsPointwise ∧
    ∃ list1 : ArrayList,
      Strict.addLastArrayListVal true exampleJunk exampleHugeList (some "b") =
        some (true, list1) ∧
      list1.size = 2 ^ 31 + 1 ∧ list1.vals[list1.size]? = some (some "junk") ∧
      ¬ list1.SlotsPointwise := by
  have hwf0 : (exampleFullListOf (2 ^ 30)).WF := exampleFullListOf_WF _ (by decide) (by decide)
  have hwf : exampleHugeList.WF := exampleFullListOf_WF _ (by decide) (by decide)
  have hs : exampleHugeList.SlotsOk := exampleFullListOf_SlotsOk _
  have hA := (growth_breaks_slot_invariant exampleJunk (exampleFullListOf (2 ^ 30)) "b"
    hwf0 rfl).1 (by decide) (by decide)
  obtain ⟨list1, e1, e2, _, e4, e5⟩ := (growth_breaks_slot_invariant exampleJunk
    exampleHugeList "b" hwf rfl).2 (Nat.le_refl _) (by decide) (by decide) (by
      intro h
      cases h)
  exact ⟨hwf0, exampleFullListOf_SlotsOk _, hA, hwf, hs, SlotsOk.pointwise hwf hs, list1, e1,
    e2, e4, e5⟩

/-! ## Within the range of `int` the exact counter is the code -/

theorem strict_setArrayListValAt_present (list : ArrayList) (index : Nat) (val : String) :
    Strict.setArrayListValAt list index (some val) =
      some (setArrayListValAt list index val) := by
  unfold Strict.setArrayListValAt setArrayListValAt
  by_cases h : index < list.size
  · simp only [if_pos h, Strict.strdup]
  · simp only [if_neg h]

theorem strict_addArrayListValAt_in_range (r : Bool) (junk : Nat → Option String)
    (list : ArrayList) (index : Nat) (val : String) (hwf : list.WF)
    (hint : list.maxCapacity ≤ INT_MAX) :
    Strict.addArrayListValAt r junk list index (some val) =
      some (addArrayListValAt r list index val) := by
  unfold Strict.addArrayListValAt addArrayListValAt
  by_cases h : index > list.size
  · simp only [if_pos h]
  · simp only [if_neg h]
    rw [strict_ensureArrayCapacity_in_range r junk list hwf hint]
    rcases ensureArrayCapacity r list with ⟨b, list1⟩
    cases b with
    | false => rfl
    | true =>
      simp only
      rw [strict_setArrayListValAt_present]

end DataStructure
